import Mathlib

/-!
# Include resolution of `HighLevelGpuProgram::_resolveIncludes`

A shallow embedding of `OgreMain/src/OgreHighLevelGpuProgram.cpp`, lines 206-323.

* `Ogre::String` (a `std::string`) is a list of characters, one per `char`.
* A `size_t` that holds the result of a search is an `Option Nat`: `none` is
  `String::npos`, the largest `size_t`, larger than every offset into a string.
* `ResourceGroupManager::openResource` followed by `getAsString` is a function
  `loader` from the path to the text of the resource or to the exception it raises;
  the paths it was asked for are recorded in order.
* The `while` loop runs on fuel; `_resolveIncludes` gives it one more than the length
  of the source.
-/

namespace Ogre

/-- An `Ogre::String`. -/
abbrev Str := List Char

/-- What a call of `_resolveIncludes` can raise. -/
inductive Failure (ε : Type) where
  /-- The exception of `OGRE_EXCEPT(Exception::ERR_INTERNAL_ERROR, description, ...)`,
  lines 260 and 272. -/
  | ERR_INTERNAL_ERROR (description : Str)
  /-- An exception raised by `openResource`, line 281; it is not caught. -/
  | openResourceFailed (e : ε)
  /-- The `std::out_of_range` of `std::string::substr` when `pos > size()`. -/
  | out_of_range
  deriving DecidableEq, Repr

/-- The result of a call: a returned string or the exception that left the call. -/
inductive Returned (ε : Type) where
  | value (outSource : Str)
  | raised (e : Failure ε)
  deriving DecidableEq, Repr

/-- A finished call: the paths passed to `openResource`, in order, and the result. -/
structure Outcome (ε : Type) where
  opened : List Str
  result : Returned ε
  deriving DecidableEq, Repr

/-- Scan of `std::string::find`: the first offset at or after `i` where `pat` starts. -/
def findAux (pat : Str) : Str → Nat → Option Nat
  | [], i => if pat.isEmpty then some i else none
  | c :: cs, i => if pat.isPrefixOf (c :: cs) then some i else findAux pat cs (i + 1)

/-- The call `s.find(pat, pos)`: the lowest offset `>= pos` at which `pat` starts, else `npos`. -/
def find (s pat : Str) (pos : Nat) : Option Nat :=
  if pos ≤ s.length then findAux pat (s.drop pos) pos else none

/-- Downward scan of `std::string::rfind` from offset `n` to offset `0`. -/
def rfindAux (s pat : Str) : Nat → Option Nat
  | 0 => if pat.isPrefixOf s then some 0 else none
  | n + 1 => if pat.isPrefixOf (s.drop (n + 1)) then some (n + 1) else rfindAux s pat n

/-- The call `s.rfind(pat, pos)`: the highest offset `<= pos` at which `pat` starts, else `npos`. -/
def rfind (s pat : Str) (pos : Nat) : Option Nat :=
  if pat.length ≤ s.length then rfindAux s pat (min (s.length - pat.length) pos) else none

/-- The call `s.substr(pos, n)`, with `none` for `npos` in either argument: raises
`std::out_of_range` when `pos > size()`, and the count is cut at the end of `s`. -/
def substr {ε : Type} (s : Str) (pos : Option Nat) (n : Option Nat) : Except (Failure ε) Str :=
  match pos with
  | none => .error .out_of_range
  | some p =>
    if p > s.length then .error .out_of_range
    else match n with
      | none => .ok (s.drop p)
      | some k => .ok ((s.drop p).take k)

/-- Modelled from the spec: `StringUtil::endsWith` is declared in OgreString.h, which is
not among the sources. The spec words the test as "origin filename ending in `cg`" and
the comparison as case-sensitive, so this is the plain suffix test. -/
def endsWith (str pattern : Str) : Bool :=
  decide (str.length ≥ pattern.length) && !pattern.isEmpty &&
    (str.drop (str.length - pattern.length) == pattern)

/-- Modelled from the spec: `StringUtil::format(" \"%s\"", name)` is declared in
OgreString.h, which is not among the sources; the spec gives the form `" \"<name>\""`. -/
def formatQuoted (name : Str) : Str := " \"".toList ++ name ++ "\"".toList

/-- The call `std::to_string(n)` and the `%zu` conversion: the decimal digits of `n`. -/
def to_string (n : Nat) : Str := Nat.toDigits 10 n

/-- The loop of lines 293-298: `lineCountPos` runs over the newlines of `outSource`. -/
def lineCountLoop (outSource : Str) : Nat → Option Nat → Nat → Nat
  | 0, _, lineCount => lineCount
  | _ + 1, none, lineCount => lineCount
  | fuel + 1, some lineCountPos, lineCount =>
    lineCountLoop outSource fuel (find outSource ['\n'] (lineCountPos + 1)) (lineCount + 1)

/-- Lines 289-298: `lineCount` as it stands after the counting loop. -/
def lineCountOf (outSource : Str) : Nat :=
  lineCountLoop outSource (outSource.length + 1) (find outSource ['\n'] 0) 0

/-- The local variables that live across iterations of the `while` loop, and the
paths passed to `openResource` so far. -/
structure LoopState where
  outSource : Str
  startMarker : Option Nat
  i : Option Nat
  opened : List Str
  deriving DecidableEq, Repr

/-- Outcome of one pass through the loop body. -/
inductive Step (ε : Type) where
  /-- The body reached `continue` or its end: back to the loop test. -/
  | next (st : LoopState)
  /-- An exception left the body. -/
  | raise (opened : List Str) (e : Failure ε)
  deriving DecidableEq, Repr

/-- Lines 225-235: is the occurrence at `includePos` behind a `//` of its own line. -/
def lineCommented (inSource : Str) (includePos : Nat) : Bool :=
  match rfind inSource "//".toList includePos with
  | none => false
  | some lineCommentIt =>
    match rfind inSource ['\n'] includePos with
    | none => true
    | some newLineBefore => decide (lineCommentIt > newLineBefore)

/-- Lines 236-247: is the occurrence at `includePos` behind a `/*` with no `*/` after it. -/
def blockCommented (inSource : Str) (includePos : Nat) : Bool :=
  match rfind inSource "/*".toList includePos with
  | none => false
  | some blockCommentIt =>
    match rfind inSource "*/".toList includePos with
    | none => true
    | some closeCommentIt => decide (closeCommentIt < blockCommentIt)

/-- The search result `startIt` when the test
`startIt == String::npos || startIt > newLineAfter` of lines 254 and 258 is false, and
`none` when it is true; nothing is greater than `npos`. -/
def onLine (startIt newLineAfter : Option Nat) : Option Nat :=
  match startIt, newLineAfter with
  | none, _ => none
  | some s, none => some s
  | some s, some n => if s > n then none else some s

/-- The text `inSource.substr(includePos, newLineAfter - includePos)` of lines 262 and
274. With `newLineAfter` at `npos` the unsigned difference is at least the rest of the
string, so the count is cut at the end. -/
def directiveText {ε : Type} (inSource : Str) (includePos : Nat) (newLineAfter : Option Nat) :
    Except (Failure ε) Str :=
  substr inSource (some includePos) (newLineAfter.map (fun n => n - includePos))

/-- The description of the exception of lines 260-262. -/
def noStartMessage (fileName line : Str) : Str :=
  "Badly formed #include directive (expected \" or <) in file ".toList ++ fileName ++
    ": ".toList ++ line

/-- The description of the exception of lines 272-274. -/
def noEndMessage (endDelimeter : Char) (fileName line : Str) : Str :=
  "Badly formed #include directive (expected ".toList ++ [endDelimeter] ++
    ") in file ".toList ++ fileName ++ ": ".toList ++ line

/-- Lines 251-268: the offset `startIt` of the opening delimiter together with
`endDelimeter`, or the exception of line 260. -/
def findStart {ε : Type} (inSource fileName : Str) (includePos : Nat)
    (newLineAfter : Option Nat) : Except (Failure ε) (Nat × Char) :=
  match onLine (find inSource ['"'] (includePos + 8)) newLineAfter with
  | some startIt => .ok (startIt, '"')
  | none =>
    match onLine (find inSource ['<'] (includePos + 8)) newLineAfter with
    | some startIt => .ok (startIt, '>')
    | none =>
      match directiveText inSource includePos newLineAfter with
      | .error e => .error e
      | .ok line => .error (.ERR_INTERNAL_ERROR (noStartMessage fileName line))

/-- Lines 249-278: the `filename` between the delimiters of the directive at
`includePos`, or the exception raised on the way. -/
def directiveFilename {ε : Type} (inSource fileName : Str) (includePos : Nat) :
    Except (Failure ε) Str :=
  let newLineAfter := find inSource ['\n'] (includePos + 8)
  match findStart inSource fileName includePos newLineAfter with
  | .error e => .error e
  | .ok (startIt, endDelimeter) =>
    match find inSource [endDelimeter] (startIt + 1) with
    | none =>
      match directiveText inSource includePos newLineAfter with
      | .error e => .error e
      | .ok line => .error (.ERR_INTERNAL_ERROR (noEndMessage endDelimeter fileName line))
    | some endIt =>
      if endIt ≤ startIt then
        match directiveText inSource includePos newLineAfter with
        | .error e => .error e
        | .ok line => .error (.ERR_INTERNAL_ERROR (noEndMessage endDelimeter fileName line))
      else substr inSource (some (startIt + 1)) (some (endIt - startIt - 1))

/-- Lines 286-287: `outSource` after the copy of the source up to the newline before
the directive. -/
def copyBefore {ε : Type} (inSource : Str) (st : LoopState) (newLineBefore : Option Nat) :
    Except (Failure ε) Str :=
  match newLineBefore, st.startMarker with
  | some nb, some sm =>
    if nb ≥ sm then
      match substr inSource (some sm) (some (nb - sm + 1)) with
      | .error e => .error e
      | .ok copied => .ok (st.outSource ++ copied)
    else .ok st.outSource
  | _, _ => .ok st.outSource

/-- Lines 215-216: `lineFilename`. -/
def lineFilename (fileName : Str) : Str :=
  if endsWith fileName "cg".toList then formatQuoted fileName else " 0".toList

/-- Line 301: `incLineFilename`. -/
def incLineFilename (fileName filename : Str) (lineCount : Nat) : Str :=
  if endsWith fileName "cg".toList then formatQuoted filename
  else " ".toList ++ to_string lineCount

/-- Lines 289-309: `outSource` after the two `#line` markers and the text of the
included resource have been appended to `copied`. -/
def spliced (fileName filename text copied : Str) : Str :=
  let lineCount := lineCountOf copied
  copied ++ ("#line 1 ".toList ++ incLineFilename fileName filename lineCount ++ "\n".toList)
    ++ text
    ++ ("\n#line ".toList ++ to_string lineCount ++ lineFilename fileName ++ "\n".toList)

/-- Lines 311-316: the offset at which the search for `#include` resumes. -/
def nextInclude (inSource : Str) (startMarker : Option Nat) : Option Nat :=
  match startMarker with
  | some m => find inSource "#include".toList m
  | none => none

/-- One pass through the body of the `while` loop, lines 220-316, with `i` at
`includePos`. -/
def loopBody {ε : Type} (inSource fileName : Str) (loader : Str → Except ε Str)
    (st : LoopState) (includePos : Nat) : Step ε :=
  let afterIncludePos := includePos + 8
  let newLineBefore := rfind inSource ['\n'] includePos
  if lineCommented inSource includePos then
    .next { st with i := find inSource "#include".toList afterIncludePos }
  else if blockCommented inSource includePos then
    .next { st with i := find inSource "#include".toList afterIncludePos }
  else
    let newLineAfter := find inSource ['\n'] afterIncludePos
    match directiveFilename inSource fileName includePos with
    | .error e => .raise st.opened e
    | .ok filename =>
      match loader filename with
      | .error e => .raise (st.opened ++ [filename]) (.openResourceFailed e)
      | .ok text =>
        match copyBefore inSource st newLineBefore with
        | .error e => .raise (st.opened ++ [filename]) e
        | .ok copied =>
          .next { outSource := spliced fileName filename text copied
                  startMarker := newLineAfter
                  i := nextInclude inSource newLineAfter
                  opened := st.opened ++ [filename] }

/-- Lines 319-322: the copy of the remaining characters and the return. -/
def afterLoop {ε : Type} (inSource : Str) (st : LoopState) : Outcome ε :=
  match substr inSource st.startMarker none with
  | .error e => ⟨st.opened, .raised e⟩
  | .ok rest => ⟨st.opened, .value (st.outSource ++ rest)⟩

/-- The `while (i != String::npos)` loop of lines 218-318 on fuel, followed by lines
319-322; `none` when the fuel runs out. -/
def whileLoop {ε : Type} (inSource fileName : Str) (loader : Str → Except ε Str) :
    Nat → LoopState → Option (Outcome ε)
  | 0, _ => none
  | fuel + 1, st =>
    match st.i with
    | none => some (afterLoop inSource st)
    | some includePos =>
      match loopBody inSource fileName loader st includePos with
      | .raise opened e => some ⟨opened, .raised e⟩
      | .next st' => whileLoop inSource fileName loader fuel st'

/-- Lines 208-213: the local variables on entry to the loop. -/
def entryState (inSource : Str) : LoopState :=
  { outSource := [], startMarker := some 0, i := find inSource "#include".toList 0, opened := [] }

/-- The method `HighLevelGpuProgram::_resolveIncludes(inSource, resourceBeingLoaded, fileName)`,
lines 206-323; `loader` stands for `openResource` in the group of `resourceBeingLoaded`. -/
def _resolveIncludes {ε : Type} (inSource : Str) (loader : Str → Except ε Str)
    (fileName : Str) : Option (Outcome ε) :=
  whileLoop inSource fileName loader (inSource.length + 1) (entryState inSource)


/-- The pattern `pat` starts at offset `i` of `s`. -/
def StartsAt (s pat : Str) (i : Nat) : Prop := pat <+: s.drop i

instance (s pat : Str) (i : Nat) : Decidable (StartsAt s pat i) :=
  decidable_of_iff (pat.isPrefixOf (s.drop i) = true) List.isPrefixOf_iff_prefix

/-- The states in which the `while` loop of `_resolveIncludes` tests its condition:
the state on entry, and the state after every pass of the body that raised nothing. -/
inductive Reaches {ε : Type} (inSource fileName : Str) (loader : Str → Except ε Str) :
    LoopState → Prop where
  | entry : Reaches inSource fileName loader (entryState inSource)
  | pass {st st' : LoopState} {includePos : Nat} :
      Reaches inSource fileName loader st → st.i = some includePos →
      loopBody inSource fileName loader st includePos = .next st' →
      Reaches inSource fileName loader st'

/-- The characters of the source from `i` on, when `i` is an offset; nothing at `npos`.
The loop can make at most this many further passes. -/
def remaining (inSource : Str) (i : Option Nat) : Nat :=
  match i with
  | none => 0
  | some p => inSource.length - p

/-- The characters of a source `src` that holds one directive `#include "p"` on a line
of its own, after the text `pre` that ends in a newline and before a newline followed by
`tail`; `p` holds neither a double quote nor a newline. -/
structure SingleFacts (src pre p tail : Str) : Prop where
  pre_idx : ∀ j, j < pre.length → src[j]? = pre[j]?
  lit_idx : ∀ m, m < 10 → src[pre.length + m]? = ("#include \"".toList)[m]?
  p_idx : ∀ m, m < p.length → src[pre.length + 10 + m]? = p[m]?
  close_idx : src[pre.length + 10 + p.length]? = some '"'
  nl_idx : src[pre.length + 11 + p.length]? = some '\n'
  tail_idx : ∀ m, src[pre.length + 12 + p.length + m]? = tail[m]?
  len : src.length = pre.length + 12 + p.length + tail.length
  pre_pos : 0 < pre.length
  pre_nl : src[pre.length - 1]? = some '\n'
  p_quote : ∀ m, m < p.length → p[m]? ≠ some '"'
  p_nl : ∀ m, m < p.length → p[m]? ≠ some '\n'

/-- Spec 4.1, step 2c: the opening delimiter of the directive at `includePos`, a double
quote after the token and before the end of the line if there is one, otherwise a `<`
under the same constraint, with the closing delimiter that corresponds to it. -/
def openingDelimiter (inSource : Str) (includePos : Nat) : Option (Nat × Char) :=
  let lineEnd := find inSource ['\n'] (includePos + 8)
  match onLine (find inSource ['"'] (includePos + 8)) lineEnd with
  | some s => some (s, '"')
  | none =>
    match onLine (find inSource ['<'] (includePos + 8)) lineEnd with
    | some s => some (s, '>')
    | none => none

/-- Spec 4.1, steps 2c and 2d: the path of the directive at `includePos`, the text
strictly between the opening delimiter and the next closing delimiter after it. -/
def pathAt (inSource : Str) (includePos : Nat) : Option Str :=
  match openingDelimiter inSource includePos with
  | none => none
  | some (s, c) =>
    match find inSource [c] (s + 1) with
    | none => none
    | some e => some ((inSource.drop (s + 1)).take (e - s - 1))

/-- The number of offsets below `p` at which `#include` starts in `inSource`. -/
def includesBefore (inSource : Str) (p : Nat) : Nat :=
  ((List.range p).filter (fun j => decide (StartsAt inSource "#include".toList j))).length

/-- The number of occurrences of `#include` in `inSource`. -/
def includeCount (inSource : Str) : Nat := includesBefore inSource inSource.length

/-- The states in which the loop tests its condition, with the number of passes of the
body made before. -/
inductive ReachesAfter {ε : Type} (inSource fileName : Str) (loader : Str → Except ε Str) :
    Nat → LoopState → Prop where
  | entry : ReachesAfter inSource fileName loader 0 (entryState inSource)
  | pass {n : Nat} {st st' : LoopState} {includePos : Nat} :
      ReachesAfter inSource fileName loader n st → st.i = some includePos →
      loopBody inSource fileName loader st includePos = .next st' →
      ReachesAfter inSource fileName loader (n + 1) st'

/-- Spec 4.1, step 2, and the side effects of the contract: the directives that the scan
locates and finds uncommented, each with its offset and its path, in the order in which
the scan meets them. A commented occurrence is passed over and the scan goes on after
the token; after a directive the scan goes on at the end of its line. -/
def locatedDirectives (inSource : Str) : Nat → Option Nat → List (Nat × Str)
  | 0, _ => []
  | _ + 1, none => []
  | fuel + 1, some pos =>
    if lineCommented inSource pos || blockCommented inSource pos then
      locatedDirectives inSource fuel (find inSource "#include".toList (pos + 8))
    else
      match pathAt inSource pos with
      | none => []
      | some path =>
        (pos, path) :: locatedDirectives inSource fuel
          (nextInclude inSource (find inSource ['\n'] (pos + 8)))

/-- One replaced line: the source text `kept` that precedes the line and is copied, the
contents `line` of the line of a directive, which are left out, and what is put in their
place, the text `text` of the resource `path` between two markers that carry
`lineCount`. -/
structure Splice where
  kept : Str
  line : Str
  path : Str
  text : Str
  lineCount : Nat

/-- The spliced block of lines 304-309: reset marker, included text, restore marker. -/
def Splice.block (fileName : Str) (x : Splice) : Str :=
  ("#line 1 ".toList ++ incLineFilename fileName x.path x.lineCount ++ "\n".toList) ++ x.text ++
    ("\n#line ".toList ++ to_string x.lineCount ++ lineFilename fileName ++ "\n".toList)

/-- The source text that a list of replaced lines stands for: each kept text followed by
the contents of the line. -/
def sourceOf : List Splice → Str
  | [] => []
  | x :: xs => x.kept ++ x.line ++ sourceOf xs

/-- The output for a list of replaced lines: each kept text followed by the block. -/
def outputOf (fileName : Str) : List Splice → Str
  | [] => []
  | x :: xs => x.kept ++ x.block fileName ++ outputOf fileName xs

/-- Two sources of the same length that are equal character by character, except that
`a` has `<` at offset `s` and `>` at offset `e` where `b` has a double quote. -/
structure SameButDelimiters (a b : Str) (s e : Nat) : Prop where
  len : a.length = b.length
  same : ∀ j, j ≠ s → j ≠ e → a[j]? = b[j]?
  a_open : a[s]? = some '<'
  a_close : a[e]? = some '>'
  b_open : b[s]? = some '"'
  b_close : b[e]? = some '"'
  lt : s < e

/-- What a call made inside the `try` block of `loadHighLevel` can throw, as the `catch`
clauses of lines 139-151 tell it apart. -/
inductive Thrown where
  /-- A `RuntimeAssertionException`, caught at line 139 and rethrown. -/
  | RuntimeAssertionException
  /-- Any other `Ogre::Exception`, with its description, caught at line 143. -/
  | Exception (description : Str)
  /-- An exception that is not an `Ogre::Exception`; no clause catches it. -/
  | foreign
  deriving DecidableEq, Repr

/-- The members of the program that `loadHighLevel` reads or writes: the two flags,
whether `mDefaultParams` is set, and the number of calls of `loadHighLevelImpl` made
so far. -/
structure Program where
  mHighLevelLoaded : Bool
  mCompileError : Bool
  mDefaultParams : Bool
  implCalls : Nat
  deriving DecidableEq, Repr

/-- The outcome of a call of the virtual `loadHighLevelImpl`, whose overrides are not
among the sources: the value it leaves in `mCompileError` and the exception it throws,
if any. -/
structure ImplOutcome where
  mCompileError : Bool
  thrown : Option Thrown
  deriving DecidableEq, Repr

/-- The `catch` clauses of lines 139-151 at work on the exception `e`: the state they
leave and the exception that leaves `loadHighLevel`, if any. -/
def catchClauses (e : Thrown) (p : Program) : Program × Option Thrown :=
  match e with
  | .RuntimeAssertionException => (p, some .RuntimeAssertionException)
  | .Exception _ => ({ p with mCompileError := true }, none)
  | .foreign => (p, some .foreign)

/-- The method `HighLevelGpuProgram::loadHighLevel`, lines 114-153. `loadHighLevelImpl`
gives the outcome of the virtual call from the current `mCompileError`;
`createParameters` and `copyMatchingNamedConstantsFrom` give what the calls of lines 130
and 134 throw, if anything. -/
def loadHighLevel (loadHighLevelImpl : Bool → ImplOutcome) (createParameters : Option Thrown)
    (copyMatchingNamedConstantsFrom : Option Thrown) (p : Program) : Program × Option Thrown :=
  if !p.mHighLevelLoaded then
    let r := loadHighLevelImpl p.mCompileError
    let p₁ := { p with mCompileError := r.mCompileError, implCalls := p.implCalls + 1 }
    match r.thrown with
    | some e => catchClauses e p₁
    | none =>
      let p₂ := { p₁ with mHighLevelLoaded := true }
      if p₂.mDefaultParams then
        let p₃ := { p₂ with mDefaultParams := false }
        match createParameters with
        | some e => catchClauses e p₃
        | none =>
          let p₄ := { p₃ with mDefaultParams := true }
          match copyMatchingNamedConstantsFrom with
          | some e => catchClauses e p₄
          | none => (p₄, none)
      else (p₂, none)
  else (p, none)

/-- Spec 4.1, step 2f: the offset at which the line of the directive at `pos` starts, just
after the newline immediately preceding it, or the start of the source. -/
def lineStartOf (inSource : Str) (pos : Nat) : Nat :=
  match rfind inSource ['\n'] pos with
  | none => 0
  | some b => b + 1

/-- Spec 4.1, steps 2c and 2g: the contents of the line of the directive at `pos`, from
the start of the line up to the first newline at or after the end of the token
`#include`, the newline left out; up to the end of the source when there is no such
newline. -/
def lineAt (inSource : Str) (pos : Nat) : Str :=
  match find inSource ['\n'] (pos + 8) with
  | none => inSource.drop (lineStartOf inSource pos)
  | some a => (inSource.drop (lineStartOf inSource pos)).take (a - lineStartOf inSource pos)

/-- The loop invariant with its replaced lines named: the output so far is the source up
to `startMarker = m` with the lines `splices` replaced, one for each path opened so far;
`m` is the start of the source or the offset of a newline, and `i` is an occurrence of
`#include` not before it. -/
def SplicedUpTo (inSource fileName : Str) (st : LoopState) (splices : List Splice)
    (m : Nat) : Prop :=
  st.startMarker = some m ∧ m ≤ inSource.length ∧ inSource.take m = sourceOf splices ∧
    st.outSource = outputOf fileName splices ∧ st.opened = splices.map Splice.path ∧
    (m = 0 ∨ inSource[m]? = some '\n') ∧
    ∀ p, st.i = some p → m ≤ p ∧ StartsAt inSource "#include".toList p

theorem startsAt_iff_isPrefixOf (s pat : Str) (i : Nat) :
    StartsAt s pat i ↔ pat.isPrefixOf (s.drop i) = true := by
  unfold StartsAt
  exact List.isPrefixOf_iff_prefix.symm

theorem StartsAt.add_length_le {s pat : Str} {i : Nat} (h : StartsAt s pat i) (hp : pat ≠ []) :
    i + pat.length ≤ s.length := by
  have h1 := h.length_le
  have h2 : 0 < pat.length := List.length_pos.mpr hp
  rw [List.length_drop] at h1
  omega

theorem startsAt_singleton (s : Str) (c : Char) (i : Nat) :
    StartsAt s [c] i ↔ s[i]? = some c := by
  unfold StartsAt
  constructor
  · rintro ⟨t, ht⟩
    have h := congrArg (fun l => l[0]?) ht
    simpa [List.getElem?_drop] using h.symm
  · intro h
    obtain ⟨hlt, hc⟩ := List.getElem?_eq_some_iff.mp h
    refine ⟨s.drop (i + 1), ?_⟩
    rw [← hc]
    simp

theorem findAux_eq_some (pat : Str) (l : Str) (k i : Nat) :
    findAux pat l k = some i ↔
      ∃ j, j ≤ l.length ∧ i = k + j ∧ pat <+: l.drop j ∧ ∀ m, m < j → ¬ pat <+: l.drop m := by
  induction l generalizing k with
  | nil =>
    simp only [findAux, List.length_nil, Nat.le_zero_eq, List.drop_nil, List.prefix_nil]
    constructor
    · intro h
      split at h
      · rename_i hp
        refine ⟨0, rfl, ?_, by simpa using hp, by simp⟩
        simpa using h.symm
      · simp at h
    · rintro ⟨j, rfl, rfl, hp, -⟩
      simp [hp]
  | cons c cs ih =>
    unfold findAux
    by_cases hp : pat.isPrefixOf (c :: cs) = true
    · rw [if_pos hp]
      have hp2 : pat <+: c :: cs := List.isPrefixOf_iff_prefix.mp hp
      constructor
      · intro h
        refine ⟨0, by simp, by simpa using h.symm, by simpa using hp2, by simp⟩
      · rintro ⟨j, -, rfl, -, hm⟩
        rcases Nat.eq_zero_or_pos j with h0 | h0
        · simp [h0]
        · exact absurd (by simpa using hp2) (hm 0 h0)
    · rw [if_neg hp]
      have hp2 : ¬ pat <+: c :: cs := fun h => hp (List.isPrefixOf_iff_prefix.mpr h)
      rw [ih]
      constructor
      · rintro ⟨j, hj, rfl, hpj, hm⟩
        refine ⟨j + 1, by simpa using hj, by omega, by simpa using hpj, ?_⟩
        intro m hmlt
        rcases Nat.eq_zero_or_pos m with h0 | h0
        · simpa [h0] using hp2
        · obtain ⟨m', rfl⟩ : ∃ m', m = m' + 1 := ⟨m - 1, by omega⟩
          simpa using hm m' (by omega)
      · rintro ⟨j, hj, rfl, hpj, hm⟩
        rcases Nat.eq_zero_or_pos j with h0 | h0
        · subst h0
          exact absurd (by simpa using hpj) hp2
        · obtain ⟨j', rfl⟩ : ∃ j', j = j' + 1 := ⟨j - 1, by omega⟩
          refine ⟨j', by simpa using hj, by omega, by simpa using hpj, ?_⟩
          intro m hmlt
          simpa using hm (m + 1) (by omega)

theorem findAux_eq_none (pat : Str) (l : Str) (k : Nat) :
    findAux pat l k = none ↔ ∀ j, j ≤ l.length → ¬ pat <+: l.drop j := by
  induction l generalizing k with
  | nil => simp [findAux]
  | cons c cs ih =>
    unfold findAux
    by_cases hp : pat.isPrefixOf (c :: cs) = true
    · rw [if_pos hp]
      have hp2 : pat <+: c :: cs := List.isPrefixOf_iff_prefix.mp hp
      simp only [reduceCtorEq, false_iff, not_forall]
      exact ⟨0, by simp, by simpa using hp2⟩
    · rw [if_neg hp]
      have hp2 : ¬ pat <+: c :: cs := fun h => hp (List.isPrefixOf_iff_prefix.mpr h)
      rw [ih]
      constructor
      · intro h j hj
        rcases Nat.eq_zero_or_pos j with h0 | h0
        · simpa [h0] using hp2
        · obtain ⟨j', rfl⟩ : ∃ j', j = j' + 1 := ⟨j - 1, by omega⟩
          simpa using h j' (by simpa using hj)
      · intro h j hj
        simpa using h (j + 1) (by simpa using hj)

theorem find_eq_some {s pat : Str} {pos i : Nat} :
    find s pat pos = some i ↔
      pos ≤ i ∧ i ≤ s.length ∧ StartsAt s pat i ∧
        ∀ j, pos ≤ j → j < i → ¬ StartsAt s pat j := by
  unfold find StartsAt
  split
  · rename_i hpos
    rw [findAux_eq_some]
    simp only [List.length_drop, List.drop_drop]
    constructor
    · rintro ⟨j, hj, rfl, hp, hm⟩
      refine ⟨by omega, by omega, hp, ?_⟩
      intro m h1 h2
      have := hm (m - pos) (by omega)
      rwa [show pos + (m - pos) = m by omega] at this
    · rintro ⟨h1, h2, hp, hm⟩
      refine ⟨i - pos, by omega, by omega, ?_, ?_⟩
      · rwa [show pos + (i - pos) = i by omega]
      · intro m hmlt
        exact hm (pos + m) (by omega) (by omega)
  · rename_i hpos
    simp only [reduceCtorEq, false_iff, not_and]
    intro h1 h2
    omega

theorem find_eq_none {s pat : Str} {pos : Nat} :
    find s pat pos = none ↔ ∀ j, pos ≤ j → j ≤ s.length → ¬ StartsAt s pat j := by
  unfold find StartsAt
  split
  · rename_i hpos
    rw [findAux_eq_none]
    simp only [List.length_drop, List.drop_drop]
    constructor
    · intro h j h1 h2
      have := h (j - pos) (by omega)
      rwa [show pos + (j - pos) = j by omega] at this
    · intro h j hj
      exact h (pos + j) (by omega) (by omega)
  · rename_i hpos
    simp only [true_iff]
    intro j h1 h2
    omega

theorem find_eq_none_of_ne_nil {s pat : Str} {pos : Nat} (hp : pat ≠ []) :
    find s pat pos = none ↔ ∀ j, pos ≤ j → ¬ StartsAt s pat j := by
  rw [find_eq_none]
  constructor
  · intro h j h1 h2
    have := h2.add_length_le hp
    exact h j h1 (by omega) h2
  · intro h j h1 _
    exact h j h1

theorem rfindAux_eq_some (s pat : Str) (n i : Nat) :
    rfindAux s pat n = some i ↔
      i ≤ n ∧ StartsAt s pat i ∧ ∀ j, i < j → j ≤ n → ¬ StartsAt s pat j := by
  induction n with
  | zero =>
    unfold rfindAux
    by_cases hp : pat.isPrefixOf s = true
    · rw [if_pos hp]
      have hp2 : StartsAt s pat 0 := by simpa [StartsAt] using List.isPrefixOf_iff_prefix.mp hp
      constructor
      · intro h
        obtain rfl : 0 = i := by simpa using h
        exact ⟨le_refl _, hp2, fun j h1 h2 => by omega⟩
      · rintro ⟨h1, -, -⟩
        simp only [Option.some.injEq]
        omega
    · rw [if_neg hp]
      have hp2 : ¬ StartsAt s pat 0 := fun h =>
        hp (List.isPrefixOf_iff_prefix.mpr (by simpa [StartsAt] using h))
      simp only [reduceCtorEq, false_iff, not_and]
      intro h1 h2
      obtain rfl : i = 0 := by omega
      exact absurd h2 hp2
  | succ n ih =>
    unfold rfindAux
    by_cases hp : pat.isPrefixOf (s.drop (n + 1)) = true
    · rw [if_pos hp]
      have hp2 : StartsAt s pat (n + 1) := List.isPrefixOf_iff_prefix.mp hp
      constructor
      · intro h
        obtain rfl : n + 1 = i := by simpa using h
        exact ⟨le_refl _, hp2, fun j h1 h2 => by omega⟩
      · rintro ⟨h1, -, h3⟩
        rcases Nat.lt_or_ge i (n + 1) with h | h
        · exact absurd hp2 (h3 (n + 1) h (le_refl _))
        · simp only [Option.some.injEq]
          omega
    · rw [if_neg hp]
      have hp2 : ¬ StartsAt s pat (n + 1) := fun h => hp (List.isPrefixOf_iff_prefix.mpr h)
      rw [ih]
      constructor
      · rintro ⟨h1, h2, h3⟩
        refine ⟨by omega, h2, ?_⟩
        intro j hj1 hj2
        rcases Nat.lt_or_ge j (n + 1) with h | h
        · exact h3 j hj1 (by omega)
        · obtain rfl : j = n + 1 := by omega
          exact hp2
      · rintro ⟨h1, h2, h3⟩
        rcases Nat.lt_or_ge i (n + 1) with h | h
        · exact ⟨by omega, h2, fun j hj1 hj2 => h3 j hj1 (by omega)⟩
        · obtain rfl : i = n + 1 := by omega
          exact absurd h2 hp2

theorem rfindAux_eq_none (s pat : Str) (n : Nat) :
    rfindAux s pat n = none ↔ ∀ j, j ≤ n → ¬ StartsAt s pat j := by
  cases h : rfindAux s pat n with
  | none =>
    simp only [true_iff]
    intro j hj hs
    -- the highest start at or below `n` would have been returned
    have hex : ∃ i, i ≤ n ∧ StartsAt s pat i ∧ ∀ m, i < m → m ≤ n → ¬ StartsAt s pat m := by
      clear h
      induction n with
      | zero => exact ⟨j, hj, hs, fun m h1 h2 => by omega⟩
      | succ n ih =>
        by_cases hn : StartsAt s pat (n + 1)
        · exact ⟨n + 1, le_refl _, hn, fun m h1 h2 => by omega⟩
        · rcases Nat.lt_or_ge j (n + 1) with hlt | hge
          · obtain ⟨i, h1, h2, h3⟩ := ih (by omega)
            refine ⟨i, by omega, h2, ?_⟩
            intro m hm1 hm2
            rcases Nat.lt_or_ge m (n + 1) with h | h'
            · exact h3 m hm1 (by omega)
            · obtain rfl : m = n + 1 := by omega
              exact hn
          · obtain rfl : j = n + 1 := by omega
            exact absurd hs hn
    obtain ⟨i, hi⟩ := hex
    have := (rfindAux_eq_some s pat n i).mpr hi
    rw [h] at this
    exact absurd this (by simp)
  | some i =>
    simp only [reduceCtorEq, false_iff, not_forall]
    obtain ⟨h1, h2, -⟩ := (rfindAux_eq_some s pat n i).mp h
    exact ⟨i, h1, not_not.mpr h2⟩

theorem rfind_eq_some {s pat : Str} {pos i : Nat} (hp : pat ≠ []) :
    rfind s pat pos = some i ↔
      i ≤ pos ∧ StartsAt s pat i ∧ ∀ j, i < j → j ≤ pos → ¬ StartsAt s pat j := by
  unfold rfind
  split
  · rename_i hlen
    rw [rfindAux_eq_some]
    constructor
    · rintro ⟨h1, h2, h3⟩
      refine ⟨by omega, h2, ?_⟩
      intro j hj1 hj2 hs
      have := hs.add_length_le hp
      exact h3 j hj1 (by omega) hs
    · rintro ⟨h1, h2, h3⟩
      have := h2.add_length_le hp
      exact ⟨by omega, h2, fun j hj1 hj2 => h3 j hj1 (by omega)⟩
  · rename_i hlen
    simp only [reduceCtorEq, false_iff, not_and]
    intro _ h2
    have := h2.add_length_le hp
    omega

theorem rfind_eq_none {s pat : Str} {pos : Nat} (hp : pat ≠ []) :
    rfind s pat pos = none ↔ ∀ j, j ≤ pos → ¬ StartsAt s pat j := by
  unfold rfind
  split
  · rename_i hlen
    rw [rfindAux_eq_none]
    constructor
    · intro h j hj hs
      have := hs.add_length_le hp
      exact h j (by omega) hs
    · intro h j hj
      exact h j (by omega)
  · rename_i hlen
    simp only [true_iff]
    intro j _ hs
    have := hs.add_length_le hp
    omega

theorem count_drop_of_find_none {out : Str} {k : Nat} (h : find out ['\n'] k = none) :
    (out.drop k).count '\n' = 0 := by
  rw [List.count_eq_zero]
  intro hmem
  obtain ⟨m, hm⟩ := List.mem_iff_getElem?.mp hmem
  rw [List.getElem?_drop] at hm
  have hlt : k + m < out.length := (List.getElem?_eq_some_iff.mp hm).1
  exact (find_eq_none.mp h) (k + m) (by omega) (by omega) ((startsAt_singleton _ _ _).mpr hm)

theorem count_drop_of_not_startsAt {out : Str} (d : Nat) :
    ∀ k p : Nat, p - k = d → k ≤ p → out[p]? = some '\n' →
      (∀ j, k ≤ j → j < p → ¬ StartsAt out ['\n'] j) →
      (out.drop k).count '\n' = (out.drop (p + 1)).count '\n' + 1 := by
  induction d with
  | zero =>
    intro k p hd hkp hp _
    obtain rfl : k = p := by omega
    obtain ⟨hlt, hc⟩ := List.getElem?_eq_some_iff.mp hp
    rw [List.drop_eq_getElem_cons hlt, hc]
    simp
  | succ d ih =>
    intro k p hd hkp hp hno
    obtain ⟨hlt, hc⟩ := List.getElem?_eq_some_iff.mp hp
    have hk : k < out.length := by omega
    have hne : out[k] ≠ '\n' := by
      intro heq
      apply hno k (le_refl _) (by omega)
      rw [startsAt_singleton, List.getElem?_eq_getElem hk, heq]
    rw [List.drop_eq_getElem_cons hk, List.count_cons_of_ne hne.symm]
    exact ih (k + 1) p (by omega) (by omega) hp (fun j h1 h2 => hno j (by omega) h2)

theorem count_drop_of_find_some {out : Str} {k p : Nat} (h : find out ['\n'] k = some p) :
    out[p]? = some '\n' ∧ (out.drop k).count '\n' = (out.drop (p + 1)).count '\n' + 1 := by
  obtain ⟨h1, _, h3, h4⟩ := find_eq_some.mp h
  have hp : out[p]? = some '\n' := (startsAt_singleton _ _ _).mp h3
  exact ⟨hp, count_drop_of_not_startsAt (p - k) k p rfl h1 hp h4⟩

theorem lineCountLoop_eq (out : Str) (fuel : Nat) :
    ∀ k c : Nat, k ≤ out.length → out.length - k < fuel →
      lineCountLoop out fuel (find out ['\n'] k) c = c + (out.drop k).count '\n' := by
  induction fuel with
  | zero => intro k c _ h; omega
  | succ fuel ih =>
    intro k c hk hfuel
    cases hf : find out ['\n'] k with
    | none =>
      rw [count_drop_of_find_none hf]
      rfl
    | some p =>
      obtain ⟨hp, hcount⟩ := count_drop_of_find_some hf
      have hlt : p < out.length := (List.getElem?_eq_some_iff.mp hp).1
      have hkp : k ≤ p := (find_eq_some.mp hf).1
      show lineCountLoop out fuel (find out ['\n'] (p + 1)) (c + 1) = _
      rw [ih (p + 1) (c + 1) (by omega) (by omega), hcount]
      omega

/-- The counting loop of lines 293-298 leaves in `lineCount` the number of newline
characters of `outSource`. -/
theorem lineCountOf_eq_count (out : Str) : lineCountOf out = out.count '\n' := by
  unfold lineCountOf
  rw [lineCountLoop_eq out _ 0 0 (Nat.zero_le _) (by omega)]
  simp

theorem include_ne_nil : "#include".toList ≠ [] := by decide

theorem StartsAt.include_le {inSource : Str} {p : Nat}
    (h : StartsAt inSource "#include".toList p) : p + 8 ≤ inSource.length :=
  h.add_length_le include_ne_nil

theorem find_include_some {inSource : Str} {pos p : Nat}
    (h : find inSource "#include".toList pos = some p) :
    pos ≤ p ∧ p + 8 ≤ inSource.length ∧ StartsAt inSource "#include".toList p := by
  obtain ⟨h1, _, h3, _⟩ := find_eq_some.mp h
  exact ⟨h1, h3.add_length_le include_ne_nil, h3⟩

theorem nextInclude_some {inSource : Str} {includePos p : Nat}
    (h : nextInclude inSource (find inSource ['\n'] (includePos + 8)) = some p) :
    includePos + 8 ≤ p ∧ p + 8 ≤ inSource.length ∧ StartsAt inSource "#include".toList p := by
  unfold nextInclude at h
  split at h
  · rename_i m hm
    obtain ⟨h1, h2, h3⟩ := find_include_some h
    have := (find_eq_some.mp hm).1
    exact ⟨by omega, h2, h3⟩
  · exact absurd h (by simp)

/-- After a pass of the body the search has moved on: the next `i` is `npos` or an
occurrence of `#include` at least eight characters further. -/
theorem loopBody_next_i {ε : Type} {inSource fileName : Str} {loader : Str → Except ε Str}
    {st st' : LoopState} {includePos p : Nat}
    (h : loopBody inSource fileName loader st includePos = .next st') (hp : st'.i = some p) :
    includePos + 8 ≤ p ∧ p + 8 ≤ inSource.length ∧ StartsAt inSource "#include".toList p := by
  unfold loopBody at h
  simp only at h
  split at h
  · obtain rfl := Step.next.inj h
    exact find_include_some hp
  · split at h
    · obtain rfl := Step.next.inj h
      exact find_include_some hp
    · split at h
      · exact absurd h (by simp)
      · split at h
        · exact absurd h (by simp)
        · split at h
          · exact absurd h (by simp)
          · obtain rfl := Step.next.inj h
            exact nextInclude_some hp

/-- Fuel above the number of remaining characters is enough: the result of the loop no
longer depends on it. -/
theorem whileLoop_fuel {ε : Type} (inSource fileName : Str) (loader : Str → Except ε Str)
    (fuel₁ : Nat) :
    ∀ (fuel₂ : Nat) (st : LoopState),
      (∀ p, st.i = some p → p + 8 ≤ inSource.length) →
      remaining inSource st.i < fuel₁ → remaining inSource st.i < fuel₂ →
      whileLoop inSource fileName loader fuel₁ st = whileLoop inSource fileName loader fuel₂ st := by
  induction fuel₁ with
  | zero => intro fuel₂ st _ h; omega
  | succ fuel₁ ih =>
    intro fuel₂ st hv h1 h2
    obtain ⟨fuel₂, rfl⟩ : ∃ f, fuel₂ = f + 1 := ⟨fuel₂ - 1, by omega⟩
    unfold whileLoop
    cases hi : st.i with
    | none => rfl
    | some includePos =>
      simp only
      cases hb : loopBody inSource fileName loader st includePos with
      | raise opened e => rfl
      | next st' =>
        simp only
        have hlen := hv includePos hi
        rw [hi] at h1 h2
        simp only [remaining] at h1 h2
        have hnext : ∀ p, st'.i = some p → includePos + 8 ≤ p ∧ p + 8 ≤ inSource.length :=
          fun p hp => ⟨(loopBody_next_i hb hp).1, (loopBody_next_i hb hp).2.1⟩
        have hrem : remaining inSource st'.i < inSource.length - includePos := by
          cases hi' : st'.i with
          | none => simp only [remaining]; omega
          | some p =>
            have := hnext p hi'
            simp only [remaining]
            omega
        exact ih fuel₂ st' (fun p hp => (hnext p hp).2) (by omega) (by omega)

theorem Reaches.i_valid {ε : Type} {inSource fileName : Str} {loader : Str → Except ε Str}
    {st : LoopState} (h : Reaches inSource fileName loader st) {p : Nat} (hp : st.i = some p) :
    p + 8 ≤ inSource.length ∧ StartsAt inSource "#include".toList p := by
  cases h with
  | entry => exact (find_include_some hp).2
  | pass _ _ hb => exact (loopBody_next_i hb hp).2

/-- A call of `_resolveIncludes` runs the loop from every state it reaches, with fuel
to spare. -/
theorem Reaches.resolve_eq {ε : Type} {inSource fileName : Str} {loader : Str → Except ε Str}
    {st : LoopState} (h : Reaches inSource fileName loader st) :
    _resolveIncludes inSource loader fileName =
      whileLoop inSource fileName loader (remaining inSource st.i + 1) st := by
  induction h with
  | entry =>
    unfold _resolveIncludes
    apply whileLoop_fuel
    · exact fun p hp => (find_include_some hp).2.1
    · cases hi : (entryState inSource).i with
      | none => simp [remaining]
      | some p => simp only [remaining]; omega
    · omega
  | @pass st st' includePos hreach hi hb ih =>
    rw [ih]
    have hlen := (hreach.i_valid hi).1
    rw [hi]
    simp only [remaining]
    obtain ⟨f, hf⟩ : ∃ f, inSource.length - includePos = f + 1 :=
      ⟨inSource.length - includePos - 1, by omega⟩
    rw [hf]
    conv_lhs => unfold whileLoop
    simp only [hi, hb]
    have hst' : Reaches inSource fileName loader st' := Reaches.pass hreach hi hb
    apply whileLoop_fuel
    · exact fun p hp => (hst'.i_valid hp).1
    · cases hi' : st'.i with
      | none => simp only [remaining]; omega
      | some p =>
        have := (loopBody_next_i hb hi').1
        have := (loopBody_next_i hb hi').2.1
        simp only [remaining]
        omega
    · simp only [remaining]
      omega

theorem StartsAt.isInfix {s pat : Str} {j : Nat} (h : StartsAt s pat j) : pat <:+: s :=
  List.IsInfix.trans (List.IsPrefix.isInfix h) (List.IsSuffix.isInfix (List.drop_suffix j s))

theorem rfind_some_of_startsAt {s pat : Str} {q pos : Nat} (hp : pat ≠ [])
    (hs : StartsAt s pat q) (hq : q ≤ pos) : ∃ r, rfind s pat pos = some r ∧ q ≤ r ∧ r ≤ pos := by
  cases h : rfind s pat pos with
  | none => exact absurd hs ((rfind_eq_none hp).mp h q hq)
  | some r =>
    obtain ⟨h1, _, h3⟩ := (rfind_eq_some hp).mp h
    refine ⟨r, rfl, ?_, h1⟩
    rcases Nat.lt_or_ge r q with hlt | hge
    · exact absurd hs (h3 q hlt hq)
    · exact hge

theorem startsAt_head {s pat : Str} {j : Nat} {c : Char} {cs : Str} (h : StartsAt s pat j)
    (hpat : pat = c :: cs) : s[j]? = some c := by
  subst hpat
  obtain ⟨t, ht⟩ := h
  have h0 := congrArg (fun l => l[0]?) ht
  simpa [List.getElem?_drop] using h0.symm

/-- When the scan takes every occurrence of `#include` for commented, the loop copies
nothing and opens nothing, and the source comes back as it is. -/
theorem whileLoop_all_commented {ε : Type} (inSource fileName : Str)
    (loader : Str → Except ε Str)
    (hall : ∀ p, StartsAt inSource "#include".toList p →
      lineCommented inSource p = true ∨ blockCommented inSource p = true)
    (fuel : Nat) :
    ∀ i : Option Nat, (∀ p, i = some p → StartsAt inSource "#include".toList p) →
      remaining inSource i < fuel →
      whileLoop inSource fileName loader fuel ⟨[], some 0, i, []⟩ =
        some ⟨[], .value inSource⟩ := by
  induction fuel with
  | zero => intro i _ h; omega
  | succ fuel ih =>
    intro i hv hrem
    unfold whileLoop
    cases i with
    | none => simp [afterLoop, substr]
    | some p =>
      simp only
      have hs := hv p rfl
      have hlen := hs.include_le
      have hbody : loopBody inSource fileName loader ⟨[], some 0, some p, []⟩ p =
          .next ⟨[], some 0, find inSource "#include".toList (p + 8), []⟩ := by
        unfold loopBody
        rcases hall p hs with h | h
        · simp [h]
        · cases hl : lineCommented inSource p <;> simp [h]
      rw [hbody]
      apply ih
      · exact fun q hq => (find_include_some hq).2.2
      · simp only [remaining] at hrem
        cases hf : find inSource "#include".toList (p + 8) with
        | none => simp only [remaining]; omega
        | some q =>
          have := find_include_some hf
          simp only [remaining]
          omega

theorem resolve_all_commented {ε : Type} (inSource fileName : Str)
    (loader : Str → Except ε Str)
    (hall : ∀ p, StartsAt inSource "#include".toList p →
      lineCommented inSource p = true ∨ blockCommented inSource p = true) :
    _resolveIncludes inSource loader fileName = some ⟨[], .value inSource⟩ := by
  unfold _resolveIncludes entryState
  apply whileLoop_all_commented inSource fileName loader hall
  · exact fun q hq => (find_include_some hq).2.2
  · cases hf : find inSource "#include".toList 0 with
    | none => simp [remaining]
    | some q => simp only [remaining]; omega

theorem lineCommented_of_comment_on_line {inSource : Str} {p : Nat}
    (hs : StartsAt inSource "#include".toList p)
    (h : ∃ q, q < p ∧ StartsAt inSource "//".toList q ∧
      ∀ n, n < p → inSource[n]? = some '\n' → n < q) :
    lineCommented inSource p = true := by
  obtain ⟨q, hq, hsq, hnl⟩ := h
  obtain ⟨r, hr, hqr, _⟩ := rfind_some_of_startsAt (by decide) hsq (Nat.le_of_lt hq)
  unfold lineCommented
  rw [hr]
  simp only
  cases hn : rfind inSource ['\n'] p with
  | none => rfl
  | some n =>
    simp only [decide_eq_true_eq]
    obtain ⟨h1, h2, _⟩ := (rfind_eq_some (by decide)).mp hn
    have hc : inSource[n]? = some '\n' := (startsAt_singleton _ _ _).mp h2
    have hne : n ≠ p := by
      rintro rfl
      have := startsAt_head hs rfl
      rw [hc] at this
      exact absurd this (by decide)
    have := hnl n (by omega) hc
    omega

theorem blockCommented_of_open_comment {inSource : Str} {p : Nat}
    (hs : StartsAt inSource "#include".toList p)
    (h : ∃ b, b < p ∧ StartsAt inSource "/*".toList b ∧
      (∀ b', b < b' → b' < p → ¬ StartsAt inSource "/*".toList b') ∧
      (∀ c, c < p → StartsAt inSource "*/".toList c → c < b)) :
    blockCommented inSource p = true := by
  obtain ⟨b, hb, hsb, hnear, hclose⟩ := h
  have hhash : inSource[p]? = some '#' := startsAt_head hs rfl
  obtain ⟨r, hr, hbr, hrp⟩ := rfind_some_of_startsAt (by decide) hsb (Nat.le_of_lt hb)
  have hsr : StartsAt inSource "/*".toList r := ((rfind_eq_some (by decide)).mp hr).2.1
  have hrne : r ≠ p := by
    rintro rfl
    have := startsAt_head hsr rfl
    rw [hhash] at this
    exact absurd this (by decide)
  have hrb : r = b := by
    rcases Nat.lt_or_ge b r with hlt | hge
    · exact absurd hsr (hnear r hlt (by omega))
    · omega
  unfold blockCommented
  rw [hr]
  simp only
  cases hc : rfind inSource "*/".toList p with
  | none => rfl
  | some c =>
    simp only [decide_eq_true_eq]
    obtain ⟨h1, h2, _⟩ := (rfind_eq_some (by decide)).mp hc
    have hcne : c ≠ p := by
      rintro rfl
      have := startsAt_head h2 rfl
      rw [hhash] at this
      exact absurd this (by decide)
    have := hclose c (by omega) h2
    omega

/-- C2. Identity on input without includes: a source that does not contain the
substring `#include` is returned exactly as it is, whatever the origin file name and
the loader, and nothing is opened. -/
theorem resolveIncludes_no_include {ε : Type} (inSource fileName : Str)
    (loader : Str → Except ε Str) (h : ¬ "#include".toList <:+: inSource) :
    _resolveIncludes inSource loader fileName = some ⟨[], .value inSource⟩ :=
  resolve_all_commented inSource fileName loader (fun _ hs => absurd hs.isInfix h)

theorem resolveIncludes_no_include_witness :
    ¬ "#include".toList <:+: "float4 x;\nfloat4 y;\n".toList ∧
      _resolveIncludes "float4 x;\nfloat4 y;\n".toList
          (fun _ => (Except.error () : Except Unit Str)) "a.cg".toList =
        some ⟨[], .value "float4 x;\nfloat4 y;\n".toList⟩ :=
  ⟨by decide, resolveIncludes_no_include _ _ _ (by decide)⟩

/-- C6. A directive behind a line comment is ignored: when every occurrence of
`#include` has a `//` that starts before it and after every newline before it, the
source is returned unchanged and nothing is opened. -/
theorem resolveIncludes_line_commented {ε : Type} (inSource fileName : Str)
    (loader : Str → Except ε Str)
    (h : ∀ p, StartsAt inSource "#include".toList p →
      ∃ q, q < p ∧ StartsAt inSource "//".toList q ∧
        ∀ n, n < p → inSource[n]? = some '\n' → n < q) :
    _resolveIncludes inSource loader fileName = some ⟨[], .value inSource⟩ :=
  resolve_all_commented inSource fileName loader
    (fun p hs => Or.inl (lineCommented_of_comment_on_line hs (h p hs)))

/-- C7. A directive inside an open block comment is ignored: when every occurrence of
`#include` has a nearest `/*` before it and every `*/` that starts before the occurrence
starts before that `/*`, the source is returned unchanged and nothing is opened. -/
theorem resolveIncludes_block_commented {ε : Type} (inSource fileName : Str)
    (loader : Str → Except ε Str)
    (h : ∀ p, StartsAt inSource "#include".toList p →
      ∃ b, b < p ∧ StartsAt inSource "/*".toList b ∧
        (∀ b', b < b' → b' < p → ¬ StartsAt inSource "/*".toList b') ∧
        (∀ c, c < p → StartsAt inSource "*/".toList c → c < b)) :
    _resolveIncludes inSource loader fileName = some ⟨[], .value inSource⟩ :=
  resolve_all_commented inSource fileName loader
    (fun p hs => Or.inr (blockCommented_of_open_comment hs (h p hs)))

theorem resolveIncludes_line_commented_witness :
    (∀ p, StartsAt "// #include \"f\"\nb\n".toList "#include".toList p →
      ∃ q, q < p ∧ StartsAt "// #include \"f\"\nb\n".toList "//".toList q ∧
        ∀ n, n < p → ("// #include \"f\"\nb\n".toList)[n]? = some '\n' → n < q) ∧
      _resolveIncludes "// #include \"f\"\nb\n".toList
          (fun _ => (Except.error () : Except Unit Str)) "a.cg".toList =
        some ⟨[], .value "// #include \"f\"\nb\n".toList⟩ :=
  have hyp : ∀ p, StartsAt "// #include \"f\"\nb\n".toList "#include".toList p →
      ∃ q, q < p ∧ StartsAt "// #include \"f\"\nb\n".toList "//".toList q ∧
        ∀ n, n < p → ("// #include \"f\"\nb\n".toList)[n]? = some '\n' → n < q := by
    intro p hs
    have hlen : p + 8 ≤ 18 := hs.include_le
    have hp : p < 11 := by omega
    interval_cases p <;>
      first
      | exact absurd hs (by decide)
      | exact ⟨0, by decide, by decide, by decide⟩
  ⟨hyp, resolveIncludes_line_commented _ _ _ hyp⟩

theorem resolveIncludes_block_commented_witness :
    (∀ p, StartsAt "/* #include \"f\" */\nb\n".toList "#include".toList p →
      ∃ b, b < p ∧ StartsAt "/* #include \"f\" */\nb\n".toList "/*".toList b ∧
        (∀ b', b < b' → b' < p → ¬ StartsAt "/* #include \"f\" */\nb\n".toList "/*".toList b') ∧
        (∀ c, c < p → StartsAt "/* #include \"f\" */\nb\n".toList "*/".toList c → c < b)) ∧
      _resolveIncludes "/* #include \"f\" */\nb\n".toList
          (fun _ => (Except.error () : Except Unit Str)) "a.cg".toList =
        some ⟨[], .value "/* #include \"f\" */\nb\n".toList⟩ :=
  have hyp : ∀ p, StartsAt "/* #include \"f\" */\nb\n".toList "#include".toList p →
      ∃ b, b < p ∧ StartsAt "/* #include \"f\" */\nb\n".toList "/*".toList b ∧
        (∀ b', b < b' → b' < p → ¬ StartsAt "/* #include \"f\" */\nb\n".toList "/*".toList b') ∧
        (∀ c, c < p → StartsAt "/* #include \"f\" */\nb\n".toList "*/".toList c → c < b) := by
    intro p hs
    have hlen : p + 8 ≤ 21 := hs.include_le
    have hp : p < 14 := by omega
    interval_cases p <;>
      first
      | exact absurd hs (by decide)
      | exact ⟨0, by decide, by decide,
          fun b' h1 h2 => by interval_cases b' <;> decide, by decide⟩
  ⟨hyp, resolveIncludes_block_commented _ _ _ hyp⟩

theorem find_char_eq_some {s : Str} {c : Char} {a k : Nat} :
    find s [c] a = some k ↔
      a ≤ k ∧ s[k]? = some c ∧ ∀ j, a ≤ j → j < k → s[j]? ≠ some c := by
  rw [find_eq_some]
  simp only [startsAt_singleton]
  constructor
  · rintro ⟨h1, _, h3, h4⟩
    exact ⟨h1, h3, h4⟩
  · rintro ⟨h1, h3, h4⟩
    exact ⟨h1, Nat.le_of_lt (List.getElem?_eq_some_iff.mp h3).1, h3, h4⟩

theorem find_char_eq_none {s : Str} {c : Char} {a : Nat} :
    find s [c] a = none ↔ ∀ j, a ≤ j → s[j]? ≠ some c := by
  rw [find_eq_none_of_ne_nil (by simp)]
  simp only [startsAt_singleton]

/-- A delimiter absent from the rest of the line fails the test of lines 254 and 258. -/
theorem onLine_none_of_absent {s : Str} {c : Char} {a : Nat}
    (h : ∀ k, a ≤ k → (∀ j, a ≤ j → j < k → s[j]? ≠ some '\n') → s[k]? ≠ some c) :
    onLine (find s [c] a) (find s ['\n'] a) = none := by
  cases hf : find s [c] a with
  | none => rfl
  | some k =>
    obtain ⟨h1, h2, _⟩ := find_char_eq_some.mp hf
    cases hn : find s ['\n'] a with
    | none => exact absurd h2 (h k h1 (fun j hj _ => find_char_eq_none.mp hn j hj))
    | some n =>
      obtain ⟨_, _, h5⟩ := find_char_eq_some.mp hn
      simp only [onLine, ite_eq_left_iff, not_lt, reduceCtorEq, imp_false, not_le]
      by_contra hle
      exact absurd h2 (h k h1 (fun j hj hjk => h5 j hj (by omega)))

/-- A delimiter found before any newline passes the test of lines 254 and 258. -/
theorem onLine_some_of_present {s : Str} {c : Char} {a k : Nat}
    (hf : find s [c] a = some k) (hline : ∀ j, a ≤ j → j < k → s[j]? ≠ some '\n') :
    onLine (find s [c] a) (find s ['\n'] a) = some k := by
  rw [hf]
  obtain ⟨h1, h2, _⟩ := find_char_eq_some.mp hf
  cases hn : find s ['\n'] a with
  | none => rfl
  | some n =>
    obtain ⟨h4, h5, _⟩ := find_char_eq_some.mp hn
    have hkn : ¬ k > n := by
      intro hgt
      exact hline n h4 hgt h5
    simp [onLine, hkn]

theorem directiveText_ok (ε : Type) {inSource : Str} {includePos : Nat}
    (h : includePos ≤ inSource.length) (newLineAfter : Option Nat) :
    ∃ line, (directiveText inSource includePos newLineAfter : Except (Failure ε) Str) =
      .ok line := by
  unfold directiveText substr
  simp only [show ¬ includePos > inSource.length by omega, if_false]
  cases newLineAfter.map (fun n => n - includePos) with
  | none => exact ⟨_, rfl⟩
  | some k => exact ⟨_, rfl⟩

/-- C4. Missing opening delimiter: when the scan stands at an occurrence of `#include`
that it takes for uncommented, every earlier pass having raised nothing, and neither a
double quote nor a `<` lies between the token and the end of its line (the next newline,
or the end of the source), the call raises the internal error of line 260 and returns no
output; nothing is opened for this directive. -/
theorem resolveIncludes_missing_opening_delimiter {ε : Type} (inSource fileName : Str)
    (loader : Str → Except ε Str) (st : LoopState) (includePos : Nat)
    (hreach : Reaches inSource fileName loader st) (hi : st.i = some includePos)
    (hline : lineCommented inSource includePos = false)
    (hblock : blockCommented inSource includePos = false)
    (hnone : ∀ k, includePos + 8 ≤ k →
      (∀ j, includePos + 8 ≤ j → j < k → inSource[j]? ≠ some '\n') →
      inSource[k]? ≠ some '"' ∧ inSource[k]? ≠ some '<') :
    ∃ line, _resolveIncludes inSource loader fileName =
      some ⟨st.opened, .raised (.ERR_INTERNAL_ERROR (noStartMessage fileName line))⟩ := by
  have hlen := (hreach.i_valid hi).1
  obtain ⟨line, hl⟩ := directiveText_ok ε (show includePos ≤ inSource.length by omega)
    (find inSource ['\n'] (includePos + 8))
  refine ⟨line, ?_⟩
  have hq := onLine_none_of_absent (c := '"') (fun k h1 h2 => (hnone k h1 h2).1)
  have ha := onLine_none_of_absent (c := '<') (fun k h1 h2 => (hnone k h1 h2).2)
  have hfs : (findStart inSource fileName includePos (find inSource ['\n'] (includePos + 8)) :
      Except (Failure ε) (Nat × Char)) =
        .error (.ERR_INTERNAL_ERROR (noStartMessage fileName line)) := by
    unfold findStart
    rw [hq, ha, hl]
  have hbody : loopBody inSource fileName loader st includePos =
      .raise st.opened (.ERR_INTERNAL_ERROR (noStartMessage fileName line)) := by
    unfold loopBody directiveFilename
    simp [hline, hblock, hfs]
  rw [hreach.resolve_eq]
  unfold whileLoop
  simp [hi, hbody]

theorem resolveIncludes_missing_opening_delimiter_witness :
    ∃ line, _resolveIncludes "#include f\n".toList
        (fun _ => (Except.ok [] : Except Unit Str)) "a.cg".toList =
      some ⟨[], .raised (.ERR_INTERNAL_ERROR (noStartMessage "a.cg".toList line))⟩ :=
  resolveIncludes_missing_opening_delimiter "#include f\n".toList "a.cg".toList
    (fun _ => (Except.ok [] : Except Unit Str)) (entryState "#include f\n".toList) 0
    Reaches.entry (by decide) (by decide) (by decide)
    (by
      intro k hk _
      rcases Nat.lt_or_ge k 11 with h | h
      · interval_cases k <;> decide
      · have hnone : ("#include f\n".toList)[k]? = none := List.getElem?_eq_none h
        rw [hnone]
        simp)

/-- C5. Missing closing delimiter: when the scan stands at an occurrence of `#include`
that it takes for uncommented, every earlier pass having raised nothing, and the opening
delimiter at offset `s` is on the line of the directive (a double quote, the first after
the token; or a `<`, the first after the token, with no double quote on the line) while
no closing delimiter of its kind (a double quote, respectively a `>`) stands at any
greater offset of the source, the call raises the internal error of line 272 and returns
no output; nothing is opened for this directive. -/
theorem resolveIncludes_missing_closing_delimiter {ε : Type} (inSource fileName : Str)
    (loader : Str → Except ε Str) (st : LoopState) (includePos s : Nat)
    (hreach : Reaches inSource fileName loader st) (hi : st.i = some includePos)
    (hline : lineCommented inSource includePos = false)
    (hblock : blockCommented inSource includePos = false)
    (hs : includePos + 8 ≤ s)
    (honline : ∀ j, includePos + 8 ≤ j → j < s → inSource[j]? ≠ some '\n')
    (hdelim :
      (inSource[s]? = some '"' ∧
        (∀ j, includePos + 8 ≤ j → j < s → inSource[j]? ≠ some '"') ∧
        ∀ k, s < k → inSource[k]? ≠ some '"') ∨
      (inSource[s]? = some '<' ∧
        (∀ j, includePos + 8 ≤ j → j < s → inSource[j]? ≠ some '<') ∧
        (∀ k, includePos + 8 ≤ k →
          (∀ j, includePos + 8 ≤ j → j < k → inSource[j]? ≠ some '\n') →
          inSource[k]? ≠ some '"') ∧
        ∀ k, s < k → inSource[k]? ≠ some '>')) :
    ∃ endDelimeter line, _resolveIncludes inSource loader fileName =
      some ⟨st.opened,
        .raised (.ERR_INTERNAL_ERROR (noEndMessage endDelimeter fileName line))⟩ := by
  have hlen := (hreach.i_valid hi).1
  obtain ⟨line, hl⟩ := directiveText_ok ε (show includePos ≤ inSource.length by omega)
    (find inSource ['\n'] (includePos + 8))
  have hfinish : ∀ endDelimeter : Char,
      (findStart inSource fileName includePos (find inSource ['\n'] (includePos + 8)) :
        Except (Failure ε) (Nat × Char)) = .ok (s, endDelimeter) →
      find inSource [endDelimeter] (s + 1) = none →
      _resolveIncludes inSource loader fileName =
        some ⟨st.opened,
          .raised (.ERR_INTERNAL_ERROR (noEndMessage endDelimeter fileName line))⟩ := by
    intro endDelimeter hfs hend
    have hbody : loopBody inSource fileName loader st includePos =
        .raise st.opened (.ERR_INTERNAL_ERROR (noEndMessage endDelimeter fileName line)) := by
      unfold loopBody directiveFilename
      simp [hline, hblock, hfs, hend, hl]
    rw [hreach.resolve_eq]
    unfold whileLoop
    simp [hi, hbody]
  rcases hdelim with ⟨hq, hfirst, hlast⟩ | ⟨ha, hfirst, hnoq, hlast⟩
  · refine ⟨'"', line, hfinish '"' ?_ ?_⟩
    · have hf : find inSource ['"'] (includePos + 8) = some s :=
        find_char_eq_some.mpr ⟨hs, hq, hfirst⟩
      unfold findStart
      rw [onLine_some_of_present hf honline]
    · exact find_char_eq_none.mpr (fun k hk => hlast k (by omega))
  · refine ⟨'>', line, hfinish '>' ?_ ?_⟩
    · have hf : find inSource ['<'] (includePos + 8) = some s :=
        find_char_eq_some.mpr ⟨hs, ha, hfirst⟩
      unfold findStart
      rw [onLine_none_of_absent hnoq, onLine_some_of_present hf honline]
    · exact find_char_eq_none.mpr (fun k hk => hlast k (by omega))

theorem resolveIncludes_missing_closing_delimiter_witness :
    ∃ endDelimeter line, _resolveIncludes "#include \"f\n".toList
        (fun _ => (Except.ok [] : Except Unit Str)) "a.cg".toList =
      some ⟨[], .raised (.ERR_INTERNAL_ERROR (noEndMessage endDelimeter "a.cg".toList line))⟩ :=
  resolveIncludes_missing_closing_delimiter "#include \"f\n".toList "a.cg".toList
    (fun _ => (Except.ok [] : Except Unit Str)) (entryState "#include \"f\n".toList) 0 9
    Reaches.entry (by decide) (by decide) (by decide) (by decide)
    (by intro j h1 h2; interval_cases j; decide)
    (Or.inl ⟨by decide, by intro j h1 h2; interval_cases j; decide, by
      intro k hk
      rcases Nat.lt_or_ge k 12 with h | h
      · interval_cases k <;> decide
      · have hnone : ("#include \"f\n".toList)[k]? = none := List.getElem?_eq_none h
        rw [hnone]
        simp⟩)

/-- C3. The claim that a call fails only with a malformed directive or a loader failure
does not hold on the code: for the well-formed directive `#include "f"` that runs to the
end of the source with no newline after it, and a loader that succeeds, the loop leaves
`startMarker` at `npos` and `substr(startMarker)` of line 320 raises `std::out_of_range`. -/
theorem resolveIncludes_directive_at_end_of_source :
    _resolveIncludes "#include \"f\"".toList
        (fun _ => (Except.ok "X\n".toList : Except Unit Str)) "a.cg".toList =
      some ⟨["f".toList], .raised .out_of_range⟩ := by
  decide

/-- C8. The line number of the restoring marker is counted over the output, not over
the source: for two directives on the first two lines and an included text of one line,
the second restoring marker reads `#line 5`, while one newline of the source precedes
the second directive. -/
theorem resolveIncludes_second_restore_marker :
    _resolveIncludes "#include \"f\"\n#include \"g\"\n".toList
        (fun _ => (Except.ok "X\n".toList : Except Unit Str)) "a.cg".toList =
      some ⟨["f".toList, "g".toList], .value
        ("#line 1  \"f\"\nX\n\n#line 0 \"a.cg\"\n".toList ++
          "\n#line 1  \"g\"\nX\n\n#line 5 \"a.cg\"\n\n".toList)⟩ ∧
    ("#include \"f\"\n".toList).count '\n' = 1 := by
  decide

theorem endsWith_iff_suffix (str pattern : Str) (hp : pattern ≠ []) :
    endsWith str pattern = true ↔ pattern <:+ str := by
  unfold endsWith
  rw [List.suffix_iff_eq_drop]
  simp only [ge_iff_le, Bool.and_eq_true, decide_eq_true_eq, Bool.not_eq_true',
    List.isEmpty_eq_false, beq_iff_eq]
  constructor
  · rintro ⟨_, h⟩
    exact h.symm
  · intro h
    refine ⟨⟨?_, hp⟩, h.symm⟩
    have := congrArg List.length h
    rw [List.length_drop] at this
    omega

/-- C10, as the claim states it, fails: the origin file names `a.xcg`, whose extension
only ends in the letters cg, and `abcg`, which has no extension, select the quoted-name
form of the markers and not the numeric one. -/
theorem supportsFilename_not_extension_equality :
    lineFilename "a.xcg".toList = " \"a.xcg\"".toList ∧
      lineFilename "abcg".toList = " \"abcg\"".toList ∧
      incLineFilename "a.xcg".toList "f".toList 7 = " \"f\"".toList ∧
      incLineFilename "abcg".toList "f".toList 7 = " \"f\"".toList := by
  decide

theorem formatQuoted_ne_zero (name : Str) : formatQuoted name ≠ " 0".toList := by
  intro h
  have h1 : (formatQuoted name)[1]? = (" 0".toList)[1]? := congrArg (fun l => l[1]?) h
  have h2 : (formatQuoted name)[1]? = some '"' := by
    show ((' ' :: '"' :: name) ++ ['"'])[1]? = some '"'
    simp
  rw [h2] at h1
  exact absurd h1 (by decide)

/-- C10, amended. The quoted-name form of the markers is selected exactly when the
origin file name ends in the two characters `cg`, compared case-sensitively, and the
numeric and ` 0` form otherwise: `a.CG` selects the numeric form, `a.xcg` and `abcg`,
which end in `cg`, select the quoted form. -/
theorem supportsFilename_policy (fileName filename : Str) (lineCount : Nat) :
    (lineFilename fileName = formatQuoted fileName ↔ "cg".toList <:+ fileName) ∧
      (lineFilename fileName = " 0".toList ↔ ¬ "cg".toList <:+ fileName) ∧
      ("cg".toList <:+ fileName →
        incLineFilename fileName filename lineCount = formatQuoted filename) ∧
      (¬ "cg".toList <:+ fileName →
        incLineFilename fileName filename lineCount = " ".toList ++ to_string lineCount) ∧
      lineFilename "a.CG".toList = " 0".toList ∧
      lineFilename "a.xcg".toList = formatQuoted "a.xcg".toList ∧
      lineFilename "abcg".toList = formatQuoted "abcg".toList := by
  have hiff := endsWith_iff_suffix fileName "cg".toList (by decide)
  unfold lineFilename incLineFilename
  cases hb : endsWith fileName "cg".toList with
  | true =>
    have hcg := hiff.mp hb
    simp only [if_true, hcg, true_iff, not_true_eq_false, iff_false, true_implies,
      false_implies, true_and, and_true]
    exact ⟨formatQuoted_ne_zero fileName, by decide, by decide, by decide⟩
  | false =>
    have hcg : ¬ "cg".toList <:+ fileName := fun h => by
      rw [hiff.mpr h] at hb
      exact absurd hb (by simp)
    simp only [Bool.false_eq_true, if_false, hcg, iff_false, not_false_eq_true, iff_true,
      false_implies, true_implies, true_and, and_true]
    exact ⟨fun h => formatQuoted_ne_zero fileName h.symm, by decide, by decide, by decide⟩

theorem prefix_iff_getElem? (pat l : Str) :
    pat <+: l ↔ ∀ m, m < pat.length → l[m]? = pat[m]? := by
  induction pat generalizing l with
  | nil => simp
  | cons a as ih =>
    cases l with
    | nil =>
      simp only [List.prefix_nil, reduceCtorEq, List.length_cons, List.getElem?_nil, false_iff,
        not_forall]
      exact ⟨0, by omega, by simp⟩
    | cons b bs =>
      rw [List.cons_prefix_cons, ih]
      constructor
      · rintro ⟨rfl, h⟩ m hm
        cases m with
        | zero => simp
        | succ m => simpa using h m (by simpa using hm)
      · intro h
        refine ⟨?_, fun m hm => ?_⟩
        · have := h 0 (by simp)
          simpa using this.symm
        · simpa using h (m + 1) (by simpa using hm)

theorem startsAt_iff_getElem? (s pat : Str) (j : Nat) :
    StartsAt s pat j ↔ ∀ m, m < pat.length → s[j + m]? = pat[m]? := by
  unfold StartsAt
  rw [prefix_iff_getElem?]
  simp only [List.getElem?_drop]


/-- The source of a single directive `#include "p"` on a line of its own, between
`pre` and a newline followed by `tail`, character by character. -/
theorem single_source_index (pre p tail : Str) :
    let src := pre ++ "#include \"".toList ++ p ++ "\"\n".toList ++ tail
    (∀ j, j < pre.length → src[j]? = pre[j]?) ∧
    (∀ m, m < 10 → src[pre.length + m]? = ("#include \"".toList)[m]?) ∧
    (∀ m, m < p.length → src[pre.length + 10 + m]? = p[m]?) ∧
    src[pre.length + 10 + p.length]? = some '"' ∧
    src[pre.length + 11 + p.length]? = some '\n' ∧
    (∀ m, src[pre.length + 12 + p.length + m]? = tail[m]?) ∧
    src.length = pre.length + 12 + p.length + tail.length := by
  intro src
  have hsrc : src = pre ++ ("#include \"".toList ++ (p ++ ('"' :: '\n' :: tail))) := by
    simp [src]
  have hlit : ("#include \"".toList).length = 10 := rfl
  refine ⟨?_, ?_, ?_, ?_, ?_, ?_, ?_⟩
  · intro j hj
    rw [hsrc, List.getElem?_append_left hj]
  · intro m hm
    rw [hsrc, List.getElem?_append_right (by omega), List.getElem?_append_left (by omega)]
    congr 1
    omega
  · intro m hm
    rw [hsrc, List.getElem?_append_right (by omega), List.getElem?_append_right (by omega),
      List.getElem?_append_left (by omega)]
    congr 1
    omega
  · rw [hsrc, List.getElem?_append_right (by omega), List.getElem?_append_right (by omega),
      List.getElem?_append_right (by omega)]
    have : pre.length + 10 + p.length - pre.length - ("#include \"".toList).length - p.length = 0 := by
      omega
    rw [this]
    rfl
  · rw [hsrc, List.getElem?_append_right (by omega), List.getElem?_append_right (by omega),
      List.getElem?_append_right (by omega)]
    have : pre.length + 11 + p.length - pre.length - ("#include \"".toList).length - p.length = 1 := by
      omega
    rw [this]
    simp
  · intro m
    rw [hsrc, List.getElem?_append_right (by omega), List.getElem?_append_right (by omega),
      List.getElem?_append_right (by omega)]
    have : pre.length + 12 + p.length + m - pre.length - ("#include \"".toList).length - p.length
        = m + 2 := by
      omega
    rw [this]
    simp
  · rw [hsrc]
    simp only [List.length_append, List.length_cons, hlit]
    omega


theorem singleFacts (pre p tail : Str) (hnl : pre.getLast? = some '\n')
    (hq : '"' ∉ p) (hpn : '\n' ∉ p) :
    SingleFacts (pre ++ "#include \"".toList ++ p ++ "\"\n".toList ++ tail) pre p tail := by
  obtain ⟨h1, h2, h3, h4, h5, h6, h7⟩ := single_source_index pre p tail
  have hpos : 0 < pre.length := by
    cases pre with
    | nil => simp at hnl
    | cons a as => simp
  refine ⟨h1, h2, h3, h4, h5, h6, h7, hpos, ?_, ?_, ?_⟩
  · rw [h1 _ (by omega), ← hnl, List.getLast?_eq_getElem?]
  · intro m _ h
    exact hq (List.mem_iff_getElem?.mpr ⟨m, h⟩)
  · intro m _ h
    exact hpn (List.mem_iff_getElem?.mpr ⟨m, h⟩)

theorem SingleFacts.startsAt_include {src pre p tail : Str} (F : SingleFacts src pre p tail) :
    StartsAt src "#include".toList pre.length := by
  rw [startsAt_iff_getElem?]
  intro m hm
  have hm8 : m < 8 := hm
  rw [F.lit_idx m (by omega)]
  interval_cases m <;> rfl

theorem include_no_newline (m : Nat) : ("#include".toList)[m]? ≠ some '\n' := by
  rcases Nat.lt_or_ge m 8 with h | h
  · interval_cases m <;> decide
  · rw [List.getElem?_eq_none h]
    simp

theorem SingleFacts.find_include {src pre p tail : Str} (F : SingleFacts src pre p tail)
    (hpre : ¬ "#include".toList <:+: pre) :
    find src "#include".toList 0 = some pre.length := by
  rw [find_eq_some]
  refine ⟨Nat.zero_le _, by have := F.len; omega, F.startsAt_include, ?_⟩
  intro j _ hj hs
  rw [startsAt_iff_getElem?] at hs
  rcases Nat.lt_or_ge pre.length (j + 8) with hlt | hge
  · have := hs (pre.length - 1 - j) (show pre.length - 1 - j < 8 by omega)
    rw [show j + (pre.length - 1 - j) = pre.length - 1 by omega, F.pre_nl] at this
    exact include_no_newline _ this.symm
  · apply hpre
    apply StartsAt.isInfix (j := j)
    rw [startsAt_iff_getElem?]
    intro m hm
    have hm8 : m < 8 := hm
    rw [← F.pre_idx (j + m) (by omega)]
    exact hs m hm

theorem SingleFacts.hash {src pre p tail : Str} (F : SingleFacts src pre p tail) :
    src[pre.length]? = some '#' := F.lit_idx 0 (by omega)

theorem SingleFacts.rfind_newline {src pre p tail : Str} (F : SingleFacts src pre p tail) :
    rfind src ['\n'] pre.length = some (pre.length - 1) := by
  rw [rfind_eq_some (by simp)]
  refine ⟨by omega, (startsAt_singleton _ _ _).mpr F.pre_nl, ?_⟩
  intro j h1 h2 hs
  have hp := F.pre_pos
  obtain rfl : j = pre.length := by omega
  rw [startsAt_singleton, F.hash] at hs
  exact absurd hs (by decide)

theorem SingleFacts.not_lineCommented {src pre p tail : Str} (F : SingleFacts src pre p tail) :
    lineCommented src pre.length = false := by
  unfold lineCommented
  cases hq : rfind src "//".toList pre.length with
  | none => rfl
  | some q =>
    simp only [F.rfind_newline, decide_eq_false_iff_not, not_lt]
    obtain ⟨h1, h2, _⟩ := (rfind_eq_some (by decide)).mp hq
    have hne : q ≠ pre.length := by
      rintro rfl
      have := startsAt_head h2 rfl
      rw [F.hash] at this
      exact absurd this (by decide)
    omega

theorem SingleFacts.not_blockCommented {src pre p tail : Str} (F : SingleFacts src pre p tail)
    (hopen : ∀ b, StartsAt pre "/*".toList b → ∃ c, b < c ∧ StartsAt pre "*/".toList c) :
    blockCommented src pre.length = false := by
  unfold blockCommented
  cases hb : rfind src "/*".toList pre.length with
  | none => rfl
  | some b =>
    simp only
    obtain ⟨h1, h2, _⟩ := (rfind_eq_some (by decide)).mp hb
    have hpos := F.pre_pos
    have hb0 : src[b]? = some '/' := startsAt_head h2 rfl
    have hne : b ≠ pre.length := by
      rintro rfl
      rw [F.hash] at hb0
      exact absurd hb0 (by decide)
    have hne' : b ≠ pre.length - 1 := by
      rintro rfl
      rw [F.pre_nl] at hb0
      exact absurd hb0 (by decide)
    have hpre : StartsAt pre "/*".toList b := by
      rw [startsAt_iff_getElem?] at h2 ⊢
      intro m hm
      have hm2 : m < 2 := hm
      rw [← F.pre_idx (b + m) (by omega)]
      exact h2 m hm
    obtain ⟨c, hbc, hc⟩ := hopen b hpre
    have hclen : c + 2 ≤ pre.length := hc.add_length_le (by decide)
    have hsrc : StartsAt src "*/".toList c := by
      rw [startsAt_iff_getElem?] at hc ⊢
      intro m hm
      have hm2 : m < 2 := hm
      rw [F.pre_idx (c + m) (by omega)]
      exact hc m hm
    obtain ⟨r, hr, hcr, _⟩ := rfind_some_of_startsAt (by decide) hsrc (show c ≤ pre.length by omega)
    rw [hr]
    simp only [decide_eq_false_iff_not, not_lt]
    omega


theorem SingleFacts.line_idx {src pre p tail : Str} (F : SingleFacts src pre p tail) (c : Char)
    (hc : c ≠ ' ') (hp : ∀ m, m < p.length → p[m]? ≠ some c) (a : Nat) (ha : pre.length + 10 ≤ a ∨
      (pre.length + 8 ≤ a ∧ c ≠ '"')) :
    ∀ j, a ≤ j → j < pre.length + 10 + p.length → src[j]? ≠ some c := by
  intro j h1 h2
  rcases Nat.lt_or_ge j (pre.length + 10) with hlt | hge
  · have hcq : c ≠ '"' := by
      rcases ha with h | h
      · omega
      · exact h.2
    have hj : j = pre.length + 8 ∨ j = pre.length + 9 := by omega
    rcases hj with rfl | rfl
    · rw [F.lit_idx 8 (by omega)]
      intro h
      exact hc (Option.some.inj h).symm
    · rw [F.lit_idx 9 (by omega)]
      intro h
      exact hcq (Option.some.inj h).symm
  · have := F.p_idx (j - (pre.length + 10)) (by omega)
    rw [show pre.length + 10 + (j - (pre.length + 10)) = j by omega] at this
    rw [this]
    exact hp _ (by omega)

theorem SingleFacts.find_newline {src pre p tail : Str} (F : SingleFacts src pre p tail) :
    find src ['\n'] (pre.length + 8) = some (pre.length + 11 + p.length) := by
  rw [find_char_eq_some]
  refine ⟨by omega, F.nl_idx, ?_⟩
  intro j h1 h2
  rcases Nat.lt_or_ge j (pre.length + 10 + p.length) with hlt | hge
  · exact F.line_idx '\n' (by decide) F.p_nl (pre.length + 8) (Or.inr ⟨le_refl _, by decide⟩)
      j h1 hlt
  · obtain rfl : j = pre.length + 10 + p.length := by omega
    rw [F.close_idx]
    decide

theorem SingleFacts.find_open {src pre p tail : Str} (F : SingleFacts src pre p tail) :
    find src ['"'] (pre.length + 8) = some (pre.length + 9) := by
  rw [find_char_eq_some]
  refine ⟨by omega, F.lit_idx 9 (by omega), ?_⟩
  intro j h1 h2
  obtain rfl : j = pre.length + 8 := by omega
  rw [F.lit_idx 8 (by omega)]
  decide

theorem SingleFacts.find_close {src pre p tail : Str} (F : SingleFacts src pre p tail) :
    find src ['"'] (pre.length + 9 + 1) = some (pre.length + 10 + p.length) := by
  rw [find_char_eq_some]
  refine ⟨by omega, F.close_idx, ?_⟩
  intro j h1 h2
  exact F.line_idx '"' (by decide) F.p_quote (pre.length + 10) (Or.inl (le_refl _)) j
    (by omega) h2

theorem SingleFacts.find_next {src pre p tail : Str} (F : SingleFacts src pre p tail)
    (htail : ¬ "#include".toList <:+: tail) :
    find src "#include".toList (pre.length + 11 + p.length) = none := by
  rw [find_eq_none_of_ne_nil include_ne_nil]
  intro j hj hs
  rcases Nat.lt_or_ge j (pre.length + 12 + p.length) with hlt | hge
  · obtain rfl : j = pre.length + 11 + p.length := by omega
    have := startsAt_head hs rfl
    rw [F.nl_idx] at this
    exact absurd this (by decide)
  · apply htail
    apply StartsAt.isInfix (j := j - (pre.length + 12 + p.length))
    rw [startsAt_iff_getElem?] at hs ⊢
    intro m hm
    rw [← F.tail_idx, ← hs m hm]
    congr 1
    omega


theorem take_drop_of_startsAt {s t : Str} {a : Nat} (h : StartsAt s t a) :
    (s.drop a).take t.length = t :=
  (List.prefix_iff_eq_take.mp h).symm

theorem SingleFacts.filename {ε : Type} {src pre p tail : Str} (F : SingleFacts src pre p tail) :
    (substr src (some (pre.length + 9 + 1))
      (some (pre.length + 10 + p.length - (pre.length + 9) - 1)) : Except (Failure ε) Str) =
      .ok p := by
  have hs : StartsAt src p (pre.length + 10) := by
    rw [startsAt_iff_getElem?]
    exact F.p_idx
  have hlen := F.len
  unfold substr
  simp only [show ¬ pre.length + 9 + 1 > src.length by omega, if_false]
  rw [show pre.length + 10 + p.length - (pre.length + 9) - 1 = p.length by omega,
    show pre.length + 9 + 1 = pre.length + 10 by omega, take_drop_of_startsAt hs]

theorem SingleFacts.copied {ε : Type} {src pre p tail : Str} (F : SingleFacts src pre p tail) :
    (copyBefore src (entryState src) (some (pre.length - 1)) : Except (Failure ε) Str) =
      .ok pre := by
  have hs : StartsAt src pre 0 := by
    rw [startsAt_iff_getElem?]
    intro m hm
    rw [Nat.zero_add]
    exact F.pre_idx m hm
  have hpos := F.pre_pos
  have htake := take_drop_of_startsAt hs
  unfold copyBefore entryState substr
  simp only [ge_iff_le, Nat.zero_le, if_true, gt_iff_lt, Nat.not_lt_zero, if_false,
    Nat.sub_zero, List.nil_append]
  rw [show pre.length - 1 + 1 = pre.length by omega, htake]

theorem SingleFacts.rest {ε : Type} {src pre p tail : Str} (F : SingleFacts src pre p tail) :
    (substr src (some (pre.length + 11 + p.length)) none : Except (Failure ε) Str) =
      .ok ('\n' :: tail) := by
  have hlen := F.len
  unfold substr
  simp only [show ¬ pre.length + 11 + p.length > src.length by omega, if_false]
  congr 1
  apply List.ext_getElem?
  intro m
  rw [List.getElem?_drop]
  cases m with
  | zero => simpa using F.nl_idx
  | succ m =>
    rw [List.getElem?_cons_succ, ← F.tail_idx m]
    congr 1
    omega

theorem whileLoop_pass {ε : Type} {inSource fileName : Str} {loader : Str → Except ε Str}
    {st st' : LoopState} {includePos : Nat} (fuel : Nat) (hi : st.i = some includePos)
    (hb : loopBody inSource fileName loader st includePos = .next st') :
    whileLoop inSource fileName loader (fuel + 1) st =
      whileLoop inSource fileName loader fuel st' := by
  conv_lhs => unfold whileLoop
  simp only [hi, hb]

theorem whileLoop_exit {ε : Type} {inSource fileName : Str} {loader : Str → Except ε Str}
    {st : LoopState} (fuel : Nat) (hi : st.i = none) :
    whileLoop inSource fileName loader (fuel + 1) st = some (afterLoop inSource st) := by
  unfold whileLoop
  simp only [hi]

theorem SingleFacts.resolve {ε : Type} {src pre p tail : Str} (F : SingleFacts src pre p tail)
    (fileName text : Str) (loader : Str → Except ε Str)
    (hpre : ¬ "#include".toList <:+: pre)
    (hopen : ∀ b, StartsAt pre "/*".toList b → ∃ c, b < c ∧ StartsAt pre "*/".toList c)
    (htail : ¬ "#include".toList <:+: tail) (hload : loader p = .ok text) :
    _resolveIncludes src loader fileName =
      some ⟨[p], .value (spliced fileName p text pre ++ '\n' :: tail)⟩ := by
  have hlen := F.len
  have hdir : (directiveFilename src fileName pre.length : Except (Failure ε) Str) = .ok p := by
    unfold directiveFilename findStart
    simp only [F.find_newline, F.find_open, onLine,
      show ¬ pre.length + 9 > pre.length + 11 + p.length by omega, if_false, F.find_close,
      show ¬ pre.length + 10 + p.length ≤ pre.length + 9 by omega, F.filename]
  have hbody : loopBody src fileName loader (entryState src) pre.length =
      .next ⟨spliced fileName p text pre, some (pre.length + 11 + p.length), none, [p]⟩ := by
    unfold loopBody
    simp only [F.not_lineCommented, F.not_blockCommented hopen, Bool.false_eq_true, if_false,
      hdir, hload, F.rfind_newline, F.copied, F.find_newline, nextInclude, F.find_next htail]
    rfl
  unfold _resolveIncludes
  obtain ⟨f, hf⟩ : ∃ f, src.length = f + 1 := ⟨src.length - 1, by omega⟩
  rw [hf, whileLoop_pass (f + 1) (by simp only [entryState]; exact F.find_include hpre) hbody,
    whileLoop_exit f rfl]
  simp only [afterLoop, F.rest]


/-- C1, as the claim states it, fails: a prefix that ends in a newline and holds no
`#include` can leave a block comment open. The directive that follows it is then taken
for commented: nothing is opened and the source comes back as it is, without markers and
without the text of the resource. -/
theorem resolveIncludes_single_include_in_open_comment :
    ("/*\n".toList).getLast? = some '\n' ∧ ¬ "#include".toList <:+: "/*\n".toList ∧
    ¬ "#include".toList <:+: "b\n".toList ∧
    _resolveIncludes ("/*\n".toList ++ "#include \"".toList ++ "f".toList ++ "\"\n".toList ++
        "b\n".toList) (fun _ => (Except.ok "X\n".toList : Except Unit Str)) "s.cg".toList =
      some ⟨[], .value "/*\n#include \"f\"\nb\n".toList⟩ := by
  decide

/-- C1, amended. Single include splice: for a source made of a prefix `pre` that ends in
a newline, holds no `#include` and leaves no block comment open, then a line
`#include "p"` ended by a newline, with neither a double quote nor a newline in `p`,
then a tail that holds no `#include`, and a loader that returns `text` for `p`, the call
opens `p` alone and returns, in order: the prefix; the marker `#line 1 ` tagged with `p`
or, when the origin file name does not end in `cg`, with the number of newlines of the
prefix; `text` as it is; a newline and a marker `#line n` tagged with the origin file
name or ` 0`; the newline that ended the directive and the tail. The number `n` of the
restoring marker is left open here. -/
theorem resolveIncludes_single_include {ε : Type} (pre p tail text fileName : Str)
    (loader : Str → Except ε Str)
    (hnl : pre.getLast? = some '\n')
    (hpre : ¬ "#include".toList <:+: pre)
    (hopen : ∀ b, StartsAt pre "/*".toList b → ∃ c, b < c ∧ StartsAt pre "*/".toList c)
    (hq : '"' ∉ p) (hpn : '\n' ∉ p)
    (htail : ¬ "#include".toList <:+: tail)
    (hload : loader p = .ok text) :
    ∃ n : Nat,
      _resolveIncludes (pre ++ "#include \"".toList ++ p ++ "\"\n".toList ++ tail) loader
          fileName =
        some ⟨[p], .value (pre ++
          ("#line 1 ".toList ++ incLineFilename fileName p (pre.count '\n') ++ "\n".toList) ++
          text ++
          ("\n#line ".toList ++ to_string n ++ lineFilename fileName ++ "\n".toList) ++
          ("\n".toList ++ tail))⟩ := by
  refine ⟨pre.count '\n', ?_⟩
  rw [(singleFacts pre p tail hnl hq hpn).resolve fileName text loader hpre hopen htail hload]
  simp only [spliced, lineCountOf_eq_count]
  rfl

theorem resolveIncludes_single_include_witness :
    ∃ n : Nat,
      _resolveIncludes ("a\n".toList ++ "#include \"".toList ++ "f".toList ++ "\"\n".toList ++
          "b\n".toList) (fun _ => (Except.ok "X\n".toList : Except Unit Str)) "s.cg".toList =
        some ⟨["f".toList], .value ("a\n".toList ++
          ("#line 1 ".toList ++ incLineFilename "s.cg".toList "f".toList
            (("a\n".toList).count '\n') ++ "\n".toList) ++
          "X\n".toList ++
          ("\n#line ".toList ++ to_string n ++ lineFilename "s.cg".toList ++ "\n".toList) ++
          ("\n".toList ++ "b\n".toList))⟩ :=
  resolveIncludes_single_include "a\n".toList "f".toList "b\n".toList "X\n".toList
    "s.cg".toList (fun _ => (Except.ok "X\n".toList : Except Unit Str))
    (by decide) (by decide)
    (by
      intro b hb
      have hlen : b + 2 ≤ 2 := hb.add_length_le (by decide)
      obtain rfl : b = 0 := by omega
      exact absurd hb (by decide))
    (by decide) (by decide) (by decide) rfl

theorem findStart_eq_ok {ε : Type} (inSource fileName : Str) (includePos s : Nat) (c : Char) :
    (findStart inSource fileName includePos (find inSource ['\n'] (includePos + 8)) :
      Except (Failure ε) (Nat × Char)) = .ok (s, c) ↔
      openingDelimiter inSource includePos = some (s, c) := by
  unfold findStart openingDelimiter
  simp only
  cases onLine (find inSource ['"'] (includePos + 8)) (find inSource ['\n'] (includePos + 8)) with
  | some s₁ => simp
  | none =>
    cases onLine (find inSource ['<'] (includePos + 8))
        (find inSource ['\n'] (includePos + 8)) with
    | some s₂ => simp
    | none =>
      simp only [reduceCtorEq, iff_false]
      cases directiveText inSource includePos (find inSource ['\n'] (includePos + 8)) <;> simp

theorem findStart_cases {ε : Type} (inSource fileName : Str) (includePos : Nat) :
    (∃ s c, (findStart inSource fileName includePos (find inSource ['\n'] (includePos + 8)) :
      Except (Failure ε) (Nat × Char)) = .ok (s, c) ∧
      openingDelimiter inSource includePos = some (s, c)) ∨
    ((∃ e, (findStart inSource fileName includePos (find inSource ['\n'] (includePos + 8)) :
      Except (Failure ε) (Nat × Char)) = .error e) ∧
      openingDelimiter inSource includePos = none) := by
  cases h : (findStart inSource fileName includePos (find inSource ['\n'] (includePos + 8)) :
      Except (Failure ε) (Nat × Char)) with
  | ok sc =>
    obtain ⟨s, c⟩ := sc
    exact Or.inl ⟨s, c, rfl, (findStart_eq_ok _ _ _ _ _).mp h⟩
  | error e =>
    refine Or.inr ⟨⟨e, rfl⟩, ?_⟩
    cases ho : openingDelimiter inSource includePos with
    | none => rfl
    | some sc =>
      obtain ⟨s, c⟩ := sc
      have := (findStart_eq_ok (ε := ε) inSource fileName includePos s c).mpr ho
      rw [h] at this
      exact absurd this (by simp)

/-- Lines 249-278 extract the path that the spec describes, whenever they raise
nothing. -/
theorem directiveFilename_eq_ok {ε : Type} (inSource fileName : Str) (includePos : Nat)
    (path : Str) :
    (directiveFilename inSource fileName includePos : Except (Failure ε) Str) = .ok path ↔
      pathAt inSource includePos = some path := by
  unfold directiveFilename pathAt
  simp only
  rcases findStart_cases (ε := ε) inSource fileName includePos with ⟨s, c, h1, h2⟩ | ⟨⟨e, h1⟩, h2⟩
  · rw [h1, h2]
    simp only
    cases hf : find inSource [c] (s + 1) with
    | none =>
      simp only [reduceCtorEq, iff_false]
      cases directiveText inSource includePos (find inSource ['\n'] (includePos + 8)) <;> simp
    | some e =>
      obtain ⟨h3, h4, _⟩ := find_eq_some.mp hf
      simp only [show ¬ e ≤ s by omega, if_false, substr, show ¬ s + 1 > inSource.length by omega,
        Except.ok.injEq, Option.some.injEq]
  · rw [h1, h2]
    simp

/-- C15. The claim fails on the code, which looks for the closing delimiter in the whole
rest of the source and not only on the line of the directive: for a directive whose
opening quote is on its line and whose closing quote comes after the newline, the call
raises nothing, opens the path `f\ng` that spans the newline, and returns an output. -/
theorem resolveIncludes_closing_delimiter_on_later_line :
    _resolveIncludes "#include \"f\ng\"\n".toList
        (fun _ => (Except.ok "X\n".toList : Except Unit Str)) "a.cg".toList =
      some ⟨["f\ng".toList], .value
        "#line 1  \"f\ng\"\nX\n\n#line 0 \"a.cg\"\n\ng\"\n".toList⟩ := by
  decide

theorem loopBody_of_loader_error {ε : Type} {inSource fileName : Str}
    {loader : Str → Except ε Str} {st : LoopState} {includePos : Nat} {path : Str} {e : ε}
    (hline : lineCommented inSource includePos = false)
    (hblock : blockCommented inSource includePos = false)
    (hpath : pathAt inSource includePos = some path) (hfail : loader path = .error e) :
    loopBody inSource fileName loader st includePos =
      .raise (st.opened ++ [path]) (.openResourceFailed e) := by
  have hdir := (directiveFilename_eq_ok (ε := ε) inSource fileName includePos path).mpr hpath
  unfold loopBody
  simp only [hline, hblock, Bool.false_eq_true, if_false, hdir, hfail]

/-- C16. A failure of the loader is passed on as it is: when the scan stands at an
occurrence of `#include` that it takes for uncommented, every earlier pass having raised
nothing, the directive there is well formed with path `p`, and the loader fails for `p`
with `e`, the call ends with exactly `e`, after it asked for `p`, and returns no
output. -/
theorem resolveIncludes_loader_failure {ε : Type} (inSource fileName : Str)
    (loader : Str → Except ε Str) (st : LoopState) (includePos : Nat) (p : Str) (e : ε)
    (hreach : Reaches inSource fileName loader st) (hi : st.i = some includePos)
    (hline : lineCommented inSource includePos = false)
    (hblock : blockCommented inSource includePos = false)
    (hpath : pathAt inSource includePos = some p) (hfail : loader p = .error e) :
    _resolveIncludes inSource loader fileName =
      some ⟨st.opened ++ [p], .raised (.openResourceFailed e)⟩ := by
  rw [hreach.resolve_eq]
  unfold whileLoop
  simp only [hi, loopBody_of_loader_error hline hblock hpath hfail]

theorem resolveIncludes_loader_failure_witness :
    _resolveIncludes "a\n#include \"f\"\nb\n".toList
        (fun _ => (Except.error 404 : Except Nat Str)) "a.cg".toList =
      some ⟨["f".toList], .raised (.openResourceFailed 404)⟩ :=
  resolveIncludes_loader_failure "a\n#include \"f\"\nb\n".toList "a.cg".toList
    (fun _ => (Except.error 404 : Except Nat Str)) (entryState "a\n#include \"f\"\nb\n".toList)
    2 "f".toList 404 Reaches.entry (by decide) (by decide) (by decide) (by decide) rfl

theorem onLine_eq_none {s : Str} {c : Char} {a : Nat}
    (h : onLine (find s [c] a) (find s ['\n'] a) = none) :
    ∀ k, a ≤ k → (∀ j, a ≤ j → j < k → s[j]? ≠ some '\n') → s[k]? ≠ some c := by
  intro k hk hnl hc
  cases hf : find s [c] a with
  | none => exact find_char_eq_none.mp hf k hk hc
  | some k₀ =>
    obtain ⟨h1, _, h3⟩ := find_char_eq_some.mp hf
    have hk₀ : k₀ ≤ k := by
      by_contra hlt
      exact h3 k hk (by omega) hc
    rw [hf] at h
    cases hn : find s ['\n'] a with
    | none =>
      rw [hn] at h
      exact absurd h (by simp [onLine])
    | some n =>
      rw [hn] at h
      obtain ⟨h4, h5, _⟩ := find_char_eq_some.mp hn
      have hnk : ¬ k₀ > n := by
        intro hgt
        exact hnl n h4 (by omega) h5
      simp [onLine, hnk] at h

theorem includesBefore_succ (inSource : Str) (p : Nat) :
    includesBefore inSource (p + 1) = includesBefore inSource p +
      if StartsAt inSource "#include".toList p then 1 else 0 := by
  unfold includesBefore
  rw [List.range_succ, List.filter_append, List.length_append]
  by_cases h : StartsAt inSource "#include".toList p
  · have hd : decide (StartsAt inSource "#include".toList p) = true := decide_eq_true h
    rw [if_pos h, List.filter_cons, if_pos hd]
    rfl
  · have hd : ¬ decide (StartsAt inSource "#include".toList p) = true := by simpa using h
    rw [if_neg h, List.filter_cons, if_neg hd]
    rfl

theorem includesBefore_mono (inSource : Str) {p q : Nat} (h : p ≤ q) :
    includesBefore inSource p ≤ includesBefore inSource q := by
  induction q with
  | zero =>
    obtain rfl : p = 0 := by omega
    exact le_refl _
  | succ q ih =>
    rcases Nat.lt_or_ge p (q + 1) with hlt | hge
    · have := ih (by omega)
      rw [includesBefore_succ]
      omega
    · obtain rfl : p = q + 1 := by omega
      exact le_refl _

theorem includesBefore_lt {inSource : Str} {p q : Nat}
    (hs : StartsAt inSource "#include".toList p) (h : p < q) :
    includesBefore inSource p + 1 ≤ includesBefore inSource q := by
  have h1 := includesBefore_mono inSource (show p + 1 ≤ q by omega)
  rw [includesBefore_succ, if_pos hs] at h1
  exact h1

theorem whileLoop_isSome {ε : Type} (inSource fileName : Str) (loader : Str → Except ε Str)
    (fuel : Nat) :
    ∀ st : LoopState, (∀ p, st.i = some p → p + 8 ≤ inSource.length) →
      remaining inSource st.i < fuel →
      ∃ o, whileLoop inSource fileName loader fuel st = some o := by
  induction fuel with
  | zero => intro st _ h; omega
  | succ fuel ih =>
    intro st hv hrem
    unfold whileLoop
    cases hi : st.i with
    | none => exact ⟨_, rfl⟩
    | some includePos =>
      simp only
      cases hb : loopBody inSource fileName loader st includePos with
      | raise opened e => exact ⟨_, rfl⟩
      | next st' =>
        simp only
        have hlen := hv includePos hi
        rw [hi] at hrem
        simp only [remaining] at hrem
        apply ih
        · exact fun p hp => (loopBody_next_i hb hp).2.1
        · cases hi' : st'.i with
          | none => simp only [remaining]; omega
          | some p =>
            have h1 := (loopBody_next_i hb hi').1
            have h2 := (loopBody_next_i hb hi').2.1
            simp only [remaining]
            omega

theorem ReachesAfter.count_le {ε : Type} {inSource fileName : Str}
    {loader : Str → Except ε Str} {n : Nat} {st : LoopState}
    (h : ReachesAfter inSource fileName loader n st) :
    (st.i = none → n ≤ includeCount inSource) ∧
      (∀ p, st.i = some p → StartsAt inSource "#include".toList p ∧
        n ≤ includesBefore inSource p) := by
  induction h with
  | entry =>
    constructor
    · intro _
      exact Nat.zero_le _
    · intro p hp
      exact ⟨(find_include_some hp).2.2, Nat.zero_le _⟩
  | @pass n st st' includePos _ hi hb ih =>
    obtain ⟨hs, hn⟩ := ih.2 includePos hi
    have hlen := hs.include_le
    constructor
    · intro _
      have := includesBefore_lt hs (show includePos < inSource.length by omega)
      unfold includeCount
      omega
    · intro p hp
      obtain ⟨h1, _, h3⟩ := loopBody_next_i hb hp
      have := includesBefore_lt hs (show includePos < p by omega)
      exact ⟨h3, by omega⟩

/-- C20. Termination: for every source, origin file name and loader the call ends, with
an output or with a failure; after each pass of the loop body, commented or expanded,
the next `i` is greater than the occurrence just handled; and so a pass that starts
after `n` earlier passes finds at least `n + 1` occurrences of `#include` in the source:
the loop makes no more passes than there are occurrences. -/
theorem resolveIncludes_terminates {ε : Type} (inSource fileName : Str)
    (loader : Str → Except ε Str) :
    (∃ o, _resolveIncludes inSource loader fileName = some o) ∧
    (∀ st st' p p', loopBody inSource fileName loader st p = .next st' →
      st'.i = some p' → p < p') ∧
    (∀ n st, ReachesAfter inSource fileName loader n st →
      (st.i = none → n ≤ includeCount inSource) ∧
      (∀ p, st.i = some p → n + 1 ≤ includeCount inSource)) := by
  refine ⟨?_, ?_, ?_⟩
  · unfold _resolveIncludes
    apply whileLoop_isSome
    · exact fun p hp => (find_include_some hp).2.1
    · cases hi : (entryState inSource).i with
      | none => simp [remaining]
      | some p => simp only [remaining]; omega
  · intro st st' p p' hb hp'
    have := (loopBody_next_i hb hp').1
    omega
  · intro n st h
    refine ⟨h.count_le.1, ?_⟩
    intro p hp
    obtain ⟨hs, hn⟩ := h.count_le.2 p hp
    have hlen := hs.include_le
    have := includesBefore_lt hs (show p < inSource.length by omega)
    unfold includeCount
    omega

/-- What a pass of the loop body that raises nothing has done: it has taken the
occurrence for commented and moved `i` on, or it has expanded the directive. -/
theorem loopBody_next_cases {ε : Type} {inSource fileName : Str} {loader : Str → Except ε Str}
    {st st' : LoopState} {includePos : Nat}
    (h : loopBody inSource fileName loader st includePos = .next st') :
    ((lineCommented inSource includePos = true ∨ blockCommented inSource includePos = true) ∧
      st' = { st with i := find inSource "#include".toList (includePos + 8) }) ∨
    (lineCommented inSource includePos = false ∧ blockCommented inSource includePos = false ∧
      ∃ filename text copied, pathAt inSource includePos = some filename ∧
        loader filename = .ok text ∧
        (copyBefore inSource st (rfind inSource ['\n'] includePos) :
          Except (Failure ε) Str) = .ok copied ∧
        st' = ⟨spliced fileName filename text copied, find inSource ['\n'] (includePos + 8),
          nextInclude inSource (find inSource ['\n'] (includePos + 8)),
          st.opened ++ [filename]⟩) := by
  unfold loopBody at h
  simp only at h
  split at h
  · rename_i hl
    exact Or.inl ⟨Or.inl hl, (Step.next.inj h).symm⟩
  · rename_i hl
    split at h
    · rename_i hb
      exact Or.inl ⟨Or.inr hb, (Step.next.inj h).symm⟩
    · rename_i hb
      split at h
      · exact absurd h (by simp)
      · rename_i filename hfn
        split at h
        · exact absurd h (by simp)
        · rename_i text htext
          split at h
          · exact absurd h (by simp)
          · rename_i copied hcopied
            refine Or.inr ⟨by simpa using hl, by simpa using hb, filename, text, copied,
              (directiveFilename_eq_ok _ _ _ _).mp hfn, htext, hcopied, (Step.next.inj h).symm⟩

/-- What a pass of the loop body that raises has opened: nothing, or the path of the
directive at which it stands. -/
theorem loopBody_raise_cases {ε : Type} {inSource fileName : Str}
    {loader : Str → Except ε Str} {st : LoopState} {includePos : Nat} {opened : List Str}
    {e : Failure ε} (h : loopBody inSource fileName loader st includePos = .raise opened e) :
    opened = st.opened ∨
      ∃ filename, pathAt inSource includePos = some filename ∧
        opened = st.opened ++ [filename] := by
  unfold loopBody at h
  simp only at h
  split at h
  · exact absurd h (by simp)
  · split at h
    · exact absurd h (by simp)
    · split at h
      · exact Or.inl (Step.raise.inj h).1.symm
      · rename_i filename hfn
        have hp := (directiveFilename_eq_ok _ _ _ _).mp hfn
        split at h
        · exact Or.inr ⟨filename, hp, (Step.raise.inj h).1.symm⟩
        · split at h
          · exact Or.inr ⟨filename, hp, (Step.raise.inj h).1.symm⟩
          · exact absurd h (by simp)

theorem whileLoop_opened {ε : Type} (inSource fileName : Str) (loader : Str → Except ε Str)
    (fuel : Nat) :
    ∀ (st : LoopState) (opened : List Str) (out : Str),
      whileLoop inSource fileName loader fuel st = some ⟨opened, .value out⟩ →
      opened = st.opened ++ (locatedDirectives inSource fuel st.i).map Prod.snd := by
  induction fuel with
  | zero =>
    intro st opened out h
    exact absurd h (by simp [whileLoop])
  | succ fuel ih =>
    intro st opened out h
    unfold whileLoop at h
    cases hi : st.i with
    | none =>
      rw [hi] at h
      simp only [Option.some.injEq] at h
      unfold afterLoop at h
      split at h
      · exact absurd (congrArg Outcome.result h) (by simp)
      · have := congrArg Outcome.opened h
        simp only at this
        simp [locatedDirectives, ← this]
    | some includePos =>
      rw [hi] at h
      simp only at h
      cases hb : loopBody inSource fileName loader st includePos with
      | raise opened' e =>
        rw [hb] at h
        simp only [Option.some.injEq] at h
        exact absurd (congrArg Outcome.result h) (by simp)
      | next st' =>
        rw [hb] at h
        simp only at h
        have hih := ih st' opened out h
        rcases loopBody_next_cases hb with ⟨hc, rfl⟩ | ⟨hl, hbl, filename, text, copied, hp, _, _, rfl⟩
        · have hcb : (lineCommented inSource includePos || blockCommented inSource includePos)
              = true := by
            rcases hc with hc | hc <;> simp [hc]
          simpa [locatedDirectives, hcb] using hih
        · simpa [locatedDirectives, hl, hbl, hp] using hih

theorem locatedDirectives_spec (inSource : Str) (fuel : Nat) :
    ∀ i : Option Nat, (∀ p, i = some p → StartsAt inSource "#include".toList p) →
      (∀ x ∈ locatedDirectives inSource fuel i,
        (∀ p, i = some p → p ≤ x.1) ∧ StartsAt inSource "#include".toList x.1 ∧
        lineCommented inSource x.1 = false ∧ blockCommented inSource x.1 = false ∧
        pathAt inSource x.1 = some x.2) ∧
      (locatedDirectives inSource fuel i).Pairwise (fun a b => a.1 < b.1) := by
  induction fuel with
  | zero =>
    intro i _
    simp [locatedDirectives]
  | succ fuel ih =>
    intro i hv
    cases i with
    | none => simp [locatedDirectives]
    | some pos =>
      have hs := hv pos rfl
      unfold locatedDirectives
      split
      · have hnext := ih (find inSource "#include".toList (pos + 8))
          (fun q hq => (find_include_some hq).2.2)
        refine ⟨fun x hx => ?_, hnext.2⟩
        obtain ⟨h1, h2⟩ := hnext.1 x hx
        refine ⟨fun p hp => ?_, h2⟩
        obtain rfl : pos = p := Option.some.inj hp
        cases hf : find inSource "#include".toList (pos + 8) with
        | none =>
          rw [hf] at hx
          cases fuel <;> simp [locatedDirectives] at hx
        | some q =>
          have := h1 q hf
          have := (find_include_some hf).1
          omega
      · rename_i hc
        have hl : lineCommented inSource pos = false := by
          cases h : lineCommented inSource pos <;> simp_all
        have hb : blockCommented inSource pos = false := by
          cases h : blockCommented inSource pos <;> simp_all
        split
        · simp
        · rename_i path hp
          have hnext := ih (nextInclude inSource (find inSource ['\n'] (pos + 8)))
            (fun q hq => (nextInclude_some hq).2.2)
          have hlater : ∀ x ∈ locatedDirectives inSource fuel
              (nextInclude inSource (find inSource ['\n'] (pos + 8))), pos < x.1 := by
            intro x hx
            cases hf : nextInclude inSource (find inSource ['\n'] (pos + 8)) with
            | none =>
              rw [hf] at hx
              cases fuel <;> simp [locatedDirectives] at hx
            | some q =>
              have := (hnext.1 x hx).1 q hf
              have := (nextInclude_some hf).1
              omega
          constructor
          · intro x hx
            rcases List.mem_cons.mp hx with rfl | hx
            · exact ⟨fun p hp => by simp at hp; omega, hs, hl, hb, hp⟩
            · obtain ⟨_, h2⟩ := hnext.1 x hx
              refine ⟨fun p hp => ?_, h2⟩
              obtain rfl : pos = p := Option.some.inj hp
              exact Nat.le_of_lt (hlater x hx)
          · exact List.pairwise_cons.mpr ⟨fun x hx => hlater x hx, hnext.2⟩

/-- C12. The loader is asked once for each directive that the scan locates and finds
uncommented, in the order of the source, and for nothing else: when the call returns an
output, the paths it opened are, in order, the paths of the located directives; these
stand at increasing offsets of the source, each at an occurrence of `#include` that
neither comment test takes for commented. -/
theorem resolveIncludes_opened_paths {ε : Type} (inSource fileName : Str)
    (loader : Str → Except ε Str) (opened : List Str) (out : Str)
    (h : _resolveIncludes inSource loader fileName = some ⟨opened, .value out⟩) :
    opened = (locatedDirectives inSource (inSource.length + 1)
      (find inSource "#include".toList 0)).map Prod.snd ∧
    (locatedDirectives inSource (inSource.length + 1)
      (find inSource "#include".toList 0)).Pairwise (fun a b => a.1 < b.1) ∧
    ∀ x ∈ locatedDirectives inSource (inSource.length + 1) (find inSource "#include".toList 0),
      StartsAt inSource "#include".toList x.1 ∧ lineCommented inSource x.1 = false ∧
      blockCommented inSource x.1 = false ∧ pathAt inSource x.1 = some x.2 := by
  have hspec := locatedDirectives_spec inSource (inSource.length + 1)
    (find inSource "#include".toList 0) (fun q hq => (find_include_some hq).2.2)
  refine ⟨?_, hspec.2, fun x hx => (hspec.1 x hx).2⟩
  have := whileLoop_opened inSource fileName loader _ _ opened out h
  simpa [entryState] using this

theorem resolveIncludes_opened_paths_witness :
    ["f".toList, "g".toList] =
      (locatedDirectives "#include \"f\"\n// #include \"x\"\n#include <g>\n".toList
        ("#include \"f\"\n// #include \"x\"\n#include <g>\n".toList.length + 1)
        (find "#include \"f\"\n// #include \"x\"\n#include <g>\n".toList
          "#include".toList 0)).map Prod.snd :=
  (resolveIncludes_opened_paths "#include \"f\"\n// #include \"x\"\n#include <g>\n".toList
    "a.cg".toList (fun _ => (Except.ok "X\n".toList : Except Unit Str))
    ["f".toList, "g".toList]
    ("#line 1  \"f\"\nX\n\n#line 0 \"a.cg\"\n".toList ++
      "\n// #include \"x\"\n#line 1  \"g\"\nX\n\n#line 6 \"a.cg\"\n\n".toList)
    (by decide)).1

theorem sourceOf_append (xs : List Splice) (x : Splice) :
    sourceOf (xs ++ [x]) = sourceOf xs ++ (x.kept ++ x.line) := by
  induction xs with
  | nil => simp [sourceOf]
  | cons y ys ih => simp [sourceOf, ih]

theorem outputOf_append (fileName : Str) (xs : List Splice) (x : Splice) :
    outputOf fileName (xs ++ [x]) = outputOf fileName xs ++ (x.kept ++ x.block fileName) := by
  induction xs with
  | nil => simp [outputOf]
  | cons y ys ih => simp [outputOf, ih]

/-- Where the line of the occurrence at `p` starts, seen from `startMarker = m`: the
offset `lineStart` after the newline found by `rfind`, or the start of the source. -/
theorem lineStart_exists {inSource : Str} {p m : Nat}
    (hs : StartsAt inSource "#include".toList p) (hmp : m ≤ p)
    (hm : m = 0 ∨ inSource[m]? = some '\n') :
    ∃ lineStart, m ≤ lineStart ∧ lineStart ≤ p ∧
      (∀ j, lineStart ≤ j → j ≤ p → inSource[j]? ≠ some '\n') ∧
      ((lineStart = m ∧ m = 0 ∧ rfind inSource ['\n'] p = none) ∨
        (m < lineStart ∧ inSource[lineStart - 1]? = some '\n' ∧
          rfind inSource ['\n'] p = some (lineStart - 1))) := by
  have hhash : inSource[p]? = some '#' := startsAt_head hs rfl
  cases hr : rfind inSource ['\n'] p with
  | none =>
    have hno := (rfind_eq_none (by simp)).mp hr
    have hm0 : m = 0 := by
      rcases hm with h | h
      · exact h
      · exact absurd ((startsAt_singleton _ _ _).mpr h) (hno m hmp)
    refine ⟨0, by omega, by omega, ?_, Or.inl ⟨hm0.symm, hm0, rfl⟩⟩
    intro j _ hj h
    exact hno j hj ((startsAt_singleton _ _ _).mpr h)
  | some b =>
    obtain ⟨h1, h2, h3⟩ := (rfind_eq_some (by simp)).mp hr
    have hb : inSource[b]? = some '\n' := (startsAt_singleton _ _ _).mp h2
    have hbp : b ≠ p := by
      rintro rfl
      rw [hhash] at hb
      exact absurd hb (by decide)
    have hmb : m ≤ b := by
      rcases hm with h | h
      · omega
      · by_contra hlt
        exact h3 m (by omega) hmp ((startsAt_singleton _ _ _).mpr h)
    refine ⟨b + 1, by omega, by omega, ?_, Or.inr ⟨by omega, by simpa using hb, by simp⟩⟩
    intro j hj1 hj2 h
    exact h3 j (by omega) hj2 ((startsAt_singleton _ _ _).mpr h)

theorem getElem?_take_drop (s : Str) (a n k : Nat) :
    ((s.drop a).take n)[k]? = if k < n then s[a + k]? else none := by
  rw [List.getElem?_take]
  split
  · rw [List.getElem?_drop]
  · rfl

theorem length_take_drop {s : Str} {a b : Nat} (hab : a ≤ b) (hb : b ≤ s.length) :
    ((s.drop a).take (b - a)).length = b - a := by
  rw [List.length_take, List.length_drop]
  omega

theorem take_eq_append_take_drop (s : Str) {a b : Nat} (hab : a ≤ b) :
    s.take b = s.take a ++ (s.drop a).take (b - a) := by
  have := List.take_add s a (b - a)
  rwa [show a + (b - a) = b by omega] at this

theorem copyBefore_eq {ε : Type} {inSource : Str} {st : LoopState} {p m lineStart : Nat}
    {copied : Str} (hsm : st.startMarker = some m) (hmlen : m ≤ inSource.length)
    (hl4 : (lineStart = m ∧ m = 0 ∧ rfind inSource ['\n'] p = none) ∨
      (m < lineStart ∧ inSource[lineStart - 1]? = some '\n' ∧
        rfind inSource ['\n'] p = some (lineStart - 1)))
    (hc : (copyBefore inSource st (rfind inSource ['\n'] p) : Except (Failure ε) Str) =
      .ok copied) :
    copied = st.outSource ++ (inSource.drop m).take (lineStart - m) := by
  unfold copyBefore at hc
  rcases hl4 with ⟨h1, _, hr⟩ | ⟨h1, _, hr⟩
  · rw [hr] at hc
    simp only at hc
    obtain rfl := Except.ok.inj hc
    simp [h1]
  · rw [hr, hsm] at hc
    simp only [ge_iff_le, show m ≤ lineStart - 1 by omega, if_true, substr,
      show ¬ m > inSource.length by omega, if_false] at hc
    obtain rfl := Except.ok.inj hc
    rw [show lineStart - 1 - m + 1 = lineStart - m by omega]

theorem toDigitsCore_length_le (b fuel : Nat) :
    ∀ (n : Nat) (ds : List Char), ds.length ≤ (Nat.toDigitsCore b fuel n ds).length := by
  induction fuel with
  | zero =>
    intro n ds
    simp [Nat.toDigitsCore]
  | succ fuel ih =>
    intro n ds
    unfold Nat.toDigitsCore
    simp only
    split
    · simp
    · have := ih (n / b) (Nat.digitChar (n % b) :: ds)
      simp only [List.length_cons] at this
      omega

theorem to_string_length_pos (n : Nat) : 1 ≤ (to_string n).length := by
  unfold to_string Nat.toDigits Nat.toDigitsCore
  simp only
  split
  · simp
  · have := toDigitsCore_length_le 10 n (n / 10) [Nat.digitChar (n % 10)]
    simpa using this

theorem lineFilename_length (fileName : Str) : 2 ≤ (lineFilename fileName).length := by
  unfold lineFilename formatQuoted
  split
  · simp only [List.length_append]
    have : (" \"".toList).length = 2 := rfl
    omega
  · exact le_refl _

theorem incLineFilename_length (fileName filename : Str) (n : Nat) :
    2 ≤ (incLineFilename fileName filename n).length := by
  unfold incLineFilename formatQuoted
  split
  · simp only [List.length_append]
    have : (" \"".toList).length = 2 := rfl
    omega
  · have := to_string_length_pos n
    simp only [List.length_append]
    have : (" ".toList).length = 1 := rfl
    omega

theorem Splice.block_length (fileName : Str) (x : Splice) :
    22 ≤ (x.block fileName).length := by
  have h1 := incLineFilename_length fileName x.path x.lineCount
  have h2 := lineFilename_length fileName
  have h3 := to_string_length_pos x.lineCount
  have h4 : ("#line 1 ".toList).length = 8 := rfl
  have h5 : ("\n#line ".toList).length = 7 := rfl
  have h6 : ("\n".toList).length = 1 := rfl
  unfold Splice.block
  simp only [List.length_append, h4, h5, h6]
  omega

theorem splices_length (fileName : Str) (xs : List Splice) :
    (sourceOf xs).length + 22 * xs.length ≤
      (outputOf fileName xs).length + ((xs.map Splice.line).map List.length).sum := by
  induction xs with
  | nil => simp [sourceOf, outputOf]
  | cons x xs ih =>
    have := x.block_length fileName
    simp only [sourceOf, outputOf, List.length_append, List.length_cons, List.map_cons,
      List.sum_cons]
    omega

theorem sum_le_of_forall_le (ls : List Str) (k : Nat) (h : ∀ l ∈ ls, l.length ≤ k) :
    (ls.map List.length).sum ≤ k * ls.length := by
  induction ls with
  | nil => simp
  | cons l ls ih =>
    have h1 := h l (List.mem_cons_self _ _)
    have h2 := ih (fun l' hl' => h l' (List.mem_cons_of_mem _ hl'))
    simp only [List.map_cons, List.sum_cons, List.length_cons]
    rw [Nat.mul_succ]
    omega

/-- C14, as the claim states it, fails: the whole line of an expanded directive is left
out of the output, and it can hold more characters than the block put in its place. Here
the source has 28 characters and the output 23. -/
theorem resolveIncludes_output_shorter :
    _resolveIncludes "#include \"0123456789abcdef\"\n".toList
        (fun _ => (Except.ok [] : Except Unit Str)) "a.glsl".toList =
      some ⟨["0123456789abcdef".toList], .value "#line 1  0\n\n#line 0 0\n\n".toList⟩ ∧
    ("#line 1  0\n\n#line 0 0\n\n".toList).length <
      ("#include \"0123456789abcdef\"\n".toList).length := by
  decide

theorem find_char_congr_until {a b : Str} {c : Char} {k x : Nat}
    (h : find a [c] k = some x) (hab : ∀ j, k ≤ j → j ≤ x → a[j]? = b[j]?) :
    find b [c] k = some x := by
  obtain ⟨h1, h2, h3⟩ := find_char_eq_some.mp h
  refine find_char_eq_some.mpr ⟨h1, ?_, ?_⟩
  · rw [← hab x h1 (le_refl _)]
    exact h2
  · intro j hj1 hj2
    rw [← hab j hj1 (by omega)]
    exact h3 j hj1 hj2

theorem find_char_congr_from {a b : Str} {c : Char} {k : Nat}
    (hab : ∀ j, k ≤ j → a[j]? = b[j]?) : find a [c] k = find b [c] k := by
  cases h : find a [c] k with
  | some x => exact (find_char_congr_until h (fun j hj _ => hab j hj)).symm
  | none =>
    symm
    rw [find_char_eq_none] at h ⊢
    intro j hj
    rw [← hab j hj]
    exact h j hj

theorem find_congr {a b : Str} {pat : Str} (k : Nat)
    (hab : ∀ j, StartsAt a pat j ↔ StartsAt b pat j) (hlen : a.length = b.length) :
    find a pat k = find b pat k := by
  cases h : find a pat k with
  | some x =>
    obtain ⟨h1, h2, h3, h4⟩ := find_eq_some.mp h
    exact (find_eq_some.mpr ⟨h1, hlen ▸ h2, (hab x).mp h3,
      fun j hj1 hj2 hs => h4 j hj1 hj2 ((hab j).mpr hs)⟩).symm
  | none =>
    symm
    rw [find_eq_none] at h ⊢
    intro j hj1 hj2 hs
    exact h j hj1 (hlen ▸ hj2) ((hab j).mpr hs)

theorem rfind_congr {a b : Str} {pat : Str} (hp : pat ≠ []) (k : Nat)
    (hab : ∀ j, StartsAt a pat j ↔ StartsAt b pat j) :
    rfind a pat k = rfind b pat k := by
  cases h : rfind a pat k with
  | some x =>
    obtain ⟨h1, h2, h3⟩ := (rfind_eq_some hp).mp h
    exact ((rfind_eq_some hp).mpr ⟨h1, (hab x).mp h2,
      fun j hj1 hj2 hs => h3 j hj1 hj2 ((hab j).mpr hs)⟩).symm
  | none =>
    symm
    rw [rfind_eq_none hp] at h ⊢
    intro j hj hs
    exact h j hj ((hab j).mpr hs)

/-- A pattern that holds none of the three delimiters starts at the same offsets of
both sources. -/
theorem SameButDelimiters.startsAt_iff {a b : Str} {s e : Nat} (D : SameButDelimiters a b s e)
    (pat : Str) (h1 : '<' ∉ pat) (h2 : '>' ∉ pat) (h3 : '"' ∉ pat) (j : Nat) :
    StartsAt a pat j ↔ StartsAt b pat j := by
  rw [startsAt_iff_getElem?, startsAt_iff_getElem?]
  have key : ∀ m, m < pat.length → (a[j + m]? = pat[m]? ↔ b[j + m]? = pat[m]?) := by
    intro m hm
    have hmem : ∀ c, pat[m]? = some c → c ∈ pat := fun c hc =>
      List.mem_iff_getElem?.mpr ⟨m, hc⟩
    by_cases hs : j + m = s
    · rw [hs, D.a_open, D.b_open]
      constructor
      · intro h
        exact absurd (hmem _ h.symm) h1
      · intro h
        exact absurd (hmem _ h.symm) h3
    · by_cases he : j + m = e
      · rw [he, D.a_close, D.b_close]
        constructor
        · intro h
          exact absurd (hmem _ h.symm) h2
        · intro h
          exact absurd (hmem _ h.symm) h3
      · rw [D.same _ hs he]
  constructor
  · intro h m hm
    exact (key m hm).mp (h m hm)
  · intro h m hm
    exact (key m hm).mpr (h m hm)

theorem SameButDelimiters.find_include_eq {a b : Str} {s e : Nat}
    (D : SameButDelimiters a b s e) (k : Nat) :
    find a "#include".toList k = find b "#include".toList k :=
  find_congr k (D.startsAt_iff _ (by decide) (by decide) (by decide)) D.len

theorem SameButDelimiters.find_newline_eq {a b : Str} {s e : Nat}
    (D : SameButDelimiters a b s e) (k : Nat) : find a ['\n'] k = find b ['\n'] k :=
  find_congr k (D.startsAt_iff _ (by decide) (by decide) (by decide)) D.len

theorem SameButDelimiters.rfind_newline_eq {a b : Str} {s e : Nat}
    (D : SameButDelimiters a b s e) (k : Nat) : rfind a ['\n'] k = rfind b ['\n'] k :=
  rfind_congr (by simp) k (D.startsAt_iff _ (by decide) (by decide) (by decide))

theorem SameButDelimiters.lineCommented_eq {a b : Str} {s e : Nat}
    (D : SameButDelimiters a b s e) (q : Nat) : lineCommented a q = lineCommented b q := by
  unfold Ogre.lineCommented
  rw [rfind_congr (by decide) q (D.startsAt_iff "//".toList (by decide) (by decide)
    (by decide)), D.rfind_newline_eq]

theorem SameButDelimiters.blockCommented_eq {a b : Str} {s e : Nat}
    (D : SameButDelimiters a b s e) (q : Nat) : blockCommented a q = blockCommented b q := by
  unfold Ogre.blockCommented
  rw [rfind_congr (by decide) q (D.startsAt_iff "/*".toList (by decide) (by decide)
    (by decide)), rfind_congr (by decide) q (D.startsAt_iff "*/".toList (by decide)
    (by decide) (by decide))]

theorem substr_congr {ε : Type} {a b : Str} (hlen : a.length = b.length) (pos : Option Nat)
    (n : Option Nat)
    (hab : ∀ p, pos = some p → ∀ j, p ≤ j → (∀ k, n = some k → j < p + k) → a[j]? = b[j]?) :
    (substr a pos n : Except (Failure ε) Str) = substr b pos n := by
  unfold substr
  cases pos with
  | none => rfl
  | some p =>
    simp only [hlen]
    split
    · rfl
    · cases n with
      | none =>
        simp only
        congr 1
        apply List.ext_getElem?
        intro m
        rw [List.getElem?_drop, List.getElem?_drop]
        exact hab p rfl (p + m) (by omega) (fun k hk => by simp at hk)
      | some k =>
        simp only
        congr 1
        apply List.ext_getElem?
        intro m
        rw [getElem?_take_drop, getElem?_take_drop]
        split
        · exact hab p rfl (p + m) (by omega) (fun k' hk' => by
            obtain rfl : k = k' := Option.some.inj hk'
            omega)
        · rfl

theorem copyBefore_congr {ε : Type} {a b : Str} (hlen : a.length = b.length) (st : LoopState)
    (newLineBefore : Option Nat) (q : Nat) (hnb : ∀ nb, newLineBefore = some nb → nb ≤ q)
    (hab : ∀ j, j ≤ q → (∀ m, st.startMarker = some m → m ≤ j) → a[j]? = b[j]?) :
    (copyBefore a st newLineBefore : Except (Failure ε) Str) =
      copyBefore b st newLineBefore := by
  unfold copyBefore
  cases newLineBefore with
  | none => rfl
  | some nb =>
    cases hsm : st.startMarker with
    | none => rfl
    | some sm =>
      simp only
      split
      · rw [substr_congr hlen (some sm) (some (nb - sm + 1))]
        intro p hp j hj1 hj2
        obtain rfl : sm = p := Option.some.inj hp
        have := hj2 _ rfl
        have := hnb nb rfl
        exact hab j (by omega) (fun m hm => by
          rw [hsm] at hm
          obtain rfl : sm = m := Option.some.inj hm
          exact hj1)
      · rfl

/-- A pass of the loop body does the same on two sources that differ only in the two
delimiters, when it extracts the same file name from both and copies the same text. -/
theorem SameButDelimiters.loopBody_congr {ε : Type} {a b : Str} {s e : Nat}
    (D : SameButDelimiters a b s e) (fileName : Str) (loader : Str → Except ε Str)
    (st : LoopState) (q : Nat)
    (hdir : (directiveFilename a fileName q : Except (Failure ε) Str) =
      directiveFilename b fileName q)
    (hcopy : (copyBefore a st (rfind a ['\n'] q) : Except (Failure ε) Str) =
      copyBefore b st (rfind a ['\n'] q)) :
    loopBody a fileName loader st q = loopBody b fileName loader st q := by
  unfold loopBody
  simp only [D.lineCommented_eq, D.blockCommented_eq, D.find_include_eq, D.find_newline_eq, hdir,
    ← D.rfind_newline_eq, hcopy, nextInclude]

theorem onLine_eq_some {startIt newLineAfter : Option Nat} {x : Nat}
    (h : onLine startIt newLineAfter = some x) :
    startIt = some x ∧ ∀ n, newLineAfter = some n → x ≤ n := by
  unfold onLine at h
  split at h
  · exact absurd h (by simp)
  · obtain rfl := Option.some.inj h
    exact ⟨rfl, fun n hn => by simp at hn⟩
  · rename_i s n
    split at h
    · exact absurd h (by simp)
    · obtain rfl := Option.some.inj h
      refine ⟨rfl, fun n' hn => ?_⟩
      obtain rfl : n = n' := Option.some.inj hn
      omega

theorem openingDelimiter_some {src : Str} {q x : Nat} {c : Char}
    (h : openingDelimiter src q = some (x, c)) :
    q + 8 ≤ x ∧ (∀ n, find src ['\n'] (q + 8) = some n → x < n) ∧
      ((c = '"' ∧ find src ['"'] (q + 8) = some x) ∨
        (c = '>' ∧ find src ['<'] (q + 8) = some x ∧
          onLine (find src ['"'] (q + 8)) (find src ['\n'] (q + 8)) = none)) := by
  have hbound : ∀ (d : Char), d ≠ '\n' → find src [d] (q + 8) = some x →
      (∀ n, find src ['\n'] (q + 8) = some n → x ≤ n) →
      q + 8 ≤ x ∧ ∀ n, find src ['\n'] (q + 8) = some n → x < n := by
    intro d hd hf hle
    obtain ⟨h1, h2, _⟩ := find_char_eq_some.mp hf
    refine ⟨h1, fun n hn => ?_⟩
    have := hle n hn
    have hn2 := (find_char_eq_some.mp hn).2.1
    rcases Nat.lt_or_ge x n with hlt | hge
    · exact hlt
    · obtain rfl : x = n := by omega
      rw [h2] at hn2
      exact absurd (Option.some.inj hn2) hd
  unfold openingDelimiter at h
  simp only at h
  split at h
  · rename_i x' hq
    obtain ⟨rfl, rfl⟩ := Prod.mk.inj (Option.some.inj h)
    obtain ⟨h1, h2⟩ := onLine_eq_some hq
    obtain ⟨h3, h4⟩ := hbound '"' (by decide) h1 h2
    exact ⟨h3, h4, Or.inl ⟨rfl, h1⟩⟩
  · rename_i hq
    split at h
    · rename_i x' ha
      obtain ⟨rfl, rfl⟩ := Prod.mk.inj (Option.some.inj h)
      obtain ⟨h1, h2⟩ := onLine_eq_some ha
      obtain ⟨h3, h4⟩ := hbound '<' (by decide) h1 h2
      exact ⟨h3, h4, Or.inr ⟨rfl, h1, hq⟩⟩
    · exact absurd h (by simp)

theorem onLine_find_congr {a b : Str} {c : Char} {k n : Nat}
    (hab : ∀ j, k ≤ j → j ≤ n → a[j]? = b[j]?) :
    onLine (find a [c] k) (some n) = onLine (find b [c] k) (some n) := by
  have key : ∀ (u v : Str), (∀ j, k ≤ j → j ≤ n → u[j]? = v[j]?) → ∀ x,
      onLine (find u [c] k) (some n) = some x → onLine (find v [c] k) (some n) = some x := by
    intro u v huv x hx
    obtain ⟨h1, h2⟩ := onLine_eq_some hx
    have hxn := h2 n rfl
    rw [find_char_congr_until h1 (fun j hj1 hj2 => huv j hj1 (by omega))]
    simp [onLine, show ¬ x > n by omega]
  cases ha : onLine (find a [c] k) (some n) with
  | some x => exact (key a b hab x ha).symm
  | none =>
    cases hb : onLine (find b [c] k) (some n) with
    | none => rfl
    | some y =>
      have := key b a (fun j h1 h2 => (hab j h1 h2).symm) y hb
      rw [ha] at this
      exact absurd this (by simp)

theorem openingDelimiter_congr_line {a b : Str} {q n : Nat}
    (hna : find a ['\n'] (q + 8) = some n) (hnb : find b ['\n'] (q + 8) = some n)
    (hab : ∀ j, q + 8 ≤ j → j ≤ n → a[j]? = b[j]?) :
    openingDelimiter a q = openingDelimiter b q := by
  unfold openingDelimiter
  simp only [hna, hnb, onLine_find_congr hab]

theorem take_drop_congr {a b : Str} {x n : Nat}
    (hab : ∀ j, x ≤ j → j < x + n → a[j]? = b[j]?) :
    (a.drop x).take n = (b.drop x).take n := by
  apply List.ext_getElem?
  intro m
  rw [getElem?_take_drop, getElem?_take_drop]
  split
  · exact hab (x + m) (by omega) (by omega)
  · rfl

/-- A directive whose path holds no newline is read from its own line alone: a source
that agrees up to the end of that line gives the same path. -/
theorem pathAt_congr_line {a b : Str} {q n : Nat} {path : Str}
    (hna : find a ['\n'] (q + 8) = some n) (hnb : find b ['\n'] (q + 8) = some n)
    (hab : ∀ j, j ≤ n → a[j]? = b[j]?) (hpath : pathAt a q = some path)
    (hnl : '\n' ∉ path) : pathAt b q = some path := by
  have hod := openingDelimiter_congr_line hna hnb (fun j _ hj => hab j hj)
  unfold pathAt at hpath ⊢
  rw [← hod]
  cases ho : openingDelimiter a q with
  | none =>
    rw [ho] at hpath
    exact absurd hpath (by simp)
  | some xc =>
    obtain ⟨x, c⟩ := xc
    rw [ho] at hpath
    simp only at hpath ⊢
    obtain ⟨hx1, hx2, hx3⟩ := openingDelimiter_some ho
    have hxn := hx2 n hna
    have hc : c ≠ '\n' := by
      rcases hx3 with ⟨rfl, _⟩ | ⟨rfl, _⟩ <;> decide
    cases hf : find a [c] (x + 1) with
    | none =>
      rw [hf] at hpath
      exact absurd hpath (by simp)
    | some e' =>
      rw [hf] at hpath
      simp only [Option.some.injEq] at hpath
      obtain ⟨he1, he2, _⟩ := find_char_eq_some.mp hf
      have hn2 := (find_char_eq_some.mp hna).2.1
      have hen : e' < n := by
        rcases Nat.lt_trichotomy e' n with hlt | heq | hgt
        · exact hlt
        · subst heq
          rw [he2] at hn2
          exact absurd (Option.some.inj hn2) hc
        · exfalso
          apply hnl
          rw [← hpath]
          apply List.mem_iff_getElem?.mpr
          refine ⟨n - x - 1, ?_⟩
          rw [getElem?_take_drop, if_pos (by omega), show x + 1 + (n - x - 1) = n by omega]
          exact hn2
      rw [find_char_congr_until hf (fun j _ hj => hab j (by omega))]
      simp only [Option.some.injEq]
      rw [← hpath]
      exact (take_drop_congr (fun j _ hj => hab j (by omega))).symm

theorem findStart_ok_ge {ε : Type} {src fileName : Str} {q x : Nat} {c : Char}
    (h : (findStart src fileName q (find src ['\n'] (q + 8)) :
      Except (Failure ε) (Nat × Char)) = .ok (x, c)) : q + 8 ≤ x :=
  (openingDelimiter_some ((findStart_eq_ok _ _ _ _ _).mp h)).1

/-- Lines 249-278 read the source only from the occurrence on: two sources that agree
from there on give the same file name or raise the same exception. -/
theorem directiveFilename_congr_from {ε : Type} {a b : Str} (fileName : Str) {q : Nat}
    (hlen : a.length = b.length) (hab : ∀ j, q ≤ j → a[j]? = b[j]?) :
    (directiveFilename a fileName q : Except (Failure ε) Str) =
      directiveFilename b fileName q := by
  have hnl : find a ['\n'] (q + 8) = find b ['\n'] (q + 8) :=
    find_char_congr_from (fun j hj => hab j (by omega))
  have htext : (directiveText a q (find b ['\n'] (q + 8)) : Except (Failure ε) Str) =
      directiveText b q (find b ['\n'] (q + 8)) := by
    unfold directiveText
    exact substr_congr hlen _ _ (fun p hp j hj _ => by
      obtain rfl : q = p := Option.some.inj hp
      exact hab j hj)
  have hfs : (findStart a fileName q (find b ['\n'] (q + 8)) :
      Except (Failure ε) (Nat × Char)) = findStart b fileName q (find b ['\n'] (q + 8)) := by
    unfold findStart
    rw [find_char_congr_from (c := '"') (fun j hj => hab j (by omega)),
      find_char_congr_from (c := '<') (fun j hj => hab j (by omega)), htext]
  unfold directiveFilename
  simp only [hnl, hfs, htext]
  cases h : (findStart b fileName q (find b ['\n'] (q + 8)) :
      Except (Failure ε) (Nat × Char)) with
  | error err => rfl
  | ok xc =>
    obtain ⟨x, c⟩ := xc
    have hx := findStart_ok_ge h
    simp only
    rw [find_char_congr_from (c := c) (k := x + 1) (fun j hj => hab j (by omega))]
    cases find b [c] (x + 1) with
    | none => rfl
    | some e' =>
      simp only
      split
      · rfl
      · exact substr_congr hlen _ _ (fun p hp j hj _ => by
          obtain rfl : x + 1 = p := Option.some.inj hp
          exact hab j (by omega))

/-- After the directive the loop runs the same on both sources. -/
theorem SameButDelimiters.whileLoop_after {ε : Type} {a b : Str} {s e : Nat}
    (D : SameButDelimiters a b s e) (fileName : Str) (loader : Str → Except ε Str)
    (fuel : Nat) :
    ∀ st : LoopState,
      ((st.startMarker = none ∧ st.i = none) ∨
        ∃ m, st.startMarker = some m ∧ e < m ∧ ∀ q, st.i = some q → m ≤ q) →
      whileLoop a fileName loader fuel st = whileLoop b fileName loader fuel st := by
  induction fuel with
  | zero => intro st _; rfl
  | succ fuel ih =>
    intro st hst
    have hafter : ∀ j, e < j → a[j]? = b[j]? := fun j hj =>
      D.same j (by have := D.lt; omega) (by omega)
    unfold whileLoop
    cases hi : st.i with
    | none =>
      simp only
      unfold afterLoop
      rw [substr_congr D.len st.startMarker none]
      intro p hp j hj _
      rcases hst with ⟨h, _⟩ | ⟨m, hm, hem, _⟩
      · rw [h] at hp
        exact absurd hp (by simp)
      · rw [hm] at hp
        obtain rfl : m = p := Option.some.inj hp
        exact hafter j (by omega)
    | some q =>
      simp only
      rcases hst with ⟨_, h⟩ | ⟨m, hm, hem, hiq⟩
      · rw [hi] at h
        exact absurd h (by simp)
      have hmq := hiq q hi
      have hbody : loopBody a fileName loader st q = loopBody b fileName loader st q := by
        apply D.loopBody_congr
        · exact directiveFilename_congr_from fileName D.len (fun j hj => hafter j (by omega))
        · apply copyBefore_congr D.len st _ q
          · intro nb hnb
            exact ((rfind_eq_some (by simp)).mp hnb).1
          · intro j _ hj
            exact hafter j (by have := hj m hm; omega)
      rw [← hbody]
      cases hb : loopBody a fileName loader st q with
      | raise opened err => rfl
      | next st' =>
        simp only
        apply ih
        rcases loopBody_next_cases hb with ⟨_, rfl⟩ | ⟨_, _, _, _, _, _, _, _, rfl⟩
        · refine Or.inr ⟨m, hm, hem, fun q' hq' => ?_⟩
          have := (find_include_some hq').1
          omega
        · cases hna : find a ['\n'] (q + 8) with
          | none => exact Or.inl ⟨rfl, by simp [nextInclude]⟩
          | some n =>
            have := (find_char_eq_some.mp hna).1
            refine Or.inr ⟨n, rfl, by omega, fun q' hq' => ?_⟩
            simp only [nextInclude] at hq'
            exact (find_include_some hq').1

theorem loopBody_of_commented {ε : Type} {src : Str} (fileName : Str)
    (loader : Str → Except ε Str) (st : LoopState) {q : Nat}
    (h : lineCommented src q = true ∨ blockCommented src q = true) :
    loopBody src fileName loader st q =
      .next { st with i := find src "#include".toList (q + 8) } := by
  unfold loopBody
  rcases h with h | h
  · simp [h]
  · cases hl : lineCommented src q <;> simp [h]

/-- Up to the directive the loop reaches the same states on both sources, as long as no
path opened on the way holds a newline. -/
theorem SameButDelimiters.reaches_before {ε : Type} {a b : Str} {s e : Nat}
    (D : SameButDelimiters a b s e) (fileName : Str) (loader : Str → Except ε Str)
    {P : Nat} (hPs : P < s) {st : LoopState} (h : Reaches a fileName loader st) :
    ∀ q, st.i = some q → q ≤ P → (∀ x ∈ st.opened, '\n' ∉ x) →
      Reaches b fileName loader st := by
  have hbefore : ∀ j, j < s → a[j]? = b[j]? := fun j hj =>
    D.same j (by omega) (by have := D.lt; omega)
  induction h with
  | entry =>
    intro _ _ _ _
    have : entryState a = entryState b := by
      unfold entryState
      rw [D.find_include_eq]
    rw [this]
    exact Reaches.entry
  | @pass st₀ st₁ q₀ _ hi₀ hb ih =>
    intro q₁ hi₁ hq₁ hnl
    obtain ⟨h8, _, _⟩ := loopBody_next_i hb hi₁
    rcases loopBody_next_cases hb with ⟨hc, rfl⟩ | ⟨_, _, filename, text, copied, hp, _, _, rfl⟩
    · have hr := ih q₀ hi₀ (by omega) hnl
      refine Reaches.pass hr hi₀ ?_
      rw [loopBody_of_commented fileName loader st₀
        (by rw [← D.lineCommented_eq, ← D.blockCommented_eq]; exact hc), D.find_include_eq]
    · have hr := ih q₀ hi₀ (by omega) (fun x hx => hnl x (List.mem_append_left _ hx))
      refine Reaches.pass hr hi₀ ?_
      rw [← hb]
      symm
      cases hna : find a ['\n'] (q₀ + 8) with
      | none =>
        rw [hna] at hi₁
        exact absurd hi₁ (by simp [nextInclude])
      | some n =>
        rw [hna] at hi₁
        simp only [nextInclude] at hi₁
        have hn := (find_include_some hi₁).1
        have hpb : pathAt b q₀ = some filename :=
          pathAt_congr_line hna (D.find_newline_eq _ ▸ hna) (fun j hj => hbefore j (by omega)) hp
            (hnl filename (List.mem_append_right _ (List.mem_singleton_self _)))
        apply D.loopBody_congr
        · rw [(directiveFilename_eq_ok _ _ _ _).mpr hp, (directiveFilename_eq_ok _ _ _ _).mpr hpb]
        · apply copyBefore_congr D.len st₀ _ q₀
          · intro nb hnb
            exact ((rfind_eq_some (by simp)).mp hnb).1
          · intro j hj _
            exact hbefore j (by omega)

/-- The characters of a source that holds the directive `#include`, a blank, the
delimiter `o`, the path `p` and the delimiter `c`, between `pre` and `rest`. -/
theorem delimited_source_index (pre p rest : Str) (o c : Char) :
    let src := pre ++ ("#include ".toList ++ (o :: (p ++ (c :: rest))))
    (∀ j, j < pre.length → src[j]? = pre[j]?) ∧
    (∀ m, m < 9 → src[pre.length + m]? = ("#include ".toList)[m]?) ∧
    src[pre.length + 9]? = some o ∧
    (∀ m, m < p.length → src[pre.length + 10 + m]? = p[m]?) ∧
    src[pre.length + 10 + p.length]? = some c ∧
    (∀ m, src[pre.length + 11 + p.length + m]? = rest[m]?) ∧
    src.length = pre.length + 11 + p.length + rest.length := by
  intro src
  have hlit : ("#include ".toList).length = 9 := rfl
  refine ⟨?_, ?_, ?_, ?_, ?_, ?_, ?_⟩
  · intro j hj
    exact List.getElem?_append_left hj
  · intro m hm
    show (pre ++ _)[_]? = _
    rw [List.getElem?_append_right (by omega), List.getElem?_append_left (by omega)]
    congr 1
    omega
  · show (pre ++ _)[_]? = _
    rw [List.getElem?_append_right (by omega), List.getElem?_append_right (by omega)]
    have : pre.length + 9 - pre.length - ("#include ".toList).length = 0 := by omega
    rw [this]
    simp
  · intro m hm
    show (pre ++ _)[_]? = _
    rw [List.getElem?_append_right (by omega), List.getElem?_append_right (by omega)]
    have : pre.length + 10 + m - pre.length - ("#include ".toList).length = m + 1 := by omega
    rw [this, List.getElem?_cons_succ, List.getElem?_append_left hm]
  · show (pre ++ _)[_]? = _
    rw [List.getElem?_append_right (by omega), List.getElem?_append_right (by omega)]
    have : pre.length + 10 + p.length - pre.length - ("#include ".toList).length =
        p.length + 1 := by omega
    rw [this, List.getElem?_cons_succ, List.getElem?_append_right (le_refl _)]
    simp
  · intro m
    show (pre ++ _)[_]? = _
    rw [List.getElem?_append_right (by omega), List.getElem?_append_right (by omega)]
    have : pre.length + 11 + p.length + m - pre.length - ("#include ".toList).length =
        p.length + (m + 1) + 1 := by omega
    rw [this, List.getElem?_cons_succ, List.getElem?_append_right (by omega)]
    have : p.length + (m + 1) - p.length = m + 1 := by omega
    rw [this, List.getElem?_cons_succ]
  · show (pre ++ _).length = _
    simp only [List.length_append, List.length_cons, hlit]
    omega

theorem delimited_sameBut (pre p rest : Str) :
    SameButDelimiters (pre ++ ("#include ".toList ++ ('<' :: (p ++ ('>' :: rest)))))
      (pre ++ ("#include ".toList ++ ('"' :: (p ++ ('"' :: rest)))))
      (pre.length + 9) (pre.length + 10 + p.length) := by
  obtain ⟨a1, a2, a3, a4, a5, a6, a7⟩ := delimited_source_index pre p rest '<' '>'
  obtain ⟨b1, b2, b3, b4, b5, b6, b7⟩ := delimited_source_index pre p rest '"' '"'
  refine ⟨by rw [a7, b7], ?_, a3, a5, b3, b5, by omega⟩
  intro j hj1 hj2
  rcases Nat.lt_or_ge j pre.length with h | h
  · rw [a1 j h, b1 j h]
  · rcases Nat.lt_or_ge j (pre.length + 9) with h' | h'
    · have ha := a2 (j - pre.length) (by omega)
      have hb := b2 (j - pre.length) (by omega)
      rw [show pre.length + (j - pre.length) = j by omega] at ha hb
      rw [ha, hb]
    · rcases Nat.lt_or_ge j (pre.length + 10 + p.length) with h'' | h''
      · have ha := a4 (j - (pre.length + 10)) (by omega)
        have hb := b4 (j - (pre.length + 10)) (by omega)
        rw [show pre.length + 10 + (j - (pre.length + 10)) = j by omega] at ha hb
        rw [ha, hb]
      · have ha := a6 (j - (pre.length + 11 + p.length))
        have hb := b6 (j - (pre.length + 11 + p.length))
        rw [show pre.length + 11 + p.length + (j - (pre.length + 11 + p.length)) = j by omega]
          at ha hb
        rw [ha, hb]

/-- The path of the directive written with the delimiters `o` and `c`, once `o` is
known to be the opening delimiter that the scan takes: the text `p` between them. -/
theorem pathAt_delimited (pre p rest : Str) (o c : Char) (hc : c ∉ p)
    (hopen : openingDelimiter (pre ++ ("#include ".toList ++ (o :: (p ++ (c :: rest)))))
      pre.length = some (pre.length + 9, c)) :
    pathAt (pre ++ ("#include ".toList ++ (o :: (p ++ (c :: rest))))) pre.length = some p := by
  obtain ⟨_, _, _, f4, f5, _, _⟩ := delimited_source_index pre p rest o c
  have hclose : find (pre ++ ("#include ".toList ++ (o :: (p ++ (c :: rest))))) [c]
      (pre.length + 9 + 1) = some (pre.length + 10 + p.length) := by
    rw [find_char_eq_some]
    refine ⟨by omega, f5, ?_⟩
    intro j hj1 hj2 hj
    have := f4 (j - (pre.length + 10)) (by omega)
    rw [show pre.length + 10 + (j - (pre.length + 10)) = j by omega, hj] at this
    exact hc (List.mem_iff_getElem?.mpr ⟨_, this.symm⟩)
  have hs : StartsAt (pre ++ ("#include ".toList ++ (o :: (p ++ (c :: rest))))) p
      (pre.length + 10) := by
    rw [startsAt_iff_getElem?]
    exact f4
  unfold pathAt
  rw [hopen]
  simp only [hclose, Option.some.injEq]
  rw [show pre.length + 10 + p.length - (pre.length + 9) - 1 = p.length by omega,
    show pre.length + 9 + 1 = pre.length + 10 by omega]
  exact take_drop_of_startsAt hs

theorem delimited_find_open (pre p rest : Str) (o c : Char) (ho : o ≠ ' ') :
    find (pre ++ ("#include ".toList ++ (o :: (p ++ (c :: rest))))) [o] (pre.length + 8) =
        some (pre.length + 9) ∧
      onLine (find (pre ++ ("#include ".toList ++ (o :: (p ++ (c :: rest))))) [o]
        (pre.length + 8))
        (find (pre ++ ("#include ".toList ++ (o :: (p ++ (c :: rest))))) ['\n']
          (pre.length + 8)) = some (pre.length + 9) := by
  obtain ⟨_, f2, f3, _, _, _, _⟩ := delimited_source_index pre p rest o c
  have h8 := f2 8 (by omega)
  have hf : find (pre ++ ("#include ".toList ++ (o :: (p ++ (c :: rest))))) [o]
      (pre.length + 8) = some (pre.length + 9) := by
    rw [find_char_eq_some]
    refine ⟨by omega, f3, ?_⟩
    intro j hj1 hj2 hj
    obtain rfl : j = pre.length + 8 := by omega
    rw [h8] at hj
    exact ho (Option.some.inj hj).symm
  refine ⟨hf, onLine_some_of_present hf ?_⟩
  intro j hj1 hj2 hj
  obtain rfl : j = pre.length + 8 := by omega
  rw [h8] at hj
  exact absurd (Option.some.inj hj) (by decide)

theorem pathAt_quoted (pre p rest : Str) (hq : '"' ∉ p) :
    pathAt (pre ++ ("#include ".toList ++ ('"' :: (p ++ ('"' :: rest))))) pre.length =
      some p := by
  apply pathAt_delimited pre p rest '"' '"' hq
  unfold openingDelimiter
  simp only [(delimited_find_open pre p rest '"' '"' (by decide)).2]

theorem pathAt_angled (pre p rest : Str) (hq : '"' ∉ p) (hgt : '>' ∉ p)
    (hrest : ∀ k : Nat, (∀ j : Nat, j < k → rest[j]? ≠ some '\n') → rest[k]? ≠ some '"') :
    pathAt (pre ++ ("#include ".toList ++ ('<' :: (p ++ ('>' :: rest))))) pre.length =
      some p := by
  apply pathAt_delimited pre p rest '<' '>' hgt
  obtain ⟨_, f2, f3, f4, f5, f6, _⟩ := delimited_source_index pre p rest '<' '>'
  have hnoq : onLine (find (pre ++ ("#include ".toList ++ ('<' :: (p ++ ('>' :: rest))))) ['"']
      (pre.length + 8))
      (find (pre ++ ("#include ".toList ++ ('<' :: (p ++ ('>' :: rest))))) ['\n']
        (pre.length + 8)) = none := by
    apply onLine_none_of_absent
    intro k hk hnl hkq
    rcases Nat.lt_or_ge k (pre.length + 9) with h | h
    · obtain rfl : k = pre.length + 8 := by omega
      rw [f2 8 (by omega)] at hkq
      exact absurd (Option.some.inj hkq) (by decide)
    · rcases Nat.lt_or_ge k (pre.length + 10) with h' | h'
      · obtain rfl : k = pre.length + 9 := by omega
        rw [f3] at hkq
        exact absurd (Option.some.inj hkq) (by decide)
      · rcases Nat.lt_or_ge k (pre.length + 10 + p.length) with h'' | h''
        · have := f4 (k - (pre.length + 10)) (by omega)
          rw [show pre.length + 10 + (k - (pre.length + 10)) = k by omega, hkq] at this
          exact hq (List.mem_iff_getElem?.mpr ⟨_, this.symm⟩)
        · rcases Nat.lt_or_ge k (pre.length + 11 + p.length) with h3 | h3
          · obtain rfl : k = pre.length + 10 + p.length := by omega
            rw [f5] at hkq
            exact absurd (Option.some.inj hkq) (by decide)
          · have hk' := f6 (k - (pre.length + 11 + p.length))
            rw [show pre.length + 11 + p.length + (k - (pre.length + 11 + p.length)) = k
              by omega, hkq] at hk'
            refine hrest (k - (pre.length + 11 + p.length)) ?_ hk'.symm
            intro j hj hjn
            rw [← f6 j] at hjn
            exact hnl (pre.length + 11 + p.length + j) (by omega) (by omega) hjn
  unfold openingDelimiter
  simp only [hnoq, (delimited_find_open pre p rest '<' '>' (by decide)).2]

/-- A pass of the loop body at an uncommented directive with path `p` asks the loader
for `p`, whether it goes on or raises afterwards. -/
theorem loopBody_opens {ε : Type} {src fileName : Str} {loader : Str → Except ε Str}
    {st : LoopState} {q : Nat} {p : Str} (hl : lineCommented src q = false)
    (hb : blockCommented src q = false) (hp : pathAt src q = some p) :
    (∃ st', loopBody src fileName loader st q = .next st' ∧ st'.opened = st.opened ++ [p]) ∨
      ∃ err, loopBody src fileName loader st q = .raise (st.opened ++ [p]) err := by
  have hdir := (directiveFilename_eq_ok (ε := ε) src fileName q p).mpr hp
  unfold loopBody
  simp only [hl, hb, Bool.false_eq_true, if_false, hdir]
  cases loader p with
  | error e => exact Or.inr ⟨_, rfl⟩
  | ok text =>
    simp only
    cases (copyBefore src st (rfind src ['\n'] q) : Except (Failure ε) Str) with
    | error e => exact Or.inr ⟨_, rfl⟩
    | ok copied => exact Or.inl ⟨_, rfl, rfl⟩

theorem angle_form_core {ε : Type} (pre p rest fileName : Str) (loader : Str → Except ε Str)
    (st : LoopState) (hq : '"' ∉ p) (hgt : '>' ∉ p) (hnl : '\n' ∉ p)
    (hrest : ∀ k : Nat, (∀ j : Nat, j < k → rest[j]? ≠ some '\n') → rest[k]? ≠ some '"')
    (hreach : Reaches (pre ++ ("#include ".toList ++ ('<' :: (p ++ ('>' :: rest)))))
      fileName loader st)
    (hi : st.i = some pre.length)
    (hline : lineCommented (pre ++ ("#include ".toList ++ ('<' :: (p ++ ('>' :: rest)))))
      pre.length = false)
    (hblock : blockCommented (pre ++ ("#include ".toList ++ ('<' :: (p ++ ('>' :: rest)))))
      pre.length = false)
    (hearlier : ∀ x ∈ st.opened, '\n' ∉ x) :
    Reaches (pre ++ ("#include ".toList ++ ('"' :: (p ++ ('"' :: rest))))) fileName loader st ∧
    pathAt (pre ++ ("#include ".toList ++ ('<' :: (p ++ ('>' :: rest))))) pre.length = some p ∧
    pathAt (pre ++ ("#include ".toList ++ ('"' :: (p ++ ('"' :: rest))))) pre.length = some p ∧
    lineCommented (pre ++ ("#include ".toList ++ ('"' :: (p ++ ('"' :: rest)))))
      pre.length = false ∧
    blockCommented (pre ++ ("#include ".toList ++ ('"' :: (p ++ ('"' :: rest)))))
      pre.length = false ∧
    ((∃ st', loopBody (pre ++ ("#include ".toList ++ ('<' :: (p ++ ('>' :: rest))))) fileName
        loader st pre.length = .next st' ∧ st'.opened = st.opened ++ [p]) ∨
      ∃ err, loopBody (pre ++ ("#include ".toList ++ ('<' :: (p ++ ('>' :: rest))))) fileName
        loader st pre.length = .raise (st.opened ++ [p]) err) ∧
    loopBody (pre ++ ("#include ".toList ++ ('<' :: (p ++ ('>' :: rest))))) fileName loader st
        pre.length =
      loopBody (pre ++ ("#include ".toList ++ ('"' :: (p ++ ('"' :: rest))))) fileName loader st
        pre.length ∧
    _resolveIncludes (pre ++ ("#include ".toList ++ ('<' :: (p ++ ('>' :: rest))))) loader
        fileName =
      _resolveIncludes (pre ++ ("#include ".toList ++ ('"' :: (p ++ ('"' :: rest))))) loader
        fileName := by
  have D := delimited_sameBut pre p rest
  have hPA := pathAt_angled pre p rest hq hgt hrest
  have hPB := pathAt_quoted pre p rest hq
  have hRB := D.reaches_before fileName loader (show pre.length < pre.length + 9 by omega)
    hreach pre.length hi (le_refl _) hearlier
  have hbody := D.loopBody_congr fileName loader st pre.length
    (by rw [(directiveFilename_eq_ok _ _ _ _).mpr hPA, (directiveFilename_eq_ok _ _ _ _).mpr hPB])
    (copyBefore_congr D.len st _ pre.length
      (fun nb hnb => ((rfind_eq_some (by simp)).mp hnb).1)
      (fun j hj _ => D.same j (by omega) (by omega)))
  refine ⟨hRB, hPA, hPB, by rw [← D.lineCommented_eq]; exact hline,
    by rw [← D.blockCommented_eq]; exact hblock, loopBody_opens hline hblock hPA, hbody, ?_⟩
  obtain ⟨_, f2, f3, f4, f5, _, _⟩ := delimited_source_index pre p rest '<' '>'
  rw [hreach.resolve_eq, hRB.resolve_eq, hi]
  simp only [remaining, D.len]
  unfold whileLoop
  simp only [hi, ← hbody]
  cases hb : loopBody (pre ++ ("#include ".toList ++ ('<' :: (p ++ ('>' :: rest))))) fileName
      loader st pre.length with
  | raise opened err => rfl
  | next st' =>
    simp only
    apply D.whileLoop_after
    rcases loopBody_next_cases hb with ⟨hc, _⟩ | ⟨_, _, _, _, _, _, _, _, rfl⟩
    · rcases hc with hc | hc
      · rw [hline] at hc
        exact absurd hc (by simp)
      · rw [hblock] at hc
        exact absurd hc (by simp)
    · cases hna : find (pre ++ ("#include ".toList ++ ('<' :: (p ++ ('>' :: rest))))) ['\n']
          (pre.length + 8) with
      | none => exact Or.inl ⟨rfl, by simp [nextInclude]⟩
      | some n =>
        obtain ⟨hn1, hn2, _⟩ := find_char_eq_some.mp hna
        have hne : pre.length + 10 + p.length < n := by
          by_contra hle
          rcases Nat.lt_or_ge n (pre.length + 9) with h | h
          · obtain rfl : n = pre.length + 8 := by omega
            rw [f2 8 (by omega)] at hn2
            exact absurd (Option.some.inj hn2) (by decide)
          · rcases Nat.lt_or_ge n (pre.length + 10) with h' | h'
            · obtain rfl : n = pre.length + 9 := by omega
              rw [f3] at hn2
              exact absurd (Option.some.inj hn2) (by decide)
            · rcases Nat.lt_or_ge n (pre.length + 10 + p.length) with h'' | h''
              · have := f4 (n - (pre.length + 10)) (by omega)
                rw [show pre.length + 10 + (n - (pre.length + 10)) = n by omega, hn2] at this
                exact hnl (List.mem_iff_getElem?.mpr ⟨_, this.symm⟩)
              · obtain rfl : n = pre.length + 10 + p.length := by omega
                rw [f5] at hn2
                exact absurd (Option.some.inj hn2) (by decide)
        refine Or.inr ⟨n, rfl, hne, fun q' hq' => ?_⟩
        simp only [nextInclude] at hq'
        exact (find_include_some hq').1

/-- C11, as the claim states it, fails in two ways by design. Behind a line comment
neither form is expanded, so each source comes back as it is and the two outputs differ
in the delimiters. And a directive that stands after another one on the same line is
not located as a directive of its own: written with quotes it lends its quotes to the
first directive of the line, which then asks for `f`, while with `<f>` the first
directive asks for `a`. -/
theorem resolveIncludes_angle_form_differs :
    _resolveIncludes "// #include <f>\n".toList
        (fun path => (Except.ok path : Except Unit Str)) "a.cg".toList =
      some ⟨[], .value "// #include <f>\n".toList⟩ ∧
    _resolveIncludes "// #include \"f\"\n".toList
        (fun path => (Except.ok path : Except Unit Str)) "a.cg".toList =
      some ⟨[], .value "// #include \"f\"\n".toList⟩ ∧
    _resolveIncludes "#include <a> #include <f>\n".toList
        (fun path => (Except.ok path : Except Unit Str)) "a.cg".toList =
      some ⟨["a".toList], .value "#line 1  \"a\"\na\n#line 0 \"a.cg\"\n\n".toList⟩ ∧
    _resolveIncludes "#include <a> #include \"f\"\n".toList
        (fun path => (Except.ok path : Except Unit Str)) "a.cg".toList =
      some ⟨["f".toList], .value "#line 1  \"f\"\nf\n#line 0 \"a.cg\"\n\n".toList⟩ := by
  decide

/-- C11, amended. Angle-bracket form: take a source that holds the directive
`#include <p>`, with no double quote, `<`, `>` or newline in `p` and no double quote
after it on its line, at which the scan arrives, every earlier pass having raised nothing
and opened only paths without a newline, and which the scan takes for uncommented. Then
on the source that differs only in writing `#include "p"` the scan arrives at the
directive in the same state and takes it for uncommented, both directives have the path
`p`, the pass of the loop body asks the loader for `p` and does the same on both sources,
and the two calls end alike: same opened paths, and the same output or the same
failure. -/
theorem resolveIncludes_angle_form {ε : Type} (pre p rest fileName : Str)
    (loader : Str → Except ε Str) (st : LoopState)
    (hq : '"' ∉ p) (_hlt : '<' ∉ p) (hgt : '>' ∉ p) (hnl : '\n' ∉ p)
    (hrest : ∀ k : Nat, (∀ j : Nat, j < k → rest[j]? ≠ some '\n') → rest[k]? ≠ some '"')
    (hreach : Reaches (pre ++ "#include <".toList ++ p ++ ">".toList ++ rest) fileName loader st)
    (hi : st.i = some pre.length)
    (hline : lineCommented (pre ++ "#include <".toList ++ p ++ ">".toList ++ rest)
      pre.length = false)
    (hblock : blockCommented (pre ++ "#include <".toList ++ p ++ ">".toList ++ rest)
      pre.length = false)
    (hearlier : ∀ x ∈ st.opened, '\n' ∉ x) :
    Reaches (pre ++ "#include \"".toList ++ p ++ "\"".toList ++ rest) fileName loader st ∧
    pathAt (pre ++ "#include <".toList ++ p ++ ">".toList ++ rest) pre.length = some p ∧
    pathAt (pre ++ "#include \"".toList ++ p ++ "\"".toList ++ rest) pre.length = some p ∧
    lineCommented (pre ++ "#include \"".toList ++ p ++ "\"".toList ++ rest)
      pre.length = false ∧
    blockCommented (pre ++ "#include \"".toList ++ p ++ "\"".toList ++ rest)
      pre.length = false ∧
    ((∃ st', loopBody (pre ++ "#include <".toList ++ p ++ ">".toList ++ rest) fileName loader
        st pre.length = .next st' ∧ st'.opened = st.opened ++ [p]) ∨
      ∃ err, loopBody (pre ++ "#include <".toList ++ p ++ ">".toList ++ rest) fileName loader
        st pre.length = .raise (st.opened ++ [p]) err) ∧
    loopBody (pre ++ "#include <".toList ++ p ++ ">".toList ++ rest) fileName loader st
        pre.length =
      loopBody (pre ++ "#include \"".toList ++ p ++ "\"".toList ++ rest) fileName loader st
        pre.length ∧
    _resolveIncludes (pre ++ "#include <".toList ++ p ++ ">".toList ++ rest) loader fileName =
      _resolveIncludes (pre ++ "#include \"".toList ++ p ++ "\"".toList ++ rest) loader
        fileName := by
  have hA : pre ++ "#include <".toList ++ p ++ ">".toList ++ rest =
      pre ++ ("#include ".toList ++ ('<' :: (p ++ ('>' :: rest)))) := by simp
  have hB : pre ++ "#include \"".toList ++ p ++ "\"".toList ++ rest =
      pre ++ ("#include ".toList ++ ('"' :: (p ++ ('"' :: rest)))) := by simp
  rw [hA] at hreach hline hblock
  rw [hA, hB]
  exact angle_form_core pre p rest fileName loader st hq hgt hnl hrest hreach hi hline hblock
    hearlier

theorem resolveIncludes_angle_form_witness :
    _resolveIncludes "#include <f>\n".toList
        (fun _ => (Except.ok "X\n".toList : Except Unit Str)) "a.cg".toList =
      _resolveIncludes "#include \"f\"\n".toList
        (fun _ => (Except.ok "X\n".toList : Except Unit Str)) "a.cg".toList :=
  (resolveIncludes_angle_form [] "f".toList "\n".toList "a.cg".toList
    (fun _ => (Except.ok "X\n".toList : Except Unit Str)) (entryState "#include <f>\n".toList)
    (by decide) (by decide) (by decide) (by decide)
    (by
      intro k hk
      rcases Nat.eq_zero_or_pos k with rfl | hpos
      · decide
      · exact absurd rfl (hk 0 hpos))
    Reaches.entry (by decide) (by decide) (by decide) (by decide)).2.2.2.2.2.2.2

theorem catchClauses_mHighLevelLoaded (e : Thrown) (p : Program) :
    (catchClauses e p).1.mHighLevelLoaded = p.mHighLevelLoaded := by
  cases e <;> rfl

/-- C22. The method `loadHighLevel` on the flags of the program: with `mHighLevelLoaded`
already true it changes nothing and does not call `loadHighLevelImpl`; with it false,
`loadHighLevelImpl` is called once, and when that call succeeds `mHighLevelLoaded`
becomes true; when it throws an `Exception` other than a `RuntimeAssertionException`,
nothing is thrown on, `mCompileError` becomes true and `mHighLevelLoaded` stays false;
and a `RuntimeAssertionException` is thrown on with `mHighLevelLoaded` still false. -/
theorem loadHighLevel_flags (loadHighLevelImpl : Bool → ImplOutcome)
    (createParameters copyMatchingNamedConstantsFrom : Option Thrown) (p : Program) :
    (p.mHighLevelLoaded = true →
      loadHighLevel loadHighLevelImpl createParameters copyMatchingNamedConstantsFrom p =
        (p, none)) ∧
    (p.mHighLevelLoaded = false →
      (loadHighLevel loadHighLevelImpl createParameters copyMatchingNamedConstantsFrom
        p).1.implCalls = p.implCalls + 1) ∧
    (p.mHighLevelLoaded = false → (loadHighLevelImpl p.mCompileError).thrown = none →
      (loadHighLevel loadHighLevelImpl createParameters copyMatchingNamedConstantsFrom
        p).1.mHighLevelLoaded = true) ∧
    (∀ description, p.mHighLevelLoaded = false →
      (loadHighLevelImpl p.mCompileError).thrown = some (.Exception description) →
      (loadHighLevel loadHighLevelImpl createParameters copyMatchingNamedConstantsFrom
        p).2 = none ∧
      (loadHighLevel loadHighLevelImpl createParameters copyMatchingNamedConstantsFrom
        p).1.mCompileError = true ∧
      (loadHighLevel loadHighLevelImpl createParameters copyMatchingNamedConstantsFrom
        p).1.mHighLevelLoaded = false) ∧
    (p.mHighLevelLoaded = false →
      (loadHighLevelImpl p.mCompileError).thrown = some .RuntimeAssertionException →
      (loadHighLevel loadHighLevelImpl createParameters copyMatchingNamedConstantsFrom
        p).2 = some .RuntimeAssertionException ∧
      (loadHighLevel loadHighLevelImpl createParameters copyMatchingNamedConstantsFrom
        p).1.mHighLevelLoaded = false) := by
  refine ⟨?_, ?_, ?_, ?_, ?_⟩
  · intro h
    simp [loadHighLevel, h]
  · intro h
    unfold loadHighLevel
    simp only [h, Bool.not_false, if_true]
    cases (loadHighLevelImpl p.mCompileError).thrown with
    | some e => cases e <;> rfl
    | none =>
      simp only
      split
      · cases createParameters with
        | some e => cases e <;> rfl
        | none =>
          cases copyMatchingNamedConstantsFrom with
          | some e => cases e <;> rfl
          | none => rfl
      · rfl
  · intro h hok
    unfold loadHighLevel
    simp only [h, Bool.not_false, if_true, hok]
    split
    · cases createParameters with
      | some e => exact catchClauses_mHighLevelLoaded e _
      | none =>
        cases copyMatchingNamedConstantsFrom with
        | some e => exact catchClauses_mHighLevelLoaded e _
        | none => rfl
    · rfl
  · intro description h hthrown
    unfold loadHighLevel
    simp [h, hthrown, catchClauses]
  · intro h hthrown
    unfold loadHighLevel
    simp [h, hthrown, catchClauses]

theorem loadHighLevel_flags_witness :
    (loadHighLevel (fun _ => ⟨false, some (.Exception "not supported".toList)⟩) none none
        ⟨false, false, true, 0⟩).2 = none ∧
      (loadHighLevel (fun _ => ⟨false, some (.Exception "not supported".toList)⟩) none none
        ⟨false, false, true, 0⟩).1.mCompileError = true ∧
      (loadHighLevel (fun _ => ⟨false, some (.Exception "not supported".toList)⟩) none none
        ⟨false, false, true, 0⟩).1.mHighLevelLoaded = false :=
  (loadHighLevel_flags (fun _ => ⟨false, some (.Exception "not supported".toList)⟩) none none
    ⟨false, false, true, 0⟩).2.2.2.1 "not supported".toList rfl rfl

theorem ReachesAfter.reaches {ε : Type} {inSource fileName : Str}
    {loader : Str → Except ε Str} {n : Nat} {st : LoopState}
    (h : ReachesAfter inSource fileName loader n st) : Reaches inSource fileName loader st := by
  induction h with
  | entry => exact Reaches.entry
  | pass _ hi hb ih => exact Reaches.pass ih hi hb

/-- The loop is deterministic: after `n` passes it is in one state. -/
theorem ReachesAfter.det {ε : Type} {inSource fileName : Str}
    {loader : Str → Except ε Str} {n : Nat} {st st' : LoopState}
    (h : ReachesAfter inSource fileName loader n st)
    (h' : ReachesAfter inSource fileName loader n st') : st = st' := by
  induction h generalizing st' with
  | entry =>
    cases h'
    rfl
  | pass _ hi hb ih =>
    cases h' with
    | pass hprev hi' hb' =>
      obtain rfl := ih hprev
      rw [hi] at hi'
      obtain rfl := Option.some.inj hi'
      rw [hb] at hb'
      exact Step.next.inj hb'

/-- Before its `n`-th pass the loop stood, after each smaller number `k` of passes, at an
occurrence that lies before the one it stands at now. -/
theorem ReachesAfter.earlier {ε : Type} {inSource fileName : Str}
    {loader : Str → Except ε Str} {n : Nat} {st : LoopState}
    (h : ReachesAfter inSource fileName loader n st) :
    ∀ k, k < n → ∃ s p, ReachesAfter inSource fileName loader k s ∧ s.i = some p ∧
      ∀ p', st.i = some p' → p < p' := by
  induction h with
  | entry => intro k hk; omega
  | @pass n st st' includePos hprev hi hb ih =>
    intro k hk
    rcases Nat.lt_or_ge k n with hlt | hge
    · obtain ⟨s, p, hs, hsp, hlt'⟩ := ih k hlt
      refine ⟨s, p, hs, hsp, ?_⟩
      intro p' hp'
      have := hlt' includePos hi
      have := (loopBody_next_i hb hp').1
      omega
    · obtain rfl : k = n := by omega
      refine ⟨st, includePos, hprev, hi, ?_⟩
      intro p' hp'
      have := (loopBody_next_i hb hp').1
      omega

/-- After the pass that expands the directive at `pos`, the loop never stands at an
occurrence `q` that follows `pos` with no newline between them. -/
theorem ReachesAfter.skips {ε : Type} {inSource fileName : Str}
    {loader : Str → Except ε Str} {n : Nat} {st st₁ : LoopState} {pos q : Nat}
    (hreach : ReachesAfter inSource fileName loader n st) (hi : st.i = some pos)
    (hbody : loopBody inSource fileName loader st pos = .next st₁)
    (hl : lineCommented inSource pos = false) (hb : blockCommented inSource pos = false)
    (hq : StartsAt inSource "#include".toList q) (hlt : pos < q)
    (hline : ∀ j, j < q → pos ≤ j → inSource[j]? ≠ some '\n') :
    ∀ k s, ReachesAfter inSource fileName loader k s → s.i ≠ some q := by
  intro k s hk hsq
  rcases Nat.lt_trichotomy k n with h | h | h
  · obtain ⟨s', p, hs', hsp, hlt'⟩ := hreach.earlier k h
    obtain rfl := hs'.det hk
    rw [hsq] at hsp
    obtain rfl := Option.some.inj hsp
    have := hlt' pos hi
    omega
  · subst h
    obtain rfl := hk.det hreach
    rw [hsq] at hi
    obtain rfl := Option.some.inj hi
    omega
  · have h1 : ReachesAfter inSource fileName loader (n + 1) st₁ := ReachesAfter.pass hreach hi hbody
    have hp : ∃ p, p ≤ q ∧ st₁.i = some p := by
      rcases Nat.lt_or_ge (n + 1) k with h2 | h2
      · obtain ⟨s', p, hs', hsp, hlt'⟩ := hk.earlier (n + 1) h2
        obtain rfl := hs'.det h1
        exact ⟨p, Nat.le_of_lt (hlt' q hsq), hsp⟩
      · obtain rfl : k = n + 1 := by omega
        obtain rfl := hk.det h1
        exact ⟨q, Nat.le_refl _, hsq⟩
    obtain ⟨p, hpq, hsp⟩ := hp
    rcases loopBody_next_cases hbody with ⟨hc, _⟩ | ⟨_, _, filename, text, copied, _, _, _, rfl⟩
    · rw [hl, hb] at hc
      simp at hc
    · simp only at hsp
      unfold nextInclude at hsp
      split at hsp
      · rename_i a ha
        obtain ⟨ha1, ha2, _⟩ := find_char_eq_some.mp ha
        have hap := (find_include_some hsp).1
        rcases Nat.lt_or_ge a q with h3 | h3
        · exact hline a h3 (by omega) ha2
        · obtain rfl : a = q := by omega
          rw [startsAt_head hq rfl] at ha2
          exact absurd ha2 (by decide)
      · exact absurd hsp (by simp)

/-- Every path asked of the loader so far is the path of an uncommented directive at
which the loop has stood. -/
theorem ReachesAfter.opened_visited {ε : Type} {inSource fileName : Str}
    {loader : Str → Except ε Str} {n : Nat} {st : LoopState}
    (h : ReachesAfter inSource fileName loader n st) :
    ∀ x ∈ st.opened, ∃ k s p, ReachesAfter inSource fileName loader k s ∧ s.i = some p ∧
      lineCommented inSource p = false ∧ blockCommented inSource p = false ∧
      pathAt inSource p = some x := by
  induction h with
  | entry =>
    intro x hx
    simp [entryState] at hx
  | @pass n st st' includePos hprev hi hb ih =>
    intro x hx
    rcases loopBody_next_cases hb with ⟨_, rfl⟩ | ⟨hl, hbc, filename, text, copied, hpath, _, _, rfl⟩
    · exact ih x hx
    · simp only at hx
      rcases List.mem_append.mp hx with hx | hx
      · exact ih x hx
      · obtain rfl : x = filename := by simpa using hx
        exact ⟨n, st, includePos, hprev, hi, hl, hbc, hpath⟩

/-- The paths that a call reports as opened are those of the state in which the loop
ended. -/
theorem whileLoop_final {ε : Type} (inSource fileName : Str) (loader : Str → Except ε Str)
    (fuel : Nat) :
    ∀ (n : Nat) (st : LoopState) (opened : List Str) (out : Str),
      ReachesAfter inSource fileName loader n st →
      whileLoop inSource fileName loader fuel st = some ⟨opened, .value out⟩ →
      ∃ k s, ReachesAfter inSource fileName loader k s ∧ s.i = none ∧ s.opened = opened := by
  induction fuel with
  | zero =>
    intro n st opened out _ h
    exact absurd h (by simp [whileLoop])
  | succ fuel ih =>
    intro n st opened out hreach h
    unfold whileLoop at h
    cases hi : st.i with
    | none =>
      rw [hi] at h
      simp only [Option.some.injEq] at h
      refine ⟨n, st, hreach, hi, ?_⟩
      unfold afterLoop at h
      split at h
      · exact absurd (congrArg Outcome.result h) (by simp)
      · exact congrArg Outcome.opened h
    | some includePos =>
      rw [hi] at h
      simp only at h
      cases hb : loopBody inSource fileName loader st includePos with
      | raise opened' e =>
        rw [hb] at h
        simp only [Option.some.injEq] at h
        exact absurd (congrArg Outcome.result h) (by simp)
      | next st' =>
        rw [hb] at h
        exact ih (n + 1) st' opened out (ReachesAfter.pass hreach hi hb) h

theorem sourceOf_append_list (xs ys : List Splice) :
    sourceOf (xs ++ ys) = sourceOf xs ++ sourceOf ys := by
  induction xs with
  | nil => simp [sourceOf]
  | cons y ys ih => simp [sourceOf, ih]

theorem outputOf_append_list (fileName : Str) (xs ys : List Splice) :
    outputOf fileName (xs ++ ys) = outputOf fileName xs ++ outputOf fileName ys := by
  induction xs with
  | nil => simp [outputOf]
  | cons y ys ih => simp [outputOf, ih]

theorem SplicedUpTo.at_entry (inSource fileName : Str) :
    SplicedUpTo inSource fileName (entryState inSource) [] 0 := by
  refine ⟨rfl, Nat.zero_le _, by simp [sourceOf], by simp [outputOf, entryState],
    by simp [entryState], Or.inl rfl, ?_⟩
  intro p hp
  exact ⟨Nat.zero_le _, (find_include_some hp).2.2⟩

/-- What a pass of the loop body does to the replaced lines: a commented occurrence
leaves them as they are and the scan goes on after the token; an expanded directive at
`p` adds one, the contents of the line of `p`, which end at the first newline at or
after `p + 8`, where the scan goes on, unless there is no such newline. -/
theorem SplicedUpTo.after_pass {ε : Type} {inSource fileName : Str} {loader : Str → Except ε Str}
    {st st' : LoopState} {p m : Nat} {splices : List Splice}
    (hinv : SplicedUpTo inSource fileName st splices m)
    (hi : st.i = some p) (hb : loopBody inSource fileName loader st p = .next st') :
    ((lineCommented inSource p = true ∨ blockCommented inSource p = true) ∧
      st'.i = find inSource "#include".toList (p + 8) ∧
      SplicedUpTo inSource fileName st' splices m) ∨
    (lineCommented inSource p = false ∧ blockCommented inSource p = false ∧
      ((find inSource ['\n'] (p + 8) = none ∧ st'.startMarker = none ∧ st'.i = none) ∨
        ∃ (x : Splice) (a : Nat), SplicedUpTo inSource fileName st' (splices ++ [x]) a ∧
          m + x.kept.length ≤ p ∧ a = m + x.kept.length + x.line.length ∧
          find inSource ['\n'] (p + 8) = some a ∧ '\n' ∉ x.line ∧
          pathAt inSource p = some x.path ∧ loader x.path = .ok x.text ∧
          m + x.kept.length = lineStartOf inSource p ∧ x.line = lineAt inSource p ∧
          x.lineCount = (outputOf fileName splices ++ x.kept).count '\n' ∧
          st'.i = find inSource "#include".toList a)) := by
  obtain ⟨hsm, hmlen, htake, hout, hopened, hm, hival⟩ := hinv
  obtain ⟨hmp, hs⟩ := hival p hi
  rcases loopBody_next_cases hb with ⟨hc, rfl⟩ |
    ⟨hlc, hbc, filename, text, copied, hpath, ht, hc, rfl⟩
  · refine Or.inl ⟨hc, rfl, hsm, hmlen, htake, hout, hopened, hm, ?_⟩
    intro q hq
    obtain ⟨h1, _, h3⟩ := find_include_some hq
    exact ⟨by omega, h3⟩
  · refine Or.inr ⟨hlc, hbc, ?_⟩
    obtain ⟨lineStart, hl1, hl2, hl3, hl4⟩ := lineStart_exists hs hmp hm
    have hplen := hs.include_le
    have hcopied := copyBefore_eq hsm hmlen hl4 hc
    have hls : lineStartOf inSource p = lineStart := by
      unfold lineStartOf
      rcases hl4 with ⟨h1, h2, hr⟩ | ⟨h1, _, hr⟩
      · rw [hr]
        simp only
        omega
      · rw [hr]
        simp only
        omega
    cases hna : find inSource ['\n'] (p + 8) with
    | none => exact Or.inl ⟨rfl, rfl, by simp [nextInclude]⟩
    | some a =>
      obtain ⟨ha1, ha2, ha3⟩ := find_char_eq_some.mp hna
      have halen : a < inSource.length := (List.getElem?_eq_some_iff.mp ha2).1
      have hkeptlen := length_take_drop hl1 (show lineStart ≤ inSource.length by omega)
      have hlinelen := length_take_drop (show lineStart ≤ a by omega) (Nat.le_of_lt halen)
      refine Or.inr ⟨⟨(inSource.drop m).take (lineStart - m),
        (inSource.drop lineStart).take (a - lineStart), filename, text, lineCountOf copied⟩,
        a, ⟨rfl, Nat.le_of_lt halen, ?_, ?_, ?_, Or.inr ha2, ?_⟩, ?_, ?_, rfl, ?_, hpath, ht,
        ?_, ?_, ?_, rfl⟩
      · rw [sourceOf_append, ← htake, take_eq_append_take_drop inSource (show m ≤ a by omega),
          take_eq_append_take_drop (inSource.drop m) (show lineStart - m ≤ a - m by omega),
          List.drop_drop, show m + (lineStart - m) = lineStart by omega,
          show a - m - (lineStart - m) = a - lineStart by omega]
      · simp only [outputOf_append, ← hout, spliced, Splice.block, hcopied, List.append_assoc]
      · simp [hopened]
      · intro q hq
        simp only [nextInclude] at hq
        obtain ⟨h1, _, h3⟩ := find_include_some hq
        exact ⟨h1, h3⟩
      · simp only [hkeptlen]
        omega
      · simp only [hkeptlen, hlinelen]
        omega
      · intro hmem
        obtain ⟨k, hk⟩ := List.mem_iff_getElem?.mp hmem
        simp only at hk
        rw [getElem?_take_drop] at hk
        split at hk
        · rcases Nat.lt_or_ge (lineStart + k) (p + 8) with hlt | hge
          · rcases Nat.lt_or_ge p (lineStart + k) with hlt' | hge'
            · have h8 := (startsAt_iff_getElem? _ _ _).mp hs (lineStart + k - p)
                (show lineStart + k - p < 8 by omega)
              rw [show p + (lineStart + k - p) = lineStart + k by omega, hk] at h8
              exact include_no_newline _ h8.symm
            · exact hl3 _ (by omega) hge' hk
          · exact ha3 _ hge (by omega) hk
        · exact absurd hk (by simp)
      · simp only [hkeptlen, hls]
        omega
      · simp only [lineAt, hna, hls]
      · simp only [lineCountOf_eq_count, hcopied, hout]

theorem ReachesAfter.spliced_up_to {ε : Type} {inSource fileName : Str}
    {loader : Str → Except ε Str} {n : Nat} {st : LoopState}
    (h : ReachesAfter inSource fileName loader n st) :
    (st.startMarker = none ∧ st.i = none) ∨
      ∃ splices m, SplicedUpTo inSource fileName st splices m := by
  induction h with
  | entry => exact Or.inr ⟨[], 0, SplicedUpTo.at_entry inSource fileName⟩
  | @pass n st st' includePos _ hi hb ih =>
    rcases ih with ⟨_, hnone⟩ | ⟨splices, m, hinv⟩
    · rw [hi] at hnone
      exact absurd hnone (by simp)
    · rcases hinv.after_pass hi hb with ⟨_, _, h1⟩ | ⟨_, _, ⟨_, h1, h2⟩ | ⟨x, a, h1, _⟩⟩
      · exact Or.inr ⟨splices, m, h1⟩
      · exact Or.inl ⟨h1, h2⟩
      · exact Or.inr ⟨_, a, h1⟩

theorem whileLoop_no_marker {ε : Type} {inSource fileName : Str} {loader : Str → Except ε Str}
    {st : LoopState} (hsm : st.startMarker = none) (hi : st.i = none) (fuel : Nat)
    (opened : List Str) (out : Str) :
    whileLoop inSource fileName loader fuel st ≠ some ⟨opened, .value out⟩ := by
  intro h
  cases fuel with
  | zero => exact absurd h (by simp [whileLoop])
  | succ fuel =>
    unfold whileLoop at h
    rw [hi] at h
    simp only [Option.some.injEq, afterLoop, hsm, substr] at h
    exact absurd (congrArg Outcome.result h) (by simp)

/-- A call that returns an output has gone on replacing whole lines after the ones
replaced so far: the lines of the directives that the scan locates from `i` on, one for
each, with their paths, and nothing else. -/
theorem whileLoop_splicedUpTo {ε : Type} (inSource fileName : Str) (loader : Str → Except ε Str)
    (fuel : Nat) :
    ∀ (st : LoopState) (splices : List Splice) (m : Nat) (opened : List Str) (out : Str),
      SplicedUpTo inSource fileName st splices m →
      whileLoop inSource fileName loader fuel st = some ⟨opened, .value out⟩ →
      ∃ (after : List Splice) (rest : Str),
        inSource = sourceOf splices ++ sourceOf after ++ rest ∧
        out = outputOf fileName splices ++ outputOf fileName after ++ rest ∧
        opened = (splices ++ after).map Splice.path ∧
        after.map Splice.line =
          (locatedDirectives inSource fuel st.i).map (fun d => lineAt inSource d.1) ∧
        after.map Splice.path = (locatedDirectives inSource fuel st.i).map Prod.snd := by
  induction fuel with
  | zero =>
    intro st splices m opened out _ h
    exact absurd h (by simp [whileLoop])
  | succ fuel ih =>
    intro st splices m opened out hinv h
    unfold whileLoop at h
    cases hi : st.i with
    | none =>
      rw [hi] at h
      obtain ⟨hsm, hmlen, htake, hout, hopened, _, _⟩ := hinv
      simp only [Option.some.injEq, afterLoop, hsm, substr, show ¬ m > inSource.length by omega,
        if_false, Outcome.mk.injEq, Returned.value.injEq] at h
      refine ⟨[], inSource.drop m, ?_, ?_, ?_, ?_, ?_⟩
      · simp [sourceOf, ← htake]
      · simp [outputOf, ← h.2, hout]
      · simp [← h.1, hopened]
      · simp [locatedDirectives]
      · simp [locatedDirectives]
    | some includePos =>
      rw [hi] at h
      simp only at h
      cases hb : loopBody inSource fileName loader st includePos with
      | raise opened' e =>
        rw [hb] at h
        simp only [Option.some.injEq] at h
        exact absurd (congrArg Outcome.result h) (by simp)
      | next st' =>
        rw [hb] at h
        simp only at h
        rcases hinv.after_pass hi hb with ⟨hc, hi', h1⟩ |
          ⟨hlc, hbc, ⟨_, h1, h2⟩ | ⟨x, a, h1, _, _, hna, _, hpath, _, _, hline, _, hi'⟩⟩
        · obtain ⟨after, rest, h3, h4, h5, h6, h7⟩ := ih st' splices m opened out h1 h
          have hcom : (lineCommented inSource includePos || blockCommented inSource includePos)
              = true := by
            rcases hc with hc | hc <;> simp [hc]
          refine ⟨after, rest, h3, h4, h5, ?_, ?_⟩
          · rw [h6, hi']
            simp only [locatedDirectives, hcom, if_true]
          · rw [h7, hi']
            simp only [locatedDirectives, hcom, if_true]
        · exact absurd h (whileLoop_no_marker h1 h2 fuel opened out)
        · obtain ⟨after, rest, h3, h4, h5, h6, h7⟩ := ih st' _ a opened out h1 h
          have hloc : locatedDirectives inSource (fuel + 1) (some includePos) =
              (includePos, x.path) :: locatedDirectives inSource fuel st'.i := by
            simp only [locatedDirectives, hlc, hbc, Bool.or_self, Bool.false_eq_true, if_false,
              hpath, hna, nextInclude, hi']
          refine ⟨x :: after, rest, ?_, ?_, ?_, ?_, ?_⟩
          · rw [h3, sourceOf_append_list]
            simp [sourceOf]
          · rw [h4, outputOf_append_list]
            simp [outputOf]
          · rw [h5]
            simp
          · rw [hloc]
            simp [h6, hline]
          · rw [hloc]
            simp [h7]

theorem sourceOf_length_of_take {inSource : Str} {splices : List Splice} {m : Nat}
    (hmlen : m ≤ inSource.length) (htake : inSource.take m = sourceOf splices) :
    (sourceOf splices).length = m := by
  rw [← htake, List.length_take]
  omega

/-- The splice of an expanded directive in the result of a call: when the call returns
an output and the loop stood, after `n` passes, at an uncommented occurrence at `pos`,
source and output fall into the same pieces but for the line of `pos`, which starts at
`lineStartOf inSource pos`, has the contents `lineAt inSource pos`, and in whose place the
output has the block for the path of the directive; after the pass the loop stands at
the first `#include` from the newline that ends the line. -/
theorem resolve_splice_at {ε : Type} {inSource fileName : Str} {loader : Str → Except ε Str}
    {opened : List Str} {out : Str} {n : Nat} {st : LoopState} {pos : Nat}
    (h : _resolveIncludes inSource loader fileName = some ⟨opened, .value out⟩)
    (hreach : ReachesAfter inSource fileName loader n st) (hi : st.i = some pos)
    (hl : lineCommented inSource pos = false) (hb : blockCommented inSource pos = false) :
    ∃ (before : List Splice) (x : Splice) (after : List Splice) (rest : Str) (a : Nat)
      (st₁ : LoopState),
      inSource = sourceOf before ++ (x.kept ++ x.line) ++ sourceOf after ++ rest ∧
      out = outputOf fileName before ++ (x.kept ++ x.block fileName) ++
        outputOf fileName after ++ rest ∧
      opened = before.map Splice.path ++ x.path :: after.map Splice.path ∧
      (sourceOf before ++ x.kept).length = lineStartOf inSource pos ∧
      x.line = lineAt inSource pos ∧
      pathAt inSource pos = some x.path ∧ loader x.path = .ok x.text ∧
      x.lineCount = (outputOf fileName before ++ x.kept).count '\n' ∧
      find inSource ['\n'] (pos + 8) = some a ∧
      ReachesAfter inSource fileName loader (n + 1) st₁ ∧ st₁.startMarker = some a ∧
      st₁.i = find inSource "#include".toList a := by
  have hrun := h
  rw [hreach.reaches.resolve_eq, hi] at hrun
  unfold whileLoop at hrun
  simp only [hi] at hrun
  cases hbody : loopBody inSource fileName loader st pos with
  | raise opened' e =>
    rw [hbody] at hrun
    simp only [Option.some.injEq] at hrun
    exact absurd (congrArg Outcome.result hrun) (by simp)
  | next st₁ =>
    rw [hbody] at hrun
    simp only at hrun
    rcases hreach.spliced_up_to with ⟨_, hnone⟩ | ⟨splices, m, hinv⟩
    · rw [hi] at hnone
      exact absurd hnone (by simp)
    · have hlenm := sourceOf_length_of_take hinv.2.1 hinv.2.2.1
      rcases hinv.after_pass hi hbody with ⟨hc, _⟩ |
        ⟨_, _, ⟨_, h1, h2⟩ | ⟨x, a, h1, _, _, h4, _, h6, h7, h8, h9, h10, h11⟩⟩
      · rw [hl, hb] at hc
        simp at hc
      · exact absurd hrun (whileLoop_no_marker h1 h2 _ opened out)
      · obtain ⟨after, rest, h12, h13, h14, _, _⟩ :=
          whileLoop_splicedUpTo inSource fileName loader _ st₁ _ a opened out h1 hrun
        refine ⟨splices, x, after, rest, a, st₁, ?_, ?_, ?_, ?_, h9, h6, h7, h10, h4,
          ReachesAfter.pass hreach hi hbody, h1.1, h11⟩
        · rw [h12, sourceOf_append]
        · rw [h13, outputOf_append]
        · rw [h14]
          simp
        · rw [List.length_append, hlenm]
          exact h8

theorem whileLoop_opened_extends {ε : Type} (inSource fileName : Str)
    (loader : Str → Except ε Str) (fuel : Nat) :
    ∀ (st : LoopState) (o : Outcome ε),
      whileLoop inSource fileName loader fuel st = some o → st.opened <+: o.opened := by
  induction fuel with
  | zero =>
    intro st o h
    exact absurd h (by simp [whileLoop])
  | succ fuel ih =>
    intro st o h
    unfold whileLoop at h
    cases hi : st.i with
    | none =>
      rw [hi] at h
      simp only [Option.some.injEq] at h
      subst h
      unfold afterLoop
      split <;> exact List.prefix_refl _
    | some includePos =>
      rw [hi] at h
      simp only at h
      cases hb : loopBody inSource fileName loader st includePos with
      | raise opened' e =>
        rw [hb] at h
        simp only [Option.some.injEq] at h
        subst h
        rcases loopBody_raise_cases hb with rfl | ⟨filename, _, rfl⟩
        · exact List.prefix_refl _
        · exact List.prefix_append _ _
      | next st' =>
        rw [hb] at h
        have h1 := ih st' o h
        rcases loopBody_next_cases hb with ⟨_, rfl⟩ | ⟨_, _, _, _, _, _, _, _, rfl⟩
        · exact h1
        · exact List.IsPrefix.trans (List.prefix_append _ _) h1

/-- At an uncommented directive with path `p` at which the loop stands, the call asks the
loader for `p`, right after the paths it had opened before, however it ends. -/
theorem resolve_opens {ε : Type} {inSource fileName : Str} {loader : Str → Except ε Str}
    {st : LoopState} {pos : Nat} {p : Str}
    (hreach : Reaches inSource fileName loader st) (hi : st.i = some pos)
    (hl : lineCommented inSource pos = false) (hb : blockCommented inSource pos = false)
    (hp : pathAt inSource pos = some p) :
    ∃ o, _resolveIncludes inSource loader fileName = some o ∧
      (st.opened ++ [p]) <+: o.opened := by
  have hlen := (hreach.i_valid hi).1
  rw [hreach.resolve_eq, hi]
  unfold whileLoop
  simp only [hi]
  rcases loopBody_opens hl hb hp with ⟨st', hb', ho'⟩ | ⟨err, hb'⟩
  · rw [hb']
    simp only
    have hrem : remaining inSource st'.i < remaining inSource (some pos) := by
      cases hi' : st'.i with
      | none => simp only [remaining]; omega
      | some q =>
        have h1 := (loopBody_next_i hb' hi').1
        have h2 := (loopBody_next_i hb' hi').2.1
        simp only [remaining]
        omega
    obtain ⟨o, ho⟩ := whileLoop_isSome inSource fileName loader _ st'
      (fun q hq => (loopBody_next_i hb' hq).2.1) hrem
    refine ⟨o, ho, ?_⟩
    rw [← ho']
    exact whileLoop_opened_extends inSource fileName loader _ st' o ho
  · rw [hb']
    exact ⟨_, rfl, List.prefix_refl _⟩

/-- C21, as the claim states it, fails. In the source `#include <a> #include "f"` the
directive at offset 0 is expanded and the occurrence at offset 13 follows it on the same
line; the quote is preferred to the angle bracket, so the path asked of the loader is
`f`, the path of the later occurrence. And in `#include "a" #include "b"`, where the
loader returns the path as the text, the text of the later occurrence is in the
output when the resource `a` holds it. -/
theorem resolveIncludes_later_occurrence_path_opened :
    (_resolveIncludes "#include <a> #include \"f\"\n".toList
        (fun p => (.ok p : Except Unit Str)) "m.cg".toList =
      some ⟨["f".toList], .value "#line 1  \"f\"\nf\n#line 0 \"m.cg\"\n\n".toList⟩ ∧
      (entryState "#include <a> #include \"f\"\n".toList).i = some 0 ∧
      lineCommented "#include <a> #include \"f\"\n".toList 0 = false ∧
      blockCommented "#include <a> #include \"f\"\n".toList 0 = false ∧
      StartsAt "#include <a> #include \"f\"\n".toList "#include".toList 13 ∧
      (∀ j, j < 13 → "#include <a> #include \"f\"\n".toList[j]? ≠ some '\n') ∧
      pathAt "#include <a> #include \"f\"\n".toList 13 = some "f".toList) ∧
    (_resolveIncludes "#include \"a\" #include \"b\"\n".toList
        (fun _ => (.ok "#include \"b\"".toList : Except Unit Str)) "m.cg".toList =
      some ⟨["a".toList],
        .value "#line 1  \"a\"\n#include \"b\"\n#line 0 \"m.cg\"\n\n".toList⟩ ∧
      StartsAt "#include \"a\" #include \"b\"\n".toList "#include".toList 13 ∧
      (∀ j, j < 13 → "#include \"a\" #include \"b\"\n".toList[j]? ≠ some '\n') ∧
      "#include \"b\"".toList <:+:
        "#line 1  \"a\"\n#include \"b\"\n#line 0 \"m.cg\"\n\n".toList) := by
  refine ⟨⟨by decide, by decide, by decide, by decide, by decide, by decide, by decide⟩,
    by decide, by decide, by decide, ?_⟩
  exact ⟨"#line 1  \"a\"\n".toList, "\n#line 0 \"m.cg\"\n\n".toList, by decide⟩

/-- C21, amended. For every successful expansion, a `#include` occurrence at `q` that
lies after an expanded directive at `pos` on the same line (before the next newline) is
never treated as a directive: the loop never stands at `q`, so no pass of the body and no
loader call is made at it; every path asked of the loader is the path of an uncommented
directive at another offset, at which the loop did stand; and the occurrence lies in the
contents `x.line` of the line of the directive at `pos`, which hold no newline and in
whose place the output has the block spliced for the path of that directive. -/
theorem resolveIncludes_later_occurrence_on_line {ε : Type} (inSource fileName : Str)
    (loader : Str → Except ε Str) (opened : List Str) (out : Str) (n : Nat) (st : LoopState)
    (pos q : Nat)
    (h : _resolveIncludes inSource loader fileName = some ⟨opened, .value out⟩)
    (hreach : ReachesAfter inSource fileName loader n st) (hi : st.i = some pos)
    (hl : lineCommented inSource pos = false) (hb : blockCommented inSource pos = false)
    (hq : StartsAt inSource "#include".toList q) (hlt : pos < q)
    (hline : ∀ j, j < q → pos ≤ j → inSource[j]? ≠ some '\n') :
    (∀ k s, ReachesAfter inSource fileName loader k s → s.i ≠ some q) ∧
    (∀ path ∈ opened, ∃ k s p, ReachesAfter inSource fileName loader k s ∧ s.i = some p ∧
      p ≠ q ∧ lineCommented inSource p = false ∧ blockCommented inSource p = false ∧
      pathAt inSource p = some path) ∧
    ∃ (before : List Splice) (x : Splice) (after : List Splice) (rest : Str),
      inSource = sourceOf before ++ (x.kept ++ x.line) ++ sourceOf after ++ rest ∧
      out = outputOf fileName before ++ (x.kept ++ x.block fileName) ++
        outputOf fileName after ++ rest ∧
      (sourceOf before ++ x.kept).length ≤ pos ∧
      q + 8 ≤ (sourceOf before ++ x.kept ++ x.line).length ∧ '\n' ∉ x.line ∧
      pathAt inSource pos = some x.path ∧ loader x.path = .ok x.text := by
  have hrun := h
  rw [hreach.reaches.resolve_eq, hi] at hrun
  unfold whileLoop at hrun
  simp only [hi] at hrun
  cases hbody : loopBody inSource fileName loader st pos with
  | raise opened' e =>
    rw [hbody] at hrun
    simp only [Option.some.injEq] at hrun
    exact absurd (congrArg Outcome.result hrun) (by simp)
  | next st₁ =>
    rw [hbody] at hrun
    simp only at hrun
    have hskip := hreach.skips hi hbody hl hb hq hlt hline
    refine ⟨hskip, ?_, ?_⟩
    · intro path hpath
      obtain ⟨k, s, hs, hsi, hso⟩ := whileLoop_final inSource fileName loader _ 0 _ opened out
        ReachesAfter.entry h
      rw [← hso] at hpath
      obtain ⟨k', s', p, hs', hsp, h1, h2, h3⟩ := hs.opened_visited path hpath
      refine ⟨k', s', p, hs', hsp, ?_, h1, h2, h3⟩
      rintro rfl
      exact hskip k' s' hs' hsp
    · rcases hreach.spliced_up_to with ⟨_, hnone⟩ | ⟨splices, m, hinv⟩
      · rw [hi] at hnone
        exact absurd hnone (by simp)
      · have hlenm := sourceOf_length_of_take hinv.2.1 hinv.2.2.1
        rcases hinv.after_pass hi hbody with ⟨hc, _⟩ |
          ⟨_, _, ⟨_, h1, h2⟩ | ⟨x, a, h1, h2, h3, h4, h5, h6, h7, _⟩⟩
        · rw [hl, hb] at hc
          simp at hc
        · exact absurd hrun (whileLoop_no_marker h1 h2 _ opened out)
        · obtain ⟨after, rest, h8, h9, _⟩ :=
            whileLoop_splicedUpTo inSource fileName loader _ st₁ _ a opened out h1 hrun
          obtain ⟨ha1, ha2, _⟩ := find_char_eq_some.mp h4
          have hqa : q + 8 ≤ a := by
            by_contra hcon
            rcases Nat.lt_or_ge a q with h10 | h10
            · exact hline a h10 (by omega) ha2
            · have h8' := (startsAt_iff_getElem? _ _ _).mp hq (a - q) (show a - q < 8 by omega)
              rw [show q + (a - q) = a by omega, ha2] at h8'
              exact include_no_newline _ h8'.symm
          refine ⟨splices, x, after, rest, ?_, ?_, ?_, ?_, h5, h6, h7⟩
          · rw [h8, sourceOf_append]
          · rw [h9, outputOf_append]
          · rw [List.length_append, hlenm]
            exact h2
          · rw [List.length_append, List.length_append, hlenm]
            omega

theorem resolveIncludes_later_occurrence_on_line_witness :
    ∃ (before : List Splice) (x : Splice) (after : List Splice) (rest : Str),
      "#include \"a\" #include \"b\"\nx\n".toList =
        sourceOf before ++ (x.kept ++ x.line) ++ sourceOf after ++ rest ∧
      "#line 1  \"a\"\na\n#line 0 \"m.cg\"\n\nx\n".toList =
        outputOf "m.cg".toList before ++ (x.kept ++ x.block "m.cg".toList) ++
          outputOf "m.cg".toList after ++ rest ∧
      (sourceOf before ++ x.kept).length ≤ 0 ∧
      13 + 8 ≤ (sourceOf before ++ x.kept ++ x.line).length ∧ '\n' ∉ x.line ∧
      pathAt "#include \"a\" #include \"b\"\nx\n".toList 0 = some x.path ∧
      (fun p => (.ok p : Except Unit Str)) x.path = .ok x.text :=
  (resolveIncludes_later_occurrence_on_line "#include \"a\" #include \"b\"\nx\n".toList
    "m.cg".toList (fun p => (.ok p : Except Unit Str)) ["a".toList]
    "#line 1  \"a\"\na\n#line 0 \"m.cg\"\n\nx\n".toList 0
    (entryState "#include \"a\" #include \"b\"\nx\n".toList) 0 13 (by decide)
    ReachesAfter.entry (by decide) (by decide) (by decide) (by decide) (by decide)
    (by decide)).2.2

theorem not_endsWith_of_not_suffix {str pattern : Str} (hp : pattern ≠ [])
    (h : ¬ pattern <:+ str) : endsWith str pattern = false := by
  cases hb : endsWith str pattern with
  | false => rfl
  | true => exact absurd ((endsWith_iff_suffix _ _ hp).mp hb) h

/-- C9. Marker form selection: when a call returns an output and the loop stood at an
uncommented directive at `pos` that names the path `p`, the output is the output for the
source before the line of the directive, then a reset marker, the text of `p`, a restore
marker, and the output for the source after that line. With an origin file name that
ends in `cg` the reset marker is `#line 1 ` followed by ` "p"` and the restore marker is
`#line r` followed by ` "<origin file name>"`; with any other origin file name the reset
marker carries a bare decimal number in place of the quoted path and the restore marker
carries ` 0` in place of the quoted name. -/
theorem resolveIncludes_marker_form {ε : Type} (inSource fileName : Str)
    (loader : Str → Except ε Str) (opened : List Str) (out : Str) (n : Nat) (st : LoopState)
    (pos : Nat) (p : Str)
    (h : _resolveIncludes inSource loader fileName = some ⟨opened, .value out⟩)
    (hreach : ReachesAfter inSource fileName loader n st) (hi : st.i = some pos)
    (hl : lineCommented inSource pos = false) (hb : blockCommented inSource pos = false)
    (hp : pathAt inSource pos = some p) :
    ∃ (before after : List Splice) (kept text rest : Str) (k r : Nat),
      loader p = .ok text ∧
      inSource = sourceOf before ++ (kept ++ lineAt inSource pos) ++ sourceOf after ++ rest ∧
      (sourceOf before ++ kept).length = lineStartOf inSource pos ∧
      ("cg".toList <:+ fileName →
        out = outputOf fileName before ++ (kept ++
          (("#line 1 ".toList ++ (" \"".toList ++ p ++ "\"".toList) ++ "\n".toList) ++ text ++
            ("\n#line ".toList ++ to_string r ++
              (" \"".toList ++ fileName ++ "\"".toList) ++ "\n".toList))) ++
          outputOf fileName after ++ rest) ∧
      (¬ "cg".toList <:+ fileName →
        out = outputOf fileName before ++ (kept ++
          (("#line 1 ".toList ++ (" ".toList ++ to_string k) ++ "\n".toList) ++ text ++
            ("\n#line ".toList ++ to_string r ++ " 0".toList ++ "\n".toList))) ++
          outputOf fileName after ++ rest) := by
  obtain ⟨before, x, after, rest, a, st₁, h1, h2, _, h4, h5, h6, h7, _⟩ :=
    resolve_splice_at h hreach hi hl hb
  rw [hp] at h6
  obtain rfl := Option.some.inj h6
  refine ⟨before, after, x.kept, x.text, rest, x.lineCount, x.lineCount, h7, ?_, h4, ?_, ?_⟩
  · rw [← h5]
    exact h1
  · intro hcg
    have hends := (endsWith_iff_suffix fileName "cg".toList (by decide)).mpr hcg
    rw [h2]
    simp only [Splice.block, incLineFilename, lineFilename, hends, if_true, formatQuoted]
  · intro hcg
    have hends := not_endsWith_of_not_suffix (by decide) hcg
    rw [h2]
    simp only [Splice.block, incLineFilename, lineFilename, hends, Bool.false_eq_true,
      if_false]

theorem resolveIncludes_marker_form_witness :
    ∃ (before after : List Splice) (kept text rest : Str) (k r : Nat),
      (fun _ => (Except.ok "X\n".toList : Except Unit Str)) "f".toList = .ok text ∧
      "a\n#include \"f\"\nb\n".toList =
        sourceOf before ++ (kept ++ lineAt "a\n#include \"f\"\nb\n".toList 2) ++
          sourceOf after ++ rest ∧
      (sourceOf before ++ kept).length = lineStartOf "a\n#include \"f\"\nb\n".toList 2 ∧
      ("cg".toList <:+ "a.cg".toList →
        "a\n#line 1  \"f\"\nX\n\n#line 1 \"a.cg\"\n\nb\n".toList =
          outputOf "a.cg".toList before ++ (kept ++
          (("#line 1 ".toList ++ (" \"".toList ++ "f".toList ++ "\"".toList) ++ "\n".toList) ++
            text ++
            ("\n#line ".toList ++ to_string r ++
              (" \"".toList ++ "a.cg".toList ++ "\"".toList) ++ "\n".toList))) ++
          outputOf "a.cg".toList after ++ rest) ∧
      (¬ "cg".toList <:+ "a.cg".toList →
        "a\n#line 1  \"f\"\nX\n\n#line 1 \"a.cg\"\n\nb\n".toList =
          outputOf "a.cg".toList before ++ (kept ++
          (("#line 1 ".toList ++ (" ".toList ++ to_string k) ++ "\n".toList) ++ text ++
            ("\n#line ".toList ++ to_string r ++ " 0".toList ++ "\n".toList))) ++
          outputOf "a.cg".toList after ++ rest) :=
  resolveIncludes_marker_form "a\n#include \"f\"\nb\n".toList "a.cg".toList
    (fun _ => (Except.ok "X\n".toList : Except Unit Str)) ["f".toList]
    "a\n#line 1  \"f\"\nX\n\n#line 1 \"a.cg\"\n\nb\n".toList 0
    (entryState "a\n#include \"f\"\nb\n".toList) 2 "f".toList (by decide)
    ReachesAfter.entry (by decide) (by decide) (by decide) (by decide)

/-- C18. The synthetic id: when a call returns an output, the origin file name does not
end in `cg`, and the loop stood at an uncommented directive at `pos` that names the path
`p`, the output falls into the output assembled before the reset marker of this
directive (the output for the earlier lines of the source, with the texts and markers
spliced for earlier directives, and the source text copied up to the line of the
directive), the reset marker, the text of `p`, the restore marker, and the output for
what follows the line; and the number in the reset marker is the number of newline
characters of the output assembled before it. -/
theorem resolveIncludes_synthetic_id {ε : Type} (inSource fileName : Str)
    (loader : Str → Except ε Str) (opened : List Str) (out : Str) (n : Nat) (st : LoopState)
    (pos : Nat) (p : Str)
    (h : _resolveIncludes inSource loader fileName = some ⟨opened, .value out⟩)
    (hcg : ¬ "cg".toList <:+ fileName)
    (hreach : ReachesAfter inSource fileName loader n st) (hi : st.i = some pos)
    (hl : lineCommented inSource pos = false) (hb : blockCommented inSource pos = false)
    (hp : pathAt inSource pos = some p) :
    ∃ (before after : List Splice) (kept text rest : Str) (r : Nat),
      loader p = .ok text ∧
      inSource = sourceOf before ++ (kept ++ lineAt inSource pos) ++ sourceOf after ++ rest ∧
      (sourceOf before ++ kept).length = lineStartOf inSource pos ∧
      out = (outputOf fileName before ++ kept) ++
        ("#line 1 ".toList ++
          (" ".toList ++ to_string ((outputOf fileName before ++ kept).count '\n')) ++
          "\n".toList) ++ text ++
        ("\n#line ".toList ++ to_string r ++ " 0".toList ++ "\n".toList) ++
        (outputOf fileName after ++ rest) := by
  obtain ⟨before, x, after, rest, a, st₁, h1, h2, h3, h4, h5, h6, h7, h8, _, h10, _⟩ :=
    resolve_splice_at h hreach hi hl hb
  rw [hp] at h6
  obtain rfl := Option.some.inj h6
  have hends := not_endsWith_of_not_suffix (by decide) hcg
  refine ⟨before, after, x.kept, x.text, rest, x.lineCount, h7, ?_, h4, ?_⟩
  · rw [← h5]
    exact h1
  · rw [h2]
    simp only [Splice.block, incLineFilename, lineFilename, hends, Bool.false_eq_true,
      if_false, List.append_assoc]
    rw [h8]

theorem resolveIncludes_synthetic_id_witness :
    ∃ (before after : List Splice) (kept text rest : Str) (r : Nat),
      (fun _ => (Except.ok "X\n".toList : Except Unit Str)) "g".toList = .ok text ∧
      "#include \"f\"\n#include \"g\"\n".toList =
        sourceOf before ++ (kept ++ lineAt "#include \"f\"\n#include \"g\"\n".toList 13) ++
          sourceOf after ++ rest ∧
      (sourceOf before ++ kept).length =
        lineStartOf "#include \"f\"\n#include \"g\"\n".toList 13 ∧
      "#line 1  0\nX\n\n#line 0 0\n\n#line 1  5\nX\n\n#line 5 0\n\n".toList =
        (outputOf "a.glsl".toList before ++ kept) ++
        ("#line 1 ".toList ++
          (" ".toList ++ to_string ((outputOf "a.glsl".toList before ++ kept).count '\n')) ++
          "\n".toList) ++ text ++
        ("\n#line ".toList ++ to_string r ++ " 0".toList ++ "\n".toList) ++
        (outputOf "a.glsl".toList after ++ rest) :=
  resolveIncludes_synthetic_id "#include \"f\"\n#include \"g\"\n".toList "a.glsl".toList
    (fun _ => (Except.ok "X\n".toList : Except Unit Str)) ["f".toList, "g".toList]
    "#line 1  0\nX\n\n#line 0 0\n\n#line 1  5\nX\n\n#line 5 0\n\n".toList 1
    ⟨"#line 1  0\nX\n\n#line 0 0\n".toList, some 12, some 13, ["f".toList]⟩ 13 "g".toList
    (by decide) (by decide)
    (ReachesAfter.pass ReachesAfter.entry
      (show (entryState "#include \"f\"\n#include \"g\"\n".toList).i = some 0 by decide)
      (by decide))
    (by decide) (by decide) (by decide) (by decide)

/-- C13. Single-pass inclusion: when a call returns an output and the loop stood at an
uncommented directive at `pos` that names the path `p`, for which the loader returned
`text`, whatever `text` holds: the loader was asked for `p`; the output has `text` as it
is, between the reset marker and the restore marker, in the place of the line of the
directive; the paths the call asked the loader for are those of the directives that the
scan locates in the source, each the path of an uncommented occurrence of `#include` of
the source at which the loop stood; and after the pass the loop stands in the source, at
the first `#include` from the newline that ends the line of the directive. -/
theorem resolveIncludes_single_pass {ε : Type} (inSource fileName : Str)
    (loader : Str → Except ε Str) (opened : List Str) (out : Str) (n : Nat) (st : LoopState)
    (pos : Nat) (p text : Str)
    (h : _resolveIncludes inSource loader fileName = some ⟨opened, .value out⟩)
    (hreach : ReachesAfter inSource fileName loader n st) (hi : st.i = some pos)
    (hl : lineCommented inSource pos = false) (hb : blockCommented inSource pos = false)
    (hp : pathAt inSource pos = some p) (ht : loader p = .ok text) :
    p ∈ opened ∧
    (∃ (before after : List Splice) (kept rest : Str) (k r : Nat),
      inSource = sourceOf before ++ (kept ++ lineAt inSource pos) ++ sourceOf after ++ rest ∧
      (sourceOf before ++ kept).length = lineStartOf inSource pos ∧
      out = outputOf fileName before ++ (kept ++
        (("#line 1 ".toList ++ incLineFilename fileName p k ++ "\n".toList) ++ text ++
          ("\n#line ".toList ++ to_string r ++ lineFilename fileName ++ "\n".toList))) ++
        outputOf fileName after ++ rest) ∧
    opened = (locatedDirectives inSource (inSource.length + 1)
      (find inSource "#include".toList 0)).map Prod.snd ∧
    (∀ q ∈ opened, ∃ k s pos', ReachesAfter inSource fileName loader k s ∧ s.i = some pos' ∧
      StartsAt inSource "#include".toList pos' ∧ lineCommented inSource pos' = false ∧
      blockCommented inSource pos' = false ∧ pathAt inSource pos' = some q) ∧
    ∃ (a : Nat) (st₁ : LoopState), find inSource ['\n'] (pos + 8) = some a ∧
      ReachesAfter inSource fileName loader (n + 1) st₁ ∧ st₁.startMarker = some a ∧
      st₁.i = find inSource "#include".toList a := by
  obtain ⟨before, x, after, rest, a, st₁, h1, h2, h3, h4, h5, h6, h7, _, h9, h10, h11, h12⟩ :=
    resolve_splice_at h hreach hi hl hb
  rw [hp] at h6
  obtain rfl := Option.some.inj h6
  rw [ht] at h7
  obtain rfl := Except.ok.inj h7
  refine ⟨?_, ⟨before, after, x.kept, rest, x.lineCount, x.lineCount, ?_, h4, ?_⟩, ?_, ?_,
    a, st₁, h9, h10, h11, h12⟩
  · rw [h3]
    simp
  · rw [← h5]
    exact h1
  · rw [h2]
    rfl
  · have := whileLoop_opened inSource fileName loader _ _ opened out h
    simpa [entryState] using this
  · intro q hq
    obtain ⟨k, s, hs, hsi, hso⟩ := whileLoop_final inSource fileName loader _ 0 _ opened out
      ReachesAfter.entry h
    rw [← hso] at hq
    obtain ⟨k', s', pos', hs', hsp, hq1, hq2, hq3⟩ := hs.opened_visited q hq
    exact ⟨k', s', pos', hs', hsp, (hs'.reaches.i_valid hsp).2, hq1, hq2, hq3⟩

theorem resolveIncludes_single_pass_witness :
    ∃ (before after : List Splice) (kept rest : Str) (k r : Nat),
      "a\n#include \"f\"\nb\n".toList =
        sourceOf before ++ (kept ++ lineAt "a\n#include \"f\"\nb\n".toList 2) ++
          sourceOf after ++ rest ∧
      (sourceOf before ++ kept).length = lineStartOf "a\n#include \"f\"\nb\n".toList 2 ∧
      "a\n#line 1  \"f\"\n#include \"q\"\n\n#line 1 \"a.cg\"\n\nb\n".toList =
        outputOf "a.cg".toList before ++ (kept ++
        (("#line 1 ".toList ++ incLineFilename "a.cg".toList "f".toList k ++ "\n".toList) ++
          "#include \"q\"\n".toList ++
          ("\n#line ".toList ++ to_string r ++ lineFilename "a.cg".toList ++ "\n".toList))) ++
        outputOf "a.cg".toList after ++ rest :=
  (resolveIncludes_single_pass "a\n#include \"f\"\nb\n".toList "a.cg".toList
    (fun _ => (Except.ok "#include \"q\"\n".toList : Except Unit Str)) ["f".toList]
    "a\n#line 1  \"f\"\n#include \"q\"\n\n#line 1 \"a.cg\"\n\nb\n".toList 0
    (entryState "a\n#include \"f\"\nb\n".toList) 2 "f".toList "#include \"q\"\n".toList
    (by decide) ReachesAfter.entry (by decide) (by decide) (by decide) (by decide) rfl).2.1

/-- C14, amended. When the call returns an output, the output has at least as many
characters as the source less the contents of the lines of the expanded directives, and
22 more for each of these, the length of the shortest pair of markers. The expanded
directives are the directives that the scan locates, one for each opened path, and the
contents of the line of a directive at `pos` are `lineAt inSource pos`. So the output is
at least as long as the source when no directive is expanded and when the line of no
expanded directive holds more than 22 characters. -/
theorem resolveIncludes_output_length {ε : Type} (inSource fileName : Str)
    (loader : Str → Except ε Str) (opened : List Str) (out : Str)
    (h : _resolveIncludes inSource loader fileName = some ⟨opened, .value out⟩) :
    opened = (locatedDirectives inSource (inSource.length + 1)
      (find inSource "#include".toList 0)).map Prod.snd ∧
    inSource.length + 22 * (locatedDirectives inSource (inSource.length + 1)
        (find inSource "#include".toList 0)).length ≤
      out.length + ((locatedDirectives inSource (inSource.length + 1)
        (find inSource "#include".toList 0)).map
          (fun d => (lineAt inSource d.1).length)).sum ∧
    (locatedDirectives inSource (inSource.length + 1) (find inSource "#include".toList 0) = [] →
      inSource.length ≤ out.length) ∧
    ((∀ d ∈ locatedDirectives inSource (inSource.length + 1)
        (find inSource "#include".toList 0), (lineAt inSource d.1).length ≤ 22) →
      inSource.length ≤ out.length) := by
  obtain ⟨after, rest, h1, h2, h3, h4, h5⟩ := whileLoop_splicedUpTo inSource fileName loader _ _
    [] 0 opened out (SplicedUpTo.at_entry inSource fileName) h
  have hi : (entryState inSource).i = find inSource "#include".toList 0 := rfl
  rw [hi] at h4 h5
  generalize locatedDirectives inSource (inSource.length + 1)
    (find inSource "#include".toList 0) = located at h4 h5 ⊢
  have hlen := splices_length fileName after
  have hcount : after.length = located.length := by
    have := congrArg List.length h5
    simpa using this
  have hsum : ((after.map Splice.line).map List.length).sum =
      (located.map (fun d => (lineAt inSource d.1).length)).sum := by
    rw [h4, List.map_map]
    rfl
  have hmain : inSource.length + 22 * located.length ≤
      out.length + (located.map (fun d => (lineAt inSource d.1).length)).sum := by
    rw [← hsum, ← hcount]
    have e1 := congrArg List.length h1
    have e2 := congrArg List.length h2
    simp only [List.length_append, sourceOf, outputOf, List.length_nil, Nat.zero_add] at e1 e2
    omega
  refine ⟨?_, hmain, ?_, ?_⟩
  · rw [h3, ← h5]
    simp
  · intro hnil
    rw [hnil] at hmain
    simpa using hmain
  · intro hall
    have hle := sum_le_of_forall_le (located.map (fun d => lineAt inSource d.1)) 22
      (by
        intro l hl'
        obtain ⟨d, hd, rfl⟩ := List.mem_map.mp hl'
        exact hall d hd)
    rw [List.map_map, List.length_map] at hle
    have hle' : (located.map (fun d => (lineAt inSource d.1).length)).sum ≤
        22 * located.length := hle
    omega

theorem resolveIncludes_output_length_witness :
    ("a\n#include \"f\"\nb\n".toList).length + 22 *
        (locatedDirectives "a\n#include \"f\"\nb\n".toList
          ("a\n#include \"f\"\nb\n".toList.length + 1)
          (find "a\n#include \"f\"\nb\n".toList "#include".toList 0)).length ≤
      ("a\n#line 1  \"f\"\nX\n\n#line 1 \"a.cg\"\n\nb\n".toList).length +
        ((locatedDirectives "a\n#include \"f\"\nb\n".toList
          ("a\n#include \"f\"\nb\n".toList.length + 1)
          (find "a\n#include \"f\"\nb\n".toList "#include".toList 0)).map
            (fun d => (lineAt "a\n#include \"f\"\nb\n".toList d.1).length)).sum :=
  (resolveIncludes_output_length "a\n#include \"f\"\nb\n".toList "a.cg".toList
    (fun _ => (Except.ok "X\n".toList : Except Unit Str)) ["f".toList]
    "a\n#line 1  \"f\"\nX\n\n#line 1 \"a.cg\"\n\nb\n".toList (by decide)).2.1

theorem pathAt_of_delimiters {inSource : Str} {pos s e : Nat} {d : Char}
    (hopen : openingDelimiter inSource pos = some (s, d))
    (hse : s < e) (he : inSource[e]? = some d)
    (hnext : ∀ j, s < j → j < e → inSource[j]? ≠ some d) :
    pathAt inSource pos = some ((inSource.drop (s + 1)).take (e - s - 1)) := by
  have hfe : find inSource [d] (s + 1) = some e :=
    find_char_eq_some.mpr ⟨by omega, he, fun j h1 h2 => hnext j (by omega) h2⟩
  unfold pathAt
  rw [hopen]
  simp only [hfe]

/-- C19. Delimiter preference: at an uncommented directive at `pos` at which the loop of
a call stands, when `s` is the first double quote after the token, on the line of the
directive, the quote at `s` is the opening delimiter, wherever a `<` stands on the line,
the closing delimiter is the next double quote `e` after it, and the call asks the loader
for the text strictly between `s` and `e`, right after the paths opened before. When no
double quote stands between the token and the end of the line, and `s` is the first `<`
there and `e` the next `>` after it, the call asks for the text strictly between these;
and `<` is the opening delimiter only when no double quote stands between the token and
the end of the line. -/
theorem resolveIncludes_quote_preferred {ε : Type} (inSource fileName : Str)
    (loader : Str → Except ε Str) (n : Nat) (st : LoopState) (pos : Nat)
    (hreach : ReachesAfter inSource fileName loader n st) (hi : st.i = some pos)
    (hl : lineCommented inSource pos = false) (hb : blockCommented inSource pos = false) :
    (∀ s e, pos + 8 ≤ s → inSource[s]? = some '"' →
      (∀ j, pos + 8 ≤ j → j < s → inSource[j]? ≠ some '"' ∧ inSource[j]? ≠ some '\n') →
      s < e → inSource[e]? = some '"' → (∀ j, s < j → j < e → inSource[j]? ≠ some '"') →
      openingDelimiter inSource pos = some (s, '"') ∧
      pathAt inSource pos = some ((inSource.drop (s + 1)).take (e - s - 1)) ∧
      ∃ o, _resolveIncludes inSource loader fileName = some o ∧
        (st.opened ++ [(inSource.drop (s + 1)).take (e - s - 1)]) <+: o.opened) ∧
    (∀ s e, pos + 8 ≤ s → inSource[s]? = some '<' →
      (∀ j, pos + 8 ≤ j → j < s → inSource[j]? ≠ some '<' ∧ inSource[j]? ≠ some '\n') →
      (∀ k, pos + 8 ≤ k → (∀ j, pos + 8 ≤ j → j < k → inSource[j]? ≠ some '\n') →
        inSource[k]? ≠ some '"') →
      s < e → inSource[e]? = some '>' → (∀ j, s < j → j < e → inSource[j]? ≠ some '>') →
      openingDelimiter inSource pos = some (s, '>') ∧
      pathAt inSource pos = some ((inSource.drop (s + 1)).take (e - s - 1)) ∧
      ∃ o, _resolveIncludes inSource loader fileName = some o ∧
        (st.opened ++ [(inSource.drop (s + 1)).take (e - s - 1)]) <+: o.opened) ∧
    (∀ s, openingDelimiter inSource pos = some (s, '>') →
      inSource[s]? = some '<' ∧
      ∀ k, pos + 8 ≤ k → (∀ j, pos + 8 ≤ j → j < k → inSource[j]? ≠ some '\n') →
        inSource[k]? ≠ some '"') := by
  refine ⟨?_, ?_, ?_⟩
  · intro s e hs hq hfirst hse he hnext
    have hf : find inSource ['"'] (pos + 8) = some s :=
      find_char_eq_some.mpr ⟨hs, hq, fun j h1 h2 => (hfirst j h1 h2).1⟩
    have hon := onLine_some_of_present hf (fun j h1 h2 => (hfirst j h1 h2).2)
    have hopen : openingDelimiter inSource pos = some (s, '"') := by
      unfold openingDelimiter
      simp only [hon]
    have hpath := pathAt_of_delimiters hopen hse he hnext
    exact ⟨hopen, hpath, resolve_opens hreach.reaches hi hl hb hpath⟩
  · intro s e hs hq hfirst hnoq hse he hnext
    have hf : find inSource ['<'] (pos + 8) = some s :=
      find_char_eq_some.mpr ⟨hs, hq, fun j h1 h2 => (hfirst j h1 h2).1⟩
    have hon := onLine_some_of_present hf (fun j h1 h2 => (hfirst j h1 h2).2)
    have hoff := onLine_none_of_absent hnoq
    have hopen : openingDelimiter inSource pos = some (s, '>') := by
      unfold openingDelimiter
      simp only [hoff, hon]
    have hpath := pathAt_of_delimiters hopen hse he hnext
    exact ⟨hopen, hpath, resolve_opens hreach.reaches hi hl hb hpath⟩
  · intro s hopen
    rcases (openingDelimiter_some hopen).2.2 with ⟨hc, _⟩ | ⟨_, hf, hoff⟩
    · exact absurd hc (by decide)
    · exact ⟨(find_char_eq_some.mp hf).2.1, onLine_eq_none hoff⟩

theorem resolveIncludes_quote_preferred_witness :
    openingDelimiter "#include <a> \"b\"\n".toList 0 = some (13, '"') ∧
      pathAt "#include <a> \"b\"\n".toList 0 =
        some (("#include <a> \"b\"\n".toList.drop (13 + 1)).take (15 - 13 - 1)) ∧
      ∃ o, _resolveIncludes "#include <a> \"b\"\n".toList
          (fun _ => (Except.ok "X\n".toList : Except Unit Str)) "a.cg".toList = some o ∧
        ((entryState "#include <a> \"b\"\n".toList).opened ++
          [("#include <a> \"b\"\n".toList.drop (13 + 1)).take (15 - 13 - 1)]) <+: o.opened :=
  (resolveIncludes_quote_preferred "#include <a> \"b\"\n".toList "a.cg".toList
    (fun _ => (Except.ok "X\n".toList : Except Unit Str)) 0
    (entryState "#include <a> \"b\"\n".toList) 0 ReachesAfter.entry (by decide) (by decide)
    (by decide)).1 13 15 (by decide) (by decide)
    (by intro j h1 h2; interval_cases j <;> decide) (by decide) (by decide)
    (by intro j h1 h2; interval_cases j; decide)

end Ogre
